import Mathlib

/-!
Verification of the string-search library: the LPS (longest proper
prefix-suffix) table builder, the four single-pattern scanners (KMP,
Boyer-Moore, Boyer-Moore-Horspool, Rabin-Karp), the Aho-Corasick
multi-pattern automaton, and the unified `search` dispatcher.

Strings are embedded as `List Char`; Python while-loops are embedded
either by well-founded recursion on an explicit measure or by an
explicit fuel parameter large enough for every reachable execution
(fuel sufficiency is proved as part of the correctness theorems).
Python dicts are embedded as insertion-ordered association lists.
-/

set_option maxHeartbeats 1000000

namespace ADS

abbrev Str := List Char

/-- Character of `s` at index `i` (total version of `s[i]`; out-of-range
reads never occur on the executions the theorems quantify over). -/
def getC (s : Str) (i : Nat) : Char := s.getD i (Char.ofNat 0)

/-- The window `text[i : i+m]`. -/
def windowAt (t : Str) (i m : Nat) : Str := (t.drop i).take m

/-- Ground-truth occurrence list: every start position `s` (ascending) with
`text[s : s+|p|] = p`. -/
def naiveOccs (t p : Str) : List Nat :=
  (List.range (t.length + 1 - p.length)).filter (fun s => decide (windowAt t s p.length = p))

/-- Occurrences of `p` in `t` that end at or before position `i`
(i.e. start positions `s` with `s + |p| ≤ i`). -/
def endedBy (t p : Str) (i : Nat) : List Nat :=
  (List.range (i + 1 - p.length)).filter (fun s => decide (windowAt t s p.length = p))

/-- Occurrences with start position at least `s` (tail of `naiveOccs`). -/
def occsFrom (t p : Str) (s : Nat) : List Nat :=
  (List.range (t.length + 1 - p.length)).filter
    (fun a => decide (s ≤ a) && decide (windowAt t a p.length = p))

/-- The intended value of entry `i` of the LPS table: the greatest `k ≤ i`
such that the length-`k` prefix of `p` is a suffix of `p.take (i+1)`. -/
def lpsSpec (p : Str) (i : Nat) : Nat :=
  Nat.findGreatest (fun k => p.take k <:+ p.take (i + 1)) i

/-- Unreduced polynomial hash (Horner's rule without the modulus). -/
def polyHash (base : Nat) (s : Str) : Nat :=
  s.foldl (fun h c => h * base + c.toNat) 0

/-- Loop of `compute_lps` (source: `compute_lps`, while-loop embedded with
fuel; `2 * |p| + 1` steps are proved sufficient). -/
def computeLpsAux (p : Str) : Nat → List Nat → Nat → Nat → List Nat
  | 0, lps, _, _ => lps
  | fuel + 1, lps, length, i =>
    if i < p.length then
      if getC p i = getC p length then
        computeLpsAux p fuel (lps.set i (length + 1)) (length + 1) (i + 1)
      else
        if length ≠ 0 then
          computeLpsAux p fuel lps (lps.getD (length - 1) 0) i
        else
          computeLpsAux p fuel (lps.set i 0) length (i + 1)
    else lps

/-- Source: `compute_lps`. -/
def compute_lps (p : Str) : List Nat :=
  computeLpsAux p (2 * p.length + 1) (List.replicate p.length 0) 0 1

/-- Loop of `kmp_search` (source: `kmp_search`, while-loop embedded with
fuel; `2 * |t| + 1` steps are proved sufficient). -/
def kmpSearchAux (t p : Str) (lps : List Nat) : Nat → Nat → Nat → List Nat → List Nat
  | 0, _, _, ms => ms
  | fuel + 1, i, j, ms =>
    if i < t.length then
      let i' := if getC p j = getC t i then i + 1 else i
      let j' := if getC p j = getC t i then j + 1 else j
      if j' = p.length then
        kmpSearchAux t p lps fuel i' (lps.getD (j' - 1) 0) (ms ++ [i' - j'])
      else
        if i' < t.length ∧ getC p j' ≠ getC t i' then
          if j' ≠ 0 then kmpSearchAux t p lps fuel i' (lps.getD (j' - 1) 0) ms
          else kmpSearchAux t p lps fuel (i' + 1) j' ms
        else kmpSearchAux t p lps fuel i' j' ms
    else ms

/-- Source: `kmp_search`. -/
def kmp_search (t p : Str) : List Nat :=
  if p = [] then []
  else kmpSearchAux t p (compute_lps p) (2 * t.length + 1) 0 0 []

/-- `bad_char_table(p).get(c, -1)`: the dict is built by ascending index
writes (`table[p[i]] = i`), so a lookup returns the last (largest) index
with `p[i] = c`, or `-1` for a character absent from `p`. -/
def bad_char_get (p : Str) (c : Char) : Int :=
  match ((List.range p.length).filter (fun i => decide (getC p i = c))).getLast? with
  | some i => (i : Int)
  | none => -1

/-- Inner right-to-left comparison loop shared by `boyer_moore_search` and
`boyer_moore_horspool_search`: starting at pattern index `j`, walk left
while characters agree; the result is the final value of the Python `j`
(`-1` on a full match). -/
def bmInnerAux (t p : Str) (shift : Nat) : Nat → Int
  | 0 => if getC p 0 = getC t (shift + 0) then -1 else (0 : Int)
  | j + 1 =>
    if getC p (j + 1) = getC t (shift + (j + 1)) then bmInnerAux t p shift j
    else ((j + 1 : Nat) : Int)

/-- Outer loop of `boyer_moore_search`. -/
def bmLoop (t p : Str) (shift : Nat) : List Nat :=
  if h : (shift : Int) ≤ (t.length : Int) - (p.length : Int) then
    let j := bmInnerAux t p shift (p.length - 1)
    if j < 0 then
      shift :: bmLoop t p (shift + 1)
    else
      bmLoop t p (shift + (max 1 (j - bad_char_get p (getC t (shift + j.toNat)))).toNat)
  else []
  termination_by t.length + 1 - shift
  decreasing_by
  all_goals
    have hml : (0 : Int) ≤ (p.length : Int) := Int.natCast_nonneg _
    have h3 : shift ≤ t.length := by
      have h4 : (shift : Int) ≤ (t.length : Int) := by omega
      exact_mod_cast h4
  · omega
  · have h5 := le_max_left (1 : Int)
      (bmInnerAux t p shift (p.length - 1) -
        bad_char_get p (getC t (shift + (bmInnerAux t p shift (p.length - 1)).toNat)))
    have h6 := Int.toNat_le_toNat h5
    simp only [Int.toNat_one] at h6
    omega

/-- Source: `boyer_moore_search`. -/
def boyer_moore_search (t p : Str) : List Nat :=
  if p = [] then [] else bmLoop t p 0

/-- `skip.get(c, |p|)` for the Horspool table built from all pattern
characters except the last (`skip[p[i]] = |p| - i - 1`, later writes
winning). -/
def horspool_get (p : Str) (c : Char) : Nat :=
  match ((List.range (p.length - 1)).filter (fun i => decide (getC p i = c))).getLast? with
  | some i => p.length - i - 1
  | none => p.length

/-- Outer loop of `boyer_moore_horspool_search`; requires a non-empty
pattern (the caller guards this) so that every skip is positive. -/
def bmhLoop (t p : Str) (hp : p ≠ []) (i : Nat) : List Nat :=
  if h : (i : Int) ≤ (t.length : Int) - (p.length : Int) then
    let j := bmInnerAux t p i (p.length - 1)
    if j < 0 then
      i :: bmhLoop t p hp (i + 1)
    else
      bmhLoop t p hp (i + horspool_get p (getC t (i + p.length - 1)))
  else []
  termination_by t.length + 1 - i
  decreasing_by
  · have h3 : i ≤ t.length := by
      have : (i : Int) ≤ (t.length : Int) := by
        have hp2 : (0 : Int) ≤ (p.length : Int) := Int.natCast_nonneg _
        omega
      exact_mod_cast this
    omega
  · have h1 : 1 ≤ horspool_get p (getC t (i + p.length - 1)) := by
      unfold horspool_get
      cases hg : ((List.range (p.length - 1)).filter
          (fun k => decide (getC p k = getC t (i + p.length - 1)))).getLast? with
      | none =>
        simp only [hg]
        have : p.length ≠ 0 := by
          intro h0
          exact hp (List.eq_nil_of_length_eq_zero h0)
        omega
      | some k =>
        simp only [hg]
        have hk : k ∈ (List.range (p.length - 1)).filter
            (fun k => decide (getC p k = getC t (i + p.length - 1))) := by
          obtain ⟨hne, hEq⟩ := List.mem_getLast?_eq_getLast (Option.mem_def.mpr hg)
          exact hEq ▸ List.getLast_mem hne
        have hk2 : k ∈ List.range (p.length - 1) := List.mem_of_mem_filter hk
        have hk3 : k < p.length - 1 := List.mem_range.mp hk2
        omega
    have h3 : i ≤ t.length := by
      have : (i : Int) ≤ (t.length : Int) := by
        have hp2 : (0 : Int) ≤ (p.length : Int) := Int.natCast_nonneg _
        omega
      exact_mod_cast this
    omega

/-- Source: `boyer_moore_horspool_search`. -/
def boyer_moore_horspool_search (t p : Str) : List Nat :=
  if hp : p = [] then [] else bmhLoop t p hp 0

/-- Source: `rolling_hash`. -/
def rolling_hash (s : Str) (base m : Nat) : Nat :=
  s.foldl (fun h c => (h * base + c.toNat) % m) 0

/-- The three rolling-hash update statements of `rabin_karp_search`
(subtract the outgoing character weighted by `h`, shift in the incoming
character, normalize into `[0, mod)`). -/
def rkUpdate (t p : Str) (hh : Nat) (i : Nat) (tH : Int) : Int :=
  let a := (tH - (getC t i).toNat * hh) % (101 : Int)
  let b := (a * 256 + (getC t (i + p.length)).toNat) % (101 : Int)
  (b + 101) % (101 : Int)

/-- Loop of `rabin_karp_search`: iterate `i` over `0 .. n-m` (`cnt`
remaining iterations), carrying the rolling text hash `tH`. -/
def rkAux (t p : Str) (pH hh : Nat) : Nat → Nat → Int → List Nat
  | 0, _, _ => []
  | cnt + 1, i, tH =>
    let here :=
      if (pH : Int) = tH then
        if windowAt t i p.length = p then [i] else []
      else []
    let tH' := if i < t.length - p.length then rkUpdate t p hh i tH else tH
    here ++ rkAux t p pH hh cnt (i + 1) tH'

/-- Source: `rabin_karp_search` (base 256, modulus 101). -/
def rabin_karp_search (t p : Str) : List Nat :=
  if p = [] then []
  else if t.length < p.length then []
  else
    rkAux t p (rolling_hash p 256 101) ((256 : Nat) ^ (p.length - 1) % 101)
      (t.length - p.length + 1) 0 (rolling_hash (t.take p.length) 256 101)

/-! ### Association-list embedding of Python dicts (insertion ordered) -/

/-- Dict lookup. -/
def dlookup {α β : Type} [DecidableEq α] (k : α) (l : List (α × β)) : Option β :=
  match l.find? (fun e => decide (e.1 = k)) with
  | some e => some e.2
  | none => none

/-- Dict write `d[k] = v`: overwrite in place, or append a fresh key. -/
def dset {α β : Type} [DecidableEq α] (k : α) (v : β) : List (α × β) → List (α × β)
  | [] => [(k, v)]
  | e :: rest => if e.1 = k then (k, v) :: rest else e :: dset k v rest

/-- `if k not in d: d[k] = []` followed by `d[k].append(v)`. -/
def dictAppend {α β : Type} [DecidableEq α] (k : α) (v : β) :
    List (α × List β) → List (α × List β)
  | [] => [(k, [v])]
  | e :: rest => if e.1 = k then (e.1, e.2 ++ [v]) :: rest else e :: dictAppend k v rest

/-! ### Aho-Corasick -/

structure AhoCorasick where
  goto : List ((Nat × Char) × Nat)
  fail : List (Nat × Nat)
  output : List (Nat × List Str)

/-- One step of trie insertion: follow or create the edge `(cur, c)`;
a fresh state is numbered `len(goto) + 1`. -/
def insertChar (g : List ((Nat × Char) × Nat)) (cur : Nat) (c : Char) :
    List ((Nat × Char) × Nat) × Nat :=
  match dlookup (cur, c) g with
  | some s => (g, s)
  | none => (g ++ [((cur, c), g.length + 1)], g.length + 1)

/-- Insert one pattern into the goto structure, returning the terminal state. -/
def insertPattern (g : List ((Nat × Char) × Nat)) (p : Str) :
    List ((Nat × Char) × Nat) × Nat :=
  p.foldl (fun gc ch => insertChar gc.1 gc.2 ch) (g, 0)

/-- Goto-construction phase of `build_automaton`: insert every pattern and
append it to the output list of its terminal state. -/
def buildGotoOut (patterns : List Str) :
    List ((Nat × Char) × Nat) × List (Nat × List Str) :=
  patterns.foldl
    (fun st p =>
      let gl := insertPattern st.1 p
      (gl.1, dictAppend gl.2 p st.2))
    ([], [])

/-- The outgoing edges of state `r`, in goto insertion order (the Python
source iterates a set of characters; the result is order-independent). -/
def childEdges (g : List ((Nat × Char) × Nat)) (r : Nat) : List (Char × Nat) :=
  (g.filter (fun e => decide (e.1.1 = r))).map (fun e => (e.1.2, e.2))

/-- `while state != 0 and (state, c) not in goto: state = fail[state]`,
embedded with fuel (`len(goto) + 1` is sufficient for every automaton the
builder produces). -/
def failWalk (g : List ((Nat × Char) × Nat)) (f : List (Nat × Nat)) (c : Char) :
    Nat → Nat → Nat
  | 0, st => st
  | fuel + 1, st =>
    if st ≠ 0 ∧ dlookup (st, c) g = none then
      failWalk g f c fuel ((dlookup st f).getD 0)
    else st

/-- BFS body for one child edge `(c, u)` of the dequeued state `r`:
enqueue `u`, compute its failure link, and merge the failure target's
output list into `u`'s. -/
def processChild (g : List ((Nat × Char) × Nat)) (r : Nat)
    (st : List Nat × List (Nat × Nat) × List (Nat × List Str)) (cu : Char × Nat) :
    List Nat × List (Nat × Nat) × List (Nat × List Str) :=
  let q := st.1
  let f := st.2.1
  let out := st.2.2
  let c := cu.1
  let u := cu.2
  let w := failWalk g f c (g.length + 1) ((dlookup r f).getD 0)
  let fu := match dlookup (w, c) g with
            | some s => s
            | none => 0
  let out' := match dlookup fu out with
              | some vs =>
                match dlookup u out with
                | some us => dset u (us ++ vs) out
                | none => out ++ [(u, vs)]
              | none => out
  (q ++ [u], dset u fu f, out')

/-- BFS loop of the failure-link phase (fuel-bounded; the queue receives
each state at most once, so `len(goto) + 1` iterations always suffice). -/
def buildFailLoop (g : List ((Nat × Char) × Nat)) :
    Nat → List Nat → List (Nat × Nat) → List (Nat × List Str) →
    List (Nat × Nat) × List (Nat × List Str)
  | 0, _, f, out => (f, out)
  | fuel + 1, queue, f, out =>
    match queue with
    | [] => (f, out)
    | r :: rest =>
      let res := (childEdges g r).foldl (processChild g r) (rest, f, out)
      buildFailLoop g fuel res.1 res.2.1 res.2.2

/-- Source: `AhoCorasick.build_automaton`. -/
def AhoCorasick.build_automaton (patterns : List Str) : AhoCorasick :=
  let go := buildGotoOut patterns
  let roots := childEdges go.1 0
  let f0 := roots.map (fun cu => (cu.2, 0))
  let q0 := roots.map (fun cu => cu.2)
  let fo := buildFailLoop go.1 (go.1.length + 1) q0 f0 go.2
  ⟨go.1, fo.1, fo.2⟩

/-- One character of the Aho-Corasick scan: follow failure links until a
transition on `c` exists (or the root is reached), take it if present, and
record `i - |p| + 1` for every pattern in the new state's output list. -/
def acStepChar (ac : AhoCorasick) (st : Nat × List (Str × List Nat)) (ic : Nat × Char) :
    Nat × List (Str × List Nat) :=
  let state := st.1
  let result := st.2
  let i := ic.1
  let c := ic.2
  let w := failWalk ac.goto ac.fail c (ac.goto.length + 1) state
  let state' := match dlookup (w, c) ac.goto with
                | some s => s
                | none => w
  let result' := match dlookup state' ac.output with
                 | some pats => pats.foldl (fun res p => dictAppend p (i + 1 - p.length) res) result
                 | none => result
  (state', result')

/-- Source: `AhoCorasick.search`. -/
def AhoCorasick.search (ac : AhoCorasick) (t : Str) : List (Str × List Nat) :=
  (t.enum.foldl (acStepChar ac) (0, [])).2

/-- The goto function the builder produces for copies of a single pattern:
a chain whose state `k` is reached after reading `p.take k`. -/
def chainGoto (p : Str) : List ((Nat × Char) × Nat) :=
  (List.range p.length).map (fun k => ((k, getC p k), k + 1))

/-- First `r` failure links of the chain automaton (`fail (k+1) = lpsSpec p k`). -/
def chainFailPrefix (p : Str) (r : Nat) : List (Nat × Nat) :=
  (List.range r).map (fun k => (k + 1, lpsSpec p k))

/-- All failure links of the chain automaton. -/
def chainFail (p : Str) : List (Nat × Nat) := chainFailPrefix p p.length

/-- The result dict of `AhoCorasick.search` over `c` copies of one pattern:
each occurrence start is reported once per copy. -/
def chainResult (p : Str) (c : Nat) (occs : List Nat) : List (Str × List Nat) :=
  if occs = [] then [] else [(p, occs.flatMap (fun s => List.replicate c s))]

/-- The state of the chain automaton after reading `w`: the length of the
longest prefix of `p` that is a suffix of `w`. -/
def chainState (p : Str) (w : Str) : Nat :=
  Nat.findGreatest (fun k => p.take k <:+ w) p.length

/-! ### The trie reader and duplicate-free pattern lists (for the analysis of
`build_automaton` over lists with repeated patterns) -/

/-- Follow existing goto edges from state `s` along `p` (the trie path
reader; `none` when an edge is missing). -/
def acWalkFrom (g : List ((Nat × Char) × Nat)) : Nat → Str → Option Nat
  | s, [] => some s
  | s, c :: p =>
    match dlookup (s, c) g with
    | some u => acWalkFrom g u p
    | none => none

/-- The state a pattern's trie path ends at, read from the root. -/
def acWalk (g : List ((Nat × Char) × Nat)) (p : Str) : Option Nat :=
  acWalkFrom g 0 p

/-- `insertPattern` generalized to an arbitrary start state (for induction
along the pattern). -/
def insertPatternFrom (g : List ((Nat × Char) × Nat)) (s : Nat) (p : Str) :
    List ((Nat × Char) × Nat) × Nat :=
  p.foldl (fun gc ch => insertChar gc.1 gc.2 ch) (g, s)

/-- The goto component of the goto-construction phase in isolation (it does
not depend on the output component). -/
def acGotoFold (patterns : List Str) (g : List ((Nat × Char) × Nat)) :
    List ((Nat × Char) × Nat) :=
  patterns.foldl (fun g p => (insertPattern g p).1) g

/-- The failure target computed by `processChild` for one child edge
(depends only on the goto list, the failure links and the dequeued state,
never on the output dict). -/
def pcFu (g : List ((Nat × Char) × Nat)) (r : Nat) (f : List (Nat × Nat))
    (cu : Char × Nat) : Nat :=
  match dlookup (failWalk g f cu.1 (g.length + 1) ((dlookup r f).getD 0), cu.1) g with
  | some s => s
  | none => 0

/-- The output-dict update of `processChild` in isolation: merge the failure
target's output list into the child's. -/
def outUpd (fu u : Nat) (out : List (Nat × List Str)) : List (Nat × List Str) :=
  match dlookup fu out with
  | some vs =>
    match dlookup u out with
    | some us => dset u (us ++ vs) out
    | none => out ++ [(u, vs)]
  | none => out

/-- The state transition of one scan step (follow failure links, then the
goto edge if present); depends only on the goto and fail structures. -/
def acNext (ac : AhoCorasick) (state : Nat) (c : Char) : Nat :=
  match dlookup (failWalk ac.goto ac.fail c (ac.goto.length + 1) state, c) ac.goto with
  | some s => s
  | none => failWalk ac.goto ac.fail c (ac.goto.length + 1) state

/-- The result update of one scan step: append position `i + 1 - |p|` to
every pattern of the new state's output list. -/
def acRecord (ac : AhoCorasick) (state i : Nat) (result : List (Str × List Nat)) :
    List (Str × List Nat) :=
  match dlookup state ac.output with
  | some pats => pats.foldl (fun res p => dictAppend p (i + 1 - p.length) res) result
  | none => result

/-- First-occurrence deduplication of a pattern list: the canonical
duplicate-free input against which the automaton of a list with repeated
patterns is compared. -/
def uniq : List Str → List Str
  | [] => []
  | a :: rest => a :: uniq (rest.filter (fun b => decide (b ≠ a)))
termination_by l => l.length
decreasing_by
  simp only [List.length_cons]
  exact Nat.lt_succ_of_le (List.length_filter_le _ _)

/-! ### The unified dispatcher -/

/-- `str.lower()` (simple per-character lowercase mapping). -/
def pyLower (s : Str) : Str := s.map Char.toLower

/-- Case processing applied to the text and to each pattern. -/
def procStr (cs : Bool) (s : Str) : Str := if cs then s else pyLower s

/-- Python slice `xs[:k]` for an arbitrary integer `k`. -/
def pySlice {α : Type} (k : Int) (xs : List α) : List α :=
  if 0 ≤ k then xs.take k.toNat else xs.take (xs.length - (-k).toNat)

/-- Apply the optional `count` argument (`xs[:count]` when provided). -/
def applyCount {α : Type} (count : Option Int) (xs : List α) : List α :=
  match count with
  | none => xs
  | some k => pySlice k xs

/-- The lowercased (unless case-sensitive) non-empty patterns, in order. -/
def multiPatterns (cs : Bool) (l : List Str) : List Str :=
  (l.filter (fun p => decide (p ≠ []))).map (procStr cs)

/-- All (position, pattern) pairs of the multi-pattern scan, merged across
patterns and stably sorted by position. -/
def mergedPairs (t : Str) (cs : Bool) (l : List Str) : List (Nat × Str) :=
  (((AhoCorasick.build_automaton (multiPatterns cs l)).search (procStr cs t)).flatMap
      (fun e => e.2.map (fun pos => (pos, e.1)))).mergeSort
    (fun a b => decide (a.1 ≤ b.1))

/-- The dispatcher's argument for one or several substrings
(`isinstance(sub_string, str)` vs `isinstance(sub_string, (list, tuple))`). -/
inductive SubStr where
  | str (s : Str)
  | list (l : List Str)

/-- The dispatcher's result: a tuple of positions, a dict keyed by the
original pattern strings, or the absent value `None`. -/
abbrev SearchResult := Option (Sum (List Nat) (List (Str × Option (List Nat))))

/-- Reverse every position sequence inside a search result (the shape-level
meaning of "the reverse" of a result). -/
def revResult : SearchResult → SearchResult
  | none => none
  | some (.inl ms) => some (.inl ms.reverse)
  | some (.inr d) => some (.inr (d.map (fun e => (e.1, e.2.map List.reverse))))

/-- Regrouping phase of the multi-pattern path: one dict entry per original
pattern (first-occurrence order, later duplicates overwrite), whose value
collects the surviving merged pairs carrying its processed form. -/
def regroup (cs : Bool) (l : List Str) (pairs : List (Nat × Str)) :
    List (Str × Option (List Nat)) :=
  l.foldl
    (fun res op =>
      let ms := (pairs.filter (fun e => decide (e.2 = procStr cs op))).map (fun e => e.1)
      dset op (if ms = [] then none else some ms) res)
    []

/-- Source: `search` (the unified dispatcher). -/
def search (string : Str) (sub_string : SubStr) (case_sensitivity : Bool)
    (method : Str) (count : Option Int) : SearchResult :=
  if string = [] then none
  else
    match sub_string with
    | .str s =>
      if s = [] then none
      else
        let ms := kmp_search (procStr case_sensitivity string) (procStr case_sensitivity s)
        if ms = [] then none
        else
          let ms := if method = "last".toList then ms.reverse else ms
          let ms := applyCount count ms
          if ms = [] then none else some (.inl ms)
    | .list l =>
      if l = [] then none
      else
        if multiPatterns case_sensitivity l = [] then none
        else
          let pairs := mergedPairs string case_sensitivity l
          let pairs := if method = "last".toList then pairs.reverse else pairs
          let pairs := applyCount count pairs
          let result := regroup case_sensitivity l pairs
          if result.any (fun e => e.2.isSome) then some (.inr result) else none

/-! ## Generic lemmas: characters, windows, borders -/

theorem getC_eq_getElem (s : Str) (i : Nat) (h : i < s.length) : getC s i = s[i] := by
  simp [getC, List.getD_eq_getElem?_getD, List.getElem?_eq_getElem h]

theorem take_snoc (s : Str) (i : Nat) (h : i < s.length) :
    s.take (i + 1) = s.take i ++ [getC s i] := by
  rw [getC_eq_getElem s i h, List.take_succ]
  simp [List.getElem?_eq_getElem h]

theorem suffix_of_suffix_length_le {u v w : Str} (h1 : u <:+ w) (h2 : v <:+ w)
    (h3 : u.length ≤ v.length) : u <:+ v := by
  have h1' := List.reverse_prefix.mpr h1
  have h2' := List.reverse_prefix.mpr h2
  exact List.reverse_prefix.mp (List.prefix_of_prefix_length_le h1' h2' (by simpa using h3))

theorem snoc_suffix_snoc {u v : Str} {a b : Char} :
    u ++ [a] <:+ v ++ [b] ↔ a = b ∧ u <:+ v := by
  constructor
  · intro h
    have h' := List.reverse_prefix.mpr h
    simp only [List.reverse_append, List.reverse_singleton, List.singleton_append] at h'
    obtain ⟨hab, huv⟩ := List.cons_prefix_cons.mp h'
    exact ⟨hab, List.reverse_prefix.mp huv⟩
  · rintro ⟨rfl, t, rfl⟩
    exact ⟨t, (List.append_assoc t u [a]).symm⟩

theorem take_suffix_succ {p t : Str} {k i : Nat} (hk : k < p.length) (hi : i < t.length) :
    p.take (k + 1) <:+ t.take (i + 1) ↔ p.take k <:+ t.take i ∧ getC p k = getC t i := by
  rw [take_snoc p k hk, take_snoc t i hi, snoc_suffix_snoc]
  tauto

theorem suffix_take_le {p t : Str} {k i : Nat} (hk : k ≤ p.length)
    (h : p.take k <:+ t.take i) : k ≤ i := by
  have h1 := h.length_le
  simp only [List.length_take] at h1
  omega

/-- A length-`k+1` prefix that is a suffix of `t.take (i+1)` decomposes over
the last characters (valid for any `k + 1 ≤ min (i+1) p.length ...`). -/
theorem take_suffix_succ_decomp {p t : Str} {k i : Nat} (hk : k < p.length)
    (hi : i < t.length) (h : p.take (k + 1) <:+ t.take (i + 1)) :
    p.take k <:+ t.take i ∧ getC p k = getC t i :=
  (take_suffix_succ hk hi).mp h

/-! ## Lemmas about `lpsSpec` -/

theorem lpsSpec_le (p : Str) (i : Nat) : lpsSpec p i ≤ i := Nat.findGreatest_le i

theorem lpsSpec_suffix (p : Str) (i : Nat) : p.take (lpsSpec p i) <:+ p.take (i + 1) :=
  @Nat.findGreatest_spec 0 (fun k => p.take k <:+ p.take (i + 1)) _ i (Nat.zero_le i) (by simp)

theorem lpsSpec_max {p : Str} {i k : Nat} (hk : k ≤ i) (h : p.take k <:+ p.take (i + 1)) :
    k ≤ lpsSpec p i :=
  Nat.le_findGreatest hk h

theorem lpsSpec_is_greatest {p : Str} {i k : Nat} (h1 : lpsSpec p i < k) (h2 : k ≤ i) :
    ¬ p.take k <:+ p.take (i + 1) :=
  Nat.findGreatest_is_greatest h1 h2

theorem lpsSpec_eq {p : Str} {i v : Nat} (hvi : v ≤ i) (hsuf : p.take v <:+ p.take (i + 1))
    (hmax : ∀ k, v < k → k ≤ i → ¬ p.take k <:+ p.take (i + 1)) : lpsSpec p i = v := by
  have h1 : v ≤ lpsSpec p i := lpsSpec_max hvi hsuf
  have h2 : lpsSpec p i ≤ v := by
    by_contra hcon
    push_neg at hcon
    exact hmax _ hcon (lpsSpec_le p i) (lpsSpec_suffix p i)
  omega

theorem lpsSpec_zero (p : Str) : lpsSpec p 0 = 0 := rfl

/-! ## Correctness of `compute_lps` -/

theorem getD_set_ne {l : List Nat} {i t v : Nat} (h : i ≠ t) :
    (l.set i v).getD t 0 = l.getD t 0 := by
  simp [List.getD_eq_getElem?_getD, List.getElem?_set, h]

theorem getD_set_eq {l : List Nat} {i v : Nat} (h : i < l.length) :
    (l.set i v).getD i 0 = v := by
  simp [List.getD_eq_getElem?_getD, List.getElem?_set, h]

theorem computeLpsAux_correct (p : Str) :
    ∀ fuel lps length i,
      lps.length = p.length →
      1 ≤ i → i ≤ p.length → length < i →
      (∀ t, t < i → lps.getD t 0 = lpsSpec p t) →
      p.take length <:+ p.take i →
      (∀ k, length < k → k < i → p.take k <:+ p.take i → i < p.length →
        getC p k ≠ getC p i) →
      2 * p.length + length < fuel + 2 * i →
      (computeLpsAux p fuel lps length i).length = p.length ∧
      ∀ t, t < p.length → (computeLpsAux p fuel lps length i).getD t 0 = lpsSpec p t := by
  intro fuel
  induction fuel with
  | zero =>
    intro lps length i _ _ hi2 _ _ _ _ hfuel
    exfalso
    omega
  | succ fuel ih =>
    intro lps length i hlen hi1 hi2 hli hprev hsuf hmax hfuel
    by_cases hip : i < p.length
    · simp only [computeLpsAux, if_pos hip]
      by_cases hc : getC p i = getC p length
      · -- matched: extend the border
        simp only [if_pos hc]
        have hlp : length < p.length := by omega
        have cand : p.take (length + 1) <:+ p.take (i + 1) :=
          (take_suffix_succ hlp hip).mpr ⟨hsuf, hc.symm⟩
        have hmaxnew : ∀ k, length + 1 < k → k ≤ i → ¬ p.take k <:+ p.take (i + 1) := by
          intro k hk1 hk2 hsufk
          obtain ⟨c, rfl⟩ : ∃ c, k = c + 1 := ⟨k - 1, by omega⟩
          have hcp : c < p.length := by omega
          obtain ⟨hs, he⟩ := take_suffix_succ_decomp hcp hip hsufk
          exact hmax c (by omega) (by omega) hs hip he
        have hspecEq : lpsSpec p i = length + 1 :=
          lpsSpec_eq (by omega) cand (fun k h1 h2 => hmaxnew k h1 h2)
        apply ih (lps.set i (length + 1)) (length + 1) (i + 1)
        · simp [hlen]
        · omega
        · omega
        · omega
        · intro t ht
          by_cases hti : t = i
          · subst hti
            rw [getD_set_eq (by omega), hspecEq]
          · rw [getD_set_ne (fun he => hti he.symm)]
            exact hprev t (by omega)
        · exact cand
        · intro k h1 h2 h3 _
          exact absurd h3 (hmaxnew k h1 (by omega))
        · omega
      · simp only [if_neg hc]
        by_cases hlz : length ≠ 0
        · -- mismatch with a nonzero border: fall back through the table
          simp only [if_pos hlz]
          have hLval : lps.getD (length - 1) 0 = lpsSpec p (length - 1) :=
            hprev _ (by omega)
          rw [hLval]
          have hsub : length - 1 + 1 = length := by omega
          have hL1 : lpsSpec p (length - 1) ≤ length - 1 := lpsSpec_le p (length - 1)
          have hLsufLen : p.take (lpsSpec p (length - 1)) <:+ p.take length := by
            have := lpsSpec_suffix p (length - 1)
            rwa [hsub] at this
          apply ih lps (lpsSpec p (length - 1)) i hlen hi1 hi2 (by omega) hprev
            (hLsufLen.trans hsuf)
          · intro k h1 h2 h3 h4
            rcases lt_trichotomy k length with hkl | hkl | hkl
            · exfalso
              have h5 : p.take k <:+ p.take length :=
                suffix_of_suffix_length_le h3 hsuf
                  (by simp only [List.length_take]; omega)
              have h6 : k ≤ lpsSpec p (length - 1) := by
                apply lpsSpec_max (by omega)
                rwa [hsub]
              omega
            · subst hkl
              exact fun he => hc he.symm
            · exact hmax k hkl h2 h3 h4
          · omega
        · -- mismatch at the start: record 0 and advance
          simp only [if_neg hlz]
          push_neg at hlz
          subst hlz
          have hm0 : ∀ k, 0 < k → k ≤ i → ¬ p.take k <:+ p.take (i + 1) := by
            intro k h1 h2 h3
            obtain ⟨c, rfl⟩ : ∃ c, k = c + 1 := ⟨k - 1, by omega⟩
            have hcp : c < p.length := by omega
            obtain ⟨hs, he⟩ := take_suffix_succ_decomp hcp hip h3
            rcases Nat.eq_zero_or_pos c with hc0 | hc0
            · subst hc0
              exact hc he.symm
            · exact hmax c hc0 (by omega) hs hip he
          have hspecEq : lpsSpec p i = 0 :=
            lpsSpec_eq (by omega) (by simp) (fun k h1 h2 => hm0 k h1 h2)
          apply ih (lps.set i 0) 0 (i + 1)
          · simp [hlen]
          · omega
          · omega
          · omega
          · intro t ht
            by_cases hti : t = i
            · subst hti
              rw [getD_set_eq (by omega), hspecEq]
            · rw [getD_set_ne (fun he => hti he.symm)]
              exact hprev t (by omega)
          · simp
          · intro k h1 h2 h3 _
            exact absurd h3 (hm0 k h1 (by omega))
          · omega
    · -- loop exit: i = p.length
      simp only [computeLpsAux, if_neg hip]
      have hieq : i = p.length := by omega
      subst hieq
      exact ⟨hlen, fun t ht => hprev t ht⟩

theorem compute_lps_spec (p : Str) (hp : p ≠ []) :
    (compute_lps p).length = p.length ∧
    ∀ t, t < p.length → (compute_lps p).getD t 0 = lpsSpec p t := by
  have hlen0 : 1 ≤ p.length := List.length_pos.mpr hp
  apply computeLpsAux_correct p (2 * p.length + 1) (List.replicate p.length 0) 0 1
  · simp
  · omega
  · omega
  · omega
  · intro t ht
    have ht0 : t = 0 := by omega
    subst ht0
    rw [lpsSpec_zero]
    have h0 : 0 < p.length := hlen0
    simp [List.getD_eq_getElem?_getD, List.getElem?_replicate, h0]
  · simp
  · intro k h1 h2
    exfalso
    omega
  · omega

/-- C7: for every non-empty pattern `p`, `compute_lps p` has the same length
as `p`, entry `i` is the length of the longest prefix of `p` of length at
most `i` that is a suffix of `p.take (i+1)` (so `table[0] = 0` and
`table[i] ≤ i`). -/
theorem claim_C7_compute_lps (p : Str) (hp : p ≠ []) :
    (compute_lps p).length = p.length ∧
    (compute_lps p).getD 0 0 = 0 ∧
    ∀ i, i < p.length →
      ((compute_lps p).getD i 0 ≤ i ∧
        p.take ((compute_lps p).getD i 0) <:+ p.take (i + 1) ∧
        ∀ k, k ≤ i → p.take k <:+ p.take (i + 1) → k ≤ (compute_lps p).getD i 0) := by
  obtain ⟨h1, h2⟩ := compute_lps_spec p hp
  refine ⟨h1, ?_, ?_⟩
  · rw [h2 0 (List.length_pos.mpr hp), lpsSpec_zero]
  · intro i hi
    rw [h2 i hi]
    exact ⟨lpsSpec_le p i, lpsSpec_suffix p i, fun k hk hs => lpsSpec_max hk hs⟩

/-! ## Windows versus suffixes of prefixes -/

theorem suffix_iff_window {t p : Str} {e : Nat} (he : e ≤ t.length) :
    p <:+ t.take e ↔ p.length ≤ e ∧ windowAt t (e - p.length) p.length = p := by
  constructor
  · intro h
    have hlen : p.length ≤ e := by
      have h1 := h.length_le
      simp only [List.length_take] at h1
      omega
    refine ⟨hlen, ?_⟩
    obtain ⟨u, hu⟩ := h
    have hul : u.length = e - p.length := by
      have h2 := congrArg List.length hu
      simp only [List.length_append, List.length_take] at h2
      omega
    have h3 : (t.take e).drop (e - p.length) = p := by
      rw [← hul, ← hu, List.drop_left]
    rw [List.drop_take] at h3
    have h4 : e - (e - p.length) = p.length := by omega
    rw [h4] at h3
    exact h3
  · rintro ⟨hm, hw⟩
    have hsplit : t.take e = t.take (e - p.length) ++ windowAt t (e - p.length) p.length := by
      have h1 : e = (e - p.length) + p.length := by omega
      rw [windowAt]
      nth_rewrite 1 [h1]
      exact List.take_add t (e - p.length) p.length
    exact ⟨t.take (e - p.length), by rw [hsplit, hw]⟩

theorem window_imp_le {t p : Str} {s : Nat} (hp : p ≠ [])
    (hw : windowAt t s p.length = p) : s + p.length ≤ t.length := by
  have h1 := congrArg List.length hw
  simp only [windowAt, List.length_take, List.length_drop] at h1
  have h2 : 0 < p.length := List.length_pos.mpr hp
  omega

/-! ## Bookkeeping of occurrences that have ended -/

theorem endedBy_succ_occ {t p : Str} {i : Nat} (hm : p.length ≤ i + 1)
    (hw : windowAt t (i + 1 - p.length) p.length = p) :
    endedBy t p (i + 1) = endedBy t p i ++ [i + 1 - p.length] := by
  have h1 : i + 1 + 1 - p.length = (i + 1 - p.length) + 1 := by omega
  rw [endedBy, endedBy, h1, List.range_succ, List.filter_append, List.filter_singleton]
  simp [hw]

theorem endedBy_succ_no {t p : Str} {i : Nat}
    (h : ¬(p.length ≤ i + 1 ∧ windowAt t (i + 1 - p.length) p.length = p)) :
    endedBy t p (i + 1) = endedBy t p i := by
  by_cases hm : p.length ≤ i + 1
  · have hw : ¬ windowAt t (i + 1 - p.length) p.length = p := fun hw => h ⟨hm, hw⟩
    have h1 : i + 1 + 1 - p.length = (i + 1 - p.length) + 1 := by omega
    rw [endedBy, endedBy, h1, List.range_succ, List.filter_append, List.filter_singleton]
    simp [hw]
  · have h1 : i + 1 + 1 - p.length = 0 := by omega
    have h2 : i + 1 - p.length = 0 := by omega
    rw [endedBy, endedBy, h1, h2]

theorem endedBy_zero {t p : Str} (hp : p ≠ []) : endedBy t p 0 = [] := by
  have h2 : 0 < p.length := List.length_pos.mpr hp
  have h1 : 1 - p.length = 0 := by omega
  rw [endedBy, h1]
  rfl

theorem naiveOccs_eq_endedBy (t p : Str) : naiveOccs t p = endedBy t p t.length := rfl

theorem claim_C7_witness :
    ("aba".toList ≠ ([] : Str)) ∧
    ((compute_lps "aba".toList).length = "aba".toList.length ∧
      (compute_lps "aba".toList).getD 0 0 = 0 ∧
      ∀ i, i < "aba".toList.length →
        ((compute_lps "aba".toList).getD i 0 ≤ i ∧
          "aba".toList.take ((compute_lps "aba".toList).getD i 0) <:+
            "aba".toList.take (i + 1) ∧
          ∀ k, k ≤ i → "aba".toList.take k <:+ "aba".toList.take (i + 1) →
            k ≤ (compute_lps "aba".toList).getD i 0)) :=
  ⟨by decide, claim_C7_compute_lps "aba".toList (by decide)⟩

/-! ## Correctness of `kmp_search` -/

theorem kmpSearchAux_correct (t p : Str) (hp : p ≠ []) (lps : List Nat)
    (hlps : ∀ k, k < p.length → lps.getD k 0 = lpsSpec p k) :
    ∀ fuel i j ms,
      j < p.length → i ≤ t.length →
      p.take j <:+ t.take i →
      (∀ k, j < k → k < p.length → p.take k <:+ t.take i → i < t.length →
        getC p k ≠ getC t i) →
      ms = endedBy t p i →
      2 * t.length + j < fuel + 2 * i →
      kmpSearchAux t p lps fuel i j ms = endedBy t p t.length := by
  intro fuel
  induction fuel with
  | zero =>
    intro i j ms hj hi hsuf hmax hms hfuel
    exfalso
    omega
  | succ fuel ih =>
    intro i j ms hj hi hsuf hmax hms hfuel
    by_cases hin : i < t.length
    · simp only [kmpSearchAux, if_pos hin]
      by_cases hc : getC p j = getC t i
      · simp only [if_pos hc]
        have hsuf1 : p.take (j + 1) <:+ t.take (i + 1) :=
          (take_suffix_succ hj hin).mpr ⟨hsuf, hc⟩
        have hstrong : ∀ k, j + 1 < k → k ≤ p.length → ¬ p.take k <:+ t.take (i + 1) := by
          intro k hk1 hk2 hsk
          obtain ⟨c, rfl⟩ : ∃ c, k = c + 1 := ⟨k - 1, by omega⟩
          have hcp : c < p.length := by omega
          obtain ⟨hs, he⟩ := take_suffix_succ_decomp hcp hin hsk
          exact hmax c (by omega) hcp hs hin he
        by_cases hjm : j + 1 = p.length
        · -- a full match ends at position i+1
          simp only [if_pos hjm]
          have hpfull : p <:+ t.take (i + 1) := by
            have h0 := hsuf1
            rwa [hjm, List.take_length] at h0
          obtain ⟨hmle, hw⟩ := (suffix_iff_window (by omega)).mp hpfull
          have hLj : lpsSpec p j ≤ j := lpsSpec_le p j
          have hLjsuf : p.take (lpsSpec p j) <:+ p := by
            have h0 := lpsSpec_suffix p j
            rwa [hjm, List.take_length] at h0
          have hsub : j + 1 - 1 = j := by omega
          rw [hsub, hlps j hj]
          apply ih (i + 1) (lpsSpec p j) (ms ++ [i + 1 - (j + 1)])
          · omega
          · omega
          · exact hLjsuf.trans hpfull
          · intro k h1 h2 h3 _
            exfalso
            have h4 : p.take k <:+ p :=
              suffix_of_suffix_length_le h3 hpfull (by simp only [List.length_take]; omega)
            have h5 : k ≤ lpsSpec p j := by
              apply lpsSpec_max (by omega)
              rwa [hjm, List.take_length]
            omega
          · rw [hms, hjm, endedBy_succ_occ hmle hw]
          · omega
        · -- the border grew but no full match yet
          simp only [if_neg hjm]
          have hjm' : j + 1 < p.length := by omega
          have hnoend : endedBy t p (i + 1) = endedBy t p i := by
            apply endedBy_succ_no
            rintro ⟨hm1, hw⟩
            have hpfull : p <:+ t.take (i + 1) := (suffix_iff_window (by omega)).mpr ⟨hm1, hw⟩
            have h0 : p.take p.length <:+ t.take (i + 1) := by
              rwa [List.take_length]
            exact hstrong p.length (by omega) (le_refl _) h0
          by_cases hcond : i + 1 < t.length ∧ getC p (j + 1) ≠ getC t (i + 1)
          · simp only [if_pos hcond]
            have hjz : j + 1 ≠ 0 := by omega
            simp only [if_pos hjz]
            have hsub : j + 1 - 1 = j := by omega
            rw [hsub, hlps j hj]
            have hLj : lpsSpec p j ≤ j := lpsSpec_le p j
            apply ih (i + 1) (lpsSpec p j) ms
            · omega
            · omega
            · exact (lpsSpec_suffix p j).trans hsuf1
            · intro k h1 h2 h3 _
              rcases lt_trichotomy k (j + 1) with hkl | hkl | hkl
              · exfalso
                have h4 : p.take k <:+ p.take (j + 1) :=
                  suffix_of_suffix_length_le h3 hsuf1 (by simp only [List.length_take]; omega)
                have h5 : k ≤ lpsSpec p j := lpsSpec_max (by omega) h4
                omega
              · subst hkl
                exact hcond.2
              · exact absurd h3 (hstrong k hkl (by omega))
            · rw [hms, hnoend]
            · omega
          · simp only [if_neg hcond]
            apply ih (i + 1) (j + 1) ms
            · exact hjm'
            · omega
            · exact hsuf1
            · intro k h1 h2 h3 _
              exact absurd h3 (hstrong k h1 (by omega))
            · rw [hms, hnoend]
            · omega
      · -- mismatch
        simp only [if_neg hc]
        have hjm : j ≠ p.length := by omega
        simp only [if_neg hjm]
        have hcond : i < t.length ∧ getC p j ≠ getC t i := ⟨hin, hc⟩
        simp only [if_pos hcond]
        by_cases hjz : j ≠ 0
        · simp only [if_pos hjz]
          have hj0 : 0 < j := by omega
          have hsub : j - 1 + 1 = j := by omega
          rw [hlps (j - 1) (by omega)]
          have hL1 : lpsSpec p (j - 1) ≤ j - 1 := lpsSpec_le p (j - 1)
          have hLsuf : p.take (lpsSpec p (j - 1)) <:+ p.take j := by
            have h0 := lpsSpec_suffix p (j - 1)
            rwa [hsub] at h0
          apply ih i (lpsSpec p (j - 1)) ms
          · omega
          · omega
          · exact hLsuf.trans hsuf
          · intro k h1 h2 h3 h4
            rcases lt_trichotomy k j with hkl | hkl | hkl
            · exfalso
              have h5 : p.take k <:+ p.take j :=
                suffix_of_suffix_length_le h3 hsuf (by simp only [List.length_take]; omega)
              have h6 : k ≤ lpsSpec p (j - 1) := by
                apply lpsSpec_max (by omega)
                rwa [hsub]
              omega
            · subst hkl
              exact hc
            · exact hmax k hkl h2 h3 h4
          · exact hms
          · omega
        · simp only [if_neg hjz]
          push_neg at hjz
          subst hjz
          have hstrong0 : ∀ k, 0 < k → k ≤ p.length → ¬ p.take k <:+ t.take (i + 1) := by
            intro k h1 hk2 hsk
            obtain ⟨c, rfl⟩ : ∃ c, k = c + 1 := ⟨k - 1, by omega⟩
            have hcp : c < p.length := by omega
            obtain ⟨hs, he⟩ := take_suffix_succ_decomp hcp hin hsk
            rcases Nat.eq_zero_or_pos c with hc0 | hc0
            · subst hc0
              exact hc he
            · exact hmax c hc0 hcp hs hin he
          have hnoend : endedBy t p (i + 1) = endedBy t p i := by
            apply endedBy_succ_no
            rintro ⟨hm1, hw⟩
            have hpfull : p <:+ t.take (i + 1) := (suffix_iff_window (by omega)).mpr ⟨hm1, hw⟩
            have h0 : p.take p.length <:+ t.take (i + 1) := by
              rwa [List.take_length]
            exact hstrong0 p.length (List.length_pos.mpr hp) (le_refl _) h0
          apply ih (i + 1) 0 ms
          · exact List.length_pos.mpr hp
          · omega
          · simp
          · intro k h1 h2 h3 _
            exact absurd h3 (hstrong0 k h1 (by omega))
          · rw [hms, hnoend]
          · omega
    · have hieq : i = t.length := by omega
      subst hieq
      simp only [kmpSearchAux, if_neg hin]
      exact hms

theorem kmp_search_correct (t p : Str) (hp : p ≠ []) : kmp_search t p = naiveOccs t p := by
  rw [kmp_search, if_neg hp, naiveOccs_eq_endedBy]
  obtain ⟨_, hlps⟩ := compute_lps_spec p hp
  apply kmpSearchAux_correct t p hp _ (fun k hk => hlps k hk)
  · exact List.length_pos.mpr hp
  · omega
  · simp
  · intro k h1 h2 h3 _
    exfalso
    have h4 := h3.length_le
    simp only [List.length_take, List.take_zero, List.length_nil] at h4
    omega
  · rw [endedBy_zero hp]
  · omega

/-! ## Occurrence-suffix lists and pointwise window equality -/

theorem naiveOccs_eq_occsFrom (t p : Str) : naiveOccs t p = occsFrom t p 0 := by
  rw [naiveOccs, occsFrom]
  apply List.filter_congr
  intro a _
  simp

theorem occsFrom_nil {t p : Str} {s : Nat} (hs : t.length + 1 - p.length ≤ s) :
    occsFrom t p s = [] := by
  rw [occsFrom, List.filter_eq_nil_iff]
  intro a ha
  have h1 : a < t.length + 1 - p.length := List.mem_range.mp ha
  simp only [Bool.and_eq_true, decide_eq_true_eq, not_and]
  intro h2
  omega

theorem occsFrom_eq_filter_range' (t p : Str) {s : Nat}
    (hs : s ≤ t.length + 1 - p.length) :
    occsFrom t p s = (List.range' s (t.length + 1 - p.length - s)).filter
      (fun a => decide (windowAt t a p.length = p)) := by
  have h1 := List.range'_append 0 s (t.length + 1 - p.length - s) 1
  simp only [Nat.zero_add, Nat.one_mul] at h1
  have h2 : t.length + 1 - p.length - s + s = t.length + 1 - p.length := by omega
  rw [h2] at h1
  rw [occsFrom, List.range_eq_range', ← h1, List.filter_append]
  have h3 : (List.range' 0 s).filter
      (fun a => decide (s ≤ a) && decide (windowAt t a p.length = p)) = [] := by
    rw [List.filter_eq_nil_iff]
    intro a ha
    have h4 : a < s := by
      have := List.mem_range'_1.mp ha
      omega
    simp only [Bool.and_eq_true, decide_eq_true_eq, not_and]
    intro h5
    omega
  rw [h3, List.nil_append]
  apply List.filter_congr
  intro a ha
  have h6 : s ≤ a := (List.mem_range'_1.mp ha).1
  simp [h6]

theorem occsFrom_cons {t p : Str} {s : Nat} (hs : s < t.length + 1 - p.length)
    (hw : windowAt t s p.length = p) :
    occsFrom t p s = s :: occsFrom t p (s + 1) := by
  rw [occsFrom_eq_filter_range' t p (by omega), occsFrom_eq_filter_range' t p (by omega)]
  have h1 : t.length + 1 - p.length - s = (t.length + 1 - p.length - (s + 1)) + 1 := by omega
  rw [h1, List.range'_succ]
  simp [hw]

theorem occsFrom_skip_one {t p : Str} {s : Nat} (hnw : windowAt t s p.length ≠ p) :
    occsFrom t p s = occsFrom t p (s + 1) := by
  by_cases hs : s < t.length + 1 - p.length
  · rw [occsFrom_eq_filter_range' t p (by omega), occsFrom_eq_filter_range' t p (by omega)]
    have h1 : t.length + 1 - p.length - s = (t.length + 1 - p.length - (s + 1)) + 1 := by omega
    rw [h1, List.range'_succ]
    simp [hnw]
  · rw [occsFrom_nil (by omega), occsFrom_nil (by omega)]

theorem occsFrom_skip {t p : Str} :
    ∀ d s, (∀ x, s ≤ x → x < s + d → windowAt t x p.length ≠ p) →
      occsFrom t p s = occsFrom t p (s + d) := by
  intro d
  induction d with
  | zero => intro s _; rfl
  | succ d ihd =>
    intro s hno
    rw [occsFrom_skip_one (hno s (le_refl s) (by omega)), ihd (s + 1) ?_]
    · congr 1
      omega
    · intro x h1 h2
      exact hno x (by omega) (by omega)

theorem getC_window {t : Str} {s m q : Nat} (hq : q < m) (hs : s + m ≤ t.length) :
    getC (windowAt t s m) q = getC t (s + q) := by
  have h1 : q < (windowAt t s m).length := by
    simp only [windowAt, List.length_take, List.length_drop]
    omega
  have h2 : s + q < t.length := by omega
  rw [getC_eq_getElem _ _ h1, getC_eq_getElem _ _ h2]
  simp only [windowAt, List.getElem_take, List.getElem_drop]

theorem window_eq_iff_pointwise {t p : Str} {s : Nat} (hs : s + p.length ≤ t.length) :
    windowAt t s p.length = p ↔ ∀ q, q < p.length → getC p q = getC t (s + q) := by
  constructor
  · intro hw q hq
    rw [← hw, getC_window hq hs]
  · intro hpt
    apply List.ext_getElem
    · simp only [windowAt, List.length_take, List.length_drop]
      omega
    · intro q h1 h2
      have hq : q < p.length := h2
      have h3 : s + q < t.length := by omega
      have h4 := hpt q hq
      rw [getC_eq_getElem _ _ hq, getC_eq_getElem _ _ h3] at h4
      have h5 : (windowAt t s p.length)[q] = t[s + q] := by
        simp only [windowAt, List.getElem_take, List.getElem_drop]
      rw [h5]
      exact h4.symm

/-! ## The shared right-to-left comparison loop -/

theorem bmInnerAux_spec (t p : Str) (shift : Nat) :
    ∀ j0, (bmInnerAux t p shift j0 = -1 ∧ ∀ q, q ≤ j0 → getC p q = getC t (shift + q)) ∨
      (∃ k : Nat, bmInnerAux t p shift j0 = (k : Int) ∧ k ≤ j0 ∧
        getC p k ≠ getC t (shift + k) ∧
        ∀ q, k < q → q ≤ j0 → getC p q = getC t (shift + q)) := by
  intro j0
  induction j0 with
  | zero =>
    by_cases h : getC p 0 = getC t shift
    · left
      refine ⟨by simp [bmInnerAux, h], ?_⟩
      intro q hq
      have hq0 : q = 0 := by omega
      subst hq0
      simpa using h
    · right
      refine ⟨0, by simp [bmInnerAux, h], le_refl 0, by simpa using h, ?_⟩
      intro q h1 h2
      omega
  | succ j ihj =>
    by_cases h : getC p (j + 1) = getC t (shift + (j + 1))
    · have hred : bmInnerAux t p shift (j + 1) = bmInnerAux t p shift j := by
        simp [bmInnerAux, h]
      rcases ihj with ⟨h1, h2⟩ | ⟨k, h1, h2, h3, h4⟩
      · left
        refine ⟨hred ▸ h1, ?_⟩
        intro q hq
        rcases Nat.lt_or_ge q (j + 1) with hq1 | hq1
        · exact h2 q (by omega)
        · have hq2 : q = j + 1 := by omega
          subst hq2
          exact h
      · right
        refine ⟨k, hred ▸ h1, by omega, h3, ?_⟩
        intro q hq1 hq2
        rcases Nat.lt_or_ge q (j + 1) with hq3 | hq3
        · exact h4 q hq1 (by omega)
        · have hq4 : q = j + 1 := by omega
          subst hq4
          exact h
    · right
      refine ⟨j + 1, by simp [bmInnerAux, h], le_refl _, h, ?_⟩
      intro q h1 h2
      omega

/-! ## The shift tables never skip a later occurrence of a character -/

theorem mem_le_getLast {l : List Nat} (hl : List.Pairwise (· < ·) l) {a : Nat} (ha : a ∈ l) :
    ∃ b, l.getLast? = some b ∧ a ≤ b := by
  induction l with
  | nil => cases ha
  | cons x xs ihx =>
    cases xs with
    | nil =>
      have hax : a = x := by simpa using ha
      subst hax
      exact ⟨a, rfl, le_refl a⟩
    | cons y ys =>
      have hl' : List.Pairwise (· < ·) (y :: ys) := (List.pairwise_cons.mp hl).2
      rcases List.mem_cons.mp ha with rfl | hmem
      · have hne : (y :: ys) ≠ [] := by simp
        have hb1 := List.getLast?_eq_getLast_of_ne_nil hne
        have hbmem : (y :: ys).getLast hne ∈ y :: ys := List.getLast_mem hne
        have hxb : a < (y :: ys).getLast hne := (List.pairwise_cons.mp hl).1 _ hbmem
        exact ⟨(y :: ys).getLast hne, by rw [List.getLast?_cons_cons, hb1], by omega⟩
      · obtain ⟨b, hb1, hb2⟩ := ihx hl' hmem
        exact ⟨b, by rw [List.getLast?_cons_cons, hb1], hb2⟩

theorem bad_char_ub (p : Str) (c : Char) {i : Nat} (hi : i < p.length)
    (he : getC p i = c) : (i : Int) ≤ bad_char_get p c := by
  have hmem : i ∈ (List.range p.length).filter (fun k => decide (getC p k = c)) := by
    simp [List.mem_filter, List.mem_range, hi, he]
  have hpw : List.Pairwise (· < ·)
      ((List.range p.length).filter (fun k => decide (getC p k = c))) :=
    (List.pairwise_lt_range _).sublist (List.filter_sublist _)
  obtain ⟨b, hb1, hb2⟩ := mem_le_getLast hpw hmem
  simp only [bad_char_get, hb1]
  exact_mod_cast hb2

theorem bad_char_lb (p : Str) (c : Char) : -1 ≤ bad_char_get p c := by
  cases hg : ((List.range p.length).filter (fun k => decide (getC p k = c))).getLast? with
  | none =>
    simp only [bad_char_get, hg]
    omega
  | some k =>
    simp only [bad_char_get, hg]
    have : (0 : Int) ≤ (k : Int) := Int.natCast_nonneg k
    omega

/-! ## Correctness of `boyer_moore_search` -/

theorem bmLoop_correct (t p : Str) (hp : p ≠ []) :
    ∀ n shift, t.length + 1 - shift ≤ n → bmLoop t p shift = occsFrom t p shift := by
  intro n
  induction n with
  | zero =>
    intro shift hn
    have hm1 : 0 < p.length := List.length_pos.mpr hp
    have hg : ¬ ((shift : Int) ≤ (t.length : Int) - (p.length : Int)) := by
      omega
    rw [bmLoop, dif_neg hg, occsFrom_nil (by omega)]
  | succ n ihn =>
    intro shift hn
    have hm1 : 0 < p.length := List.length_pos.mpr hp
    by_cases hg : (shift : Int) ≤ (t.length : Int) - (p.length : Int)
    · rw [bmLoop, dif_pos hg]
      have hsm : shift + p.length ≤ t.length := by omega
      rcases bmInnerAux_spec t p shift (p.length - 1) with ⟨hj1, hj2⟩ | ⟨k, hk1, hk2, hk3, hk4⟩
      · rw [hj1]
        have hlt : (-1 : Int) < 0 := by omega
        rw [if_pos hlt]
        have hw : windowAt t shift p.length = p :=
          (window_eq_iff_pointwise hsm).mpr (fun q hq => hj2 q (by omega))
        rw [occsFrom_cons (by omega) hw]
        congr 1
        apply ihn
        omega
      · rw [hk1]
        have hnneg : ¬ ((k : Int) < 0) := by omega
        rw [if_neg hnneg]
        simp only [Int.toNat_natCast]
        have hnw : windowAt t shift p.length ≠ p := fun hw =>
          hk3 ((window_eq_iff_pointwise hsm).mp hw k (by omega))
        have hbc := bad_char_lb p (getC t (shift + k))
        have hub := fun (q : Nat) (hq : q < p.length) (he : getC p q = getC t (shift + k)) =>
          bad_char_ub p (getC t (shift + k)) hq he
        have hno : ∀ x, shift ≤ x →
            x < shift + (max 1 ((k : Int) - bad_char_get p (getC t (shift + k)))).toNat →
            windowAt t x p.length ≠ p := by
          intro d hd1 hd2 hw
          rcases Nat.eq_or_lt_of_le hd1 with rfl | hdlt
          · exact hnw hw
          · by_cases hkb : (k : Int) - bad_char_get p (getC t (shift + k)) ≤ 1
            · have hone : (max 1 ((k : Int) - bad_char_get p (getC t (shift + k)))).toNat = 1 := by
                rw [max_eq_left hkb]
                rfl
              rw [hone] at hd2
              omega
            · push_neg at hkb
              have hskipval : ((max 1 ((k : Int) - bad_char_get p (getC t (shift + k)))).toNat : Int)
                  = (k : Int) - bad_char_get p (getC t (shift + k)) := by
                rw [max_eq_right (by omega)]
                rw [Int.toNat_of_nonneg (by omega)]
              have hdk : d - shift ≤ k := by omega
              have hsmd : d + p.length ≤ t.length := window_imp_le hp hw
              have hq : k - (d - shift) < p.length := by omega
              have hqc : getC p (k - (d - shift)) = getC t (d + (k - (d - shift))) :=
                (window_eq_iff_pointwise hsmd).mp hw (k - (d - shift)) (by omega)
              have hdq : d + (k - (d - shift)) = shift + k := by omega
              rw [hdq] at hqc
              have := hub (k - (d - shift)) hq hqc
              omega
        rw [occsFrom_skip _ shift hno]
        apply ihn
        have hskip1 : 1 ≤ (max 1 ((k : Int) - bad_char_get p (getC t (shift + k)))).toNat := by
          have h5 := le_max_left (1 : Int) ((k : Int) - bad_char_get p (getC t (shift + k)))
          have h6 := Int.toNat_le_toNat h5
          simpa using h6
        omega
    · rw [bmLoop, dif_neg hg, occsFrom_nil (by omega)]

theorem boyer_moore_correct (t p : Str) (hp : p ≠ []) :
    boyer_moore_search t p = naiveOccs t p := by
  rw [boyer_moore_search, if_neg hp, naiveOccs_eq_occsFrom]
  exact bmLoop_correct t p hp (t.length + 1) 0 (by omega)

/-! ## Correctness of `boyer_moore_horspool_search` -/

theorem horspool_get_none {p : Str} {c : Char}
    (hg : ((List.range (p.length - 1)).filter (fun i => decide (getC p i = c))).getLast?
      = none) :
    ∀ idx, idx < p.length - 1 → getC p idx ≠ c := by
  intro idx hidx he
  have hnil : (List.range (p.length - 1)).filter (fun i => decide (getC p i = c)) = [] :=
    List.getLast?_eq_none_iff.mp hg
  have hmem : idx ∈ (List.range (p.length - 1)).filter (fun i => decide (getC p i = c)) := by
    simp [List.mem_filter, List.mem_range, hidx, he]
  rw [hnil] at hmem
  cases hmem

theorem horspool_get_some {p : Str} {c : Char} {k : Nat}
    (hg : ((List.range (p.length - 1)).filter (fun i => decide (getC p i = c))).getLast?
      = some k) :
    k < p.length - 1 ∧ getC p k = c ∧ ∀ idx, k < idx → idx < p.length - 1 → getC p idx ≠ c := by
  have hkmem : k ∈ (List.range (p.length - 1)).filter (fun i => decide (getC p i = c)) := by
    obtain ⟨hne, hEq⟩ := List.mem_getLast?_eq_getLast (Option.mem_def.mpr hg)
    exact hEq ▸ List.getLast_mem hne
  have hk1 : k < p.length - 1 := List.mem_range.mp (List.mem_of_mem_filter hkmem)
  have hk2 : getC p k = c := by
    have := List.of_mem_filter hkmem
    simpa using this
  refine ⟨hk1, hk2, ?_⟩
  intro idx h1 h2 he
  have hmem : idx ∈ (List.range (p.length - 1)).filter (fun i => decide (getC p i = c)) := by
    simp [List.mem_filter, List.mem_range, h2, he]
  have hpw : List.Pairwise (· < ·)
      ((List.range (p.length - 1)).filter (fun i => decide (getC p i = c))) :=
    (List.pairwise_lt_range _).sublist (List.filter_sublist _)
  obtain ⟨b, hb1, hb2⟩ := mem_le_getLast hpw hmem
  rw [hg] at hb1
  have hbk : b = k := by
    have := Option.some.inj hb1
    omega
  omega

theorem bmhLoop_correct (t p : Str) (hp : p ≠ []) :
    ∀ n i, t.length + 1 - i ≤ n → bmhLoop t p hp i = occsFrom t p i := by
  intro n
  induction n with
  | zero =>
    intro i hn
    have hm1 : 0 < p.length := List.length_pos.mpr hp
    have hg : ¬ ((i : Int) ≤ (t.length : Int) - (p.length : Int)) := by omega
    rw [bmhLoop, dif_neg hg, occsFrom_nil (by omega)]
  | succ n ihn =>
    intro i hn
    have hm1 : 0 < p.length := List.length_pos.mpr hp
    by_cases hg : (i : Int) ≤ (t.length : Int) - (p.length : Int)
    · rw [bmhLoop, dif_pos hg]
      have hsm : i + p.length ≤ t.length := by omega
      rcases bmInnerAux_spec t p i (p.length - 1) with ⟨hj1, hj2⟩ | ⟨k, hk1, hk2, hk3, hk4⟩
      · rw [hj1]
        have hlt : (-1 : Int) < 0 := by omega
        rw [if_pos hlt]
        have hw : windowAt t i p.length = p :=
          (window_eq_iff_pointwise hsm).mpr (fun q hq => hj2 q (by omega))
        rw [occsFrom_cons (by omega) hw]
        congr 1
        apply ihn
        omega
      · rw [hk1]
        have hnneg : ¬ ((k : Int) < 0) := by omega
        rw [if_neg hnneg]
        have hnw : windowAt t i p.length ≠ p := fun hw =>
          hk3 ((window_eq_iff_pointwise hsm).mp hw k (by omega))
        have hidx : i + p.length - 1 = i + (p.length - 1) := by omega
        have hno : ∀ x, i ≤ x → x < i + horspool_get p (getC t (i + p.length - 1)) →
            windowAt t x p.length ≠ p := by
          intro d hd1 hd2 hw
          rcases Nat.eq_or_lt_of_le hd1 with rfl | hdlt
          · exact hnw hw
          · have hsmd : d + p.length ≤ t.length := window_imp_le hp hw
            cases hgl : ((List.range (p.length - 1)).filter
                (fun q => decide (getC p q = getC t (i + p.length - 1)))).getLast? with
            | none =>
              have hskip : horspool_get p (getC t (i + p.length - 1)) = p.length := by
                simp only [horspool_get, hgl]
              rw [hskip] at hd2
              have habs := horspool_get_none hgl
              have hq : p.length - 1 - (d - i) < p.length := by omega
              have hqc : getC p (p.length - 1 - (d - i))
                  = getC t (d + (p.length - 1 - (d - i))) :=
                (window_eq_iff_pointwise hsmd).mp hw _ (by omega)
              have hdq : d + (p.length - 1 - (d - i)) = i + p.length - 1 := by omega
              rw [hdq] at hqc
              exact habs (p.length - 1 - (d - i)) (by omega) hqc
            | some k2 =>
              have hskip : horspool_get p (getC t (i + p.length - 1)) = p.length - k2 - 1 := by
                simp only [horspool_get, hgl]
              obtain ⟨hk21, hk22, hk23⟩ := horspool_get_some hgl
              rw [hskip] at hd2
              have hq : p.length - 1 - (d - i) < p.length := by omega
              have hqc : getC p (p.length - 1 - (d - i))
                  = getC t (d + (p.length - 1 - (d - i))) :=
                (window_eq_iff_pointwise hsmd).mp hw _ (by omega)
              have hdq : d + (p.length - 1 - (d - i)) = i + p.length - 1 := by omega
              rw [hdq] at hqc
              exact hk23 (p.length - 1 - (d - i)) (by omega) (by omega) hqc
        rw [occsFrom_skip _ i hno]
        apply ihn
        have hskip1 : 1 ≤ horspool_get p (getC t (i + p.length - 1)) := by
          cases hgl : ((List.range (p.length - 1)).filter
              (fun q => decide (getC p q = getC t (i + p.length - 1)))).getLast? with
          | none => simp only [horspool_get, hgl]; omega
          | some k2 =>
            obtain ⟨hk21, _, _⟩ := horspool_get_some hgl
            simp only [horspool_get, hgl]
            omega
        omega
    · rw [bmhLoop, dif_neg hg, occsFrom_nil (by omega)]

theorem boyer_moore_horspool_correct (t p : Str) (hp : p ≠ []) :
    boyer_moore_horspool_search t p = naiveOccs t p := by
  rw [boyer_moore_horspool_search, naiveOccs_eq_occsFrom]
  rw [dif_neg hp]
  exact bmhLoop_correct t p hp (t.length + 1) 0 (by omega)

/-! ## Correctness of `rabin_karp_search` -/

theorem foldl_hash_mod (b m : Nat) :
    ∀ (s : Str) (a : Nat),
      s.foldl (fun h c => (h * b + c.toNat) % m) (a % m)
        = (s.foldl (fun h c => h * b + c.toNat) a) % m := by
  intro s
  induction s with
  | nil => intro a; rfl
  | cons c cs ih =>
    intro a
    simp only [List.foldl_cons]
    have h1 : (a % m * b + c.toNat) % m = (a * b + c.toNat) % m :=
      ((Nat.mod_modEq a m).mul_right b).add_right c.toNat
    rw [h1]
    exact ih (a * b + c.toNat)

theorem rolling_hash_eq_polyHash (s : Str) (b m : Nat) :
    rolling_hash s b m = polyHash b s % m := by
  have h := foldl_hash_mod b m s 0
  rw [Nat.zero_mod] at h
  exact h

theorem foldl_polyHash (b : Nat) :
    ∀ (s : Str) (a : Nat),
      s.foldl (fun h c => h * b + c.toNat) a = a * b ^ s.length + polyHash b s := by
  intro s
  induction s with
  | nil => intro a; simp [polyHash]
  | cons c cs ih =>
    intro a
    simp only [List.foldl_cons, List.length_cons]
    rw [ih (a * b + c.toNat)]
    have h2 : polyHash b (c :: cs) = c.toNat * b ^ cs.length + polyHash b cs := by
      rw [polyHash, List.foldl_cons]
      have h3 := ih (0 * b + c.toNat)
      simpa [polyHash] using h3
    rw [h2]
    ring

theorem polyHash_cons (b : Nat) (c : Char) (s : Str) :
    polyHash b (c :: s) = c.toNat * b ^ s.length + polyHash b s := by
  rw [polyHash, List.foldl_cons]
  have h := foldl_polyHash b s (0 * b + c.toNat)
  simpa [polyHash] using h

theorem polyHash_snoc (b : Nat) (s : Str) (d : Char) :
    polyHash b (s ++ [d]) = polyHash b s * b + d.toNat := by
  rw [polyHash, polyHash, List.foldl_append]
  rfl

theorem windowAt_cons {t : Str} {i m : Nat} (hi : i < t.length) (hm : 0 < m) :
    windowAt t i m = getC t i :: windowAt t (i + 1) (m - 1) := by
  rw [windowAt, windowAt, List.drop_eq_getElem_cons hi, getC_eq_getElem t i hi]
  obtain ⟨m', rfl⟩ : ∃ m', m = m' + 1 := ⟨m - 1, by omega⟩
  simp only [List.take_succ_cons, Nat.add_sub_cancel]

theorem windowAt_snoc {t : Str} {i m : Nat} (hm : 0 < m) (hin : i + m ≤ t.length) :
    windowAt t i m = windowAt t i (m - 1) ++ [getC t (i + (m - 1))] := by
  rw [windowAt, windowAt]
  obtain ⟨m', rfl⟩ : ∃ m', m = m' + 1 := ⟨m - 1, by omega⟩
  simp only [Nat.add_sub_cancel]
  have hlen : m' < (t.drop i).length := by
    simp only [List.length_drop]
    omega
  rw [take_snoc (t.drop i) m' hlen]
  have h1 : getC (t.drop i) m' = getC t (i + m') := by
    have h2 : i + m' < t.length := by omega
    rw [getC_eq_getElem _ _ hlen, getC_eq_getElem _ _ h2, List.getElem_drop]
  rw [h1]

theorem windowAt_length {t : Str} {i m : Nat} (h : i + m ≤ t.length) :
    (windowAt t i m).length = m := by
  simp only [windowAt, List.length_take, List.length_drop]
  omega

theorem rk_mod_core (c H PU d : Int) :
    ((((c * H + PU) % 101 - c * (H % 101)) % 101 * 256 + d) % 101 + 101) % 101
      = (PU * 256 + d) % 101 := by
  have e1 : (c * H + PU) % 101 ≡ c * H + PU [ZMOD 101] :=
    Int.emod_emod_of_dvd _ (dvd_refl 101)
  have e2 : H % 101 ≡ H [ZMOD 101] := Int.emod_emod_of_dvd _ (dvd_refl 101)
  have e3 : (c * H + PU) % 101 - c * (H % 101) ≡ c * H + PU - c * H [ZMOD 101] :=
    Int.ModEq.sub e1 (Int.ModEq.mul_left c e2)
  have e4 : c * H + PU - c * H = PU := by ring
  rw [e4] at e3
  have e5 : ((c * H + PU) % 101 - c * (H % 101)) % 101 ≡ PU [ZMOD 101] :=
    (Int.emod_emod_of_dvd _ (dvd_refl 101)).trans e3
  have e6 : ((c * H + PU) % 101 - c * (H % 101)) % 101 * 256 + d ≡ PU * 256 + d [ZMOD 101] :=
    (e5.mul_right 256).add_right d
  have e9 : ∀ x : Int, (x % 101 + 101) % 101 = x % 101 := by
    intro x
    omega
  rw [e9]
  exact e6

theorem rkUpdate_correct (t p : Str) (i : Nat) (hp : p ≠ []) (hin : i + p.length < t.length) :
    rkUpdate t p (256 ^ (p.length - 1) % 101) i
        ((rolling_hash (windowAt t i p.length) 256 101 : Nat) : Int)
      = ((rolling_hash (windowAt t (i + 1) p.length) 256 101 : Nat) : Int) := by
  have hm : 0 < p.length := List.length_pos.mpr hp
  have hcons : windowAt t i p.length = getC t i :: windowAt t (i + 1) (p.length - 1) :=
    windowAt_cons (by omega) hm
  have hsnoc : windowAt t (i + 1) p.length
      = windowAt t (i + 1) (p.length - 1) ++ [getC t (i + 1 + (p.length - 1))] :=
    windowAt_snoc hm (by omega)
  have hidx : i + 1 + (p.length - 1) = i + p.length := by omega
  rw [hidx] at hsnoc
  have hulen : (windowAt t (i + 1) (p.length - 1)).length = p.length - 1 :=
    windowAt_length (by omega)
  have hPw : polyHash 256 (windowAt t i p.length)
      = (getC t i).toNat * 256 ^ (p.length - 1)
        + polyHash 256 (windowAt t (i + 1) (p.length - 1)) := by
    rw [hcons, polyHash_cons, hulen]
  have hQw : polyHash 256 (windowAt t (i + 1) p.length)
      = polyHash 256 (windowAt t (i + 1) (p.length - 1)) * 256
        + (getC t (i + p.length)).toNat := by
    rw [hsnoc, polyHash_snoc]
  rw [rkUpdate, rolling_hash_eq_polyHash, rolling_hash_eq_polyHash, hPw, hQw]
  push_cast
  exact rk_mod_core _ _ _ _

theorem rkAux_correct (t p : Str) (hp : p ≠ []) (hmn : p.length ≤ t.length) :
    ∀ cnt i tH,
      (i ≤ t.length - p.length →
        tH = ((rolling_hash (windowAt t i p.length) 256 101 : Nat) : Int)) →
      i + cnt = t.length - p.length + 1 →
      rkAux t p (rolling_hash p 256 101) (256 ^ (p.length - 1) % 101) cnt i tH
        = occsFrom t p i := by
  have hm : 0 < p.length := List.length_pos.mpr hp
  intro cnt
  induction cnt with
  | zero =>
    intro i tH htH hcnt
    simp only [rkAux]
    rw [occsFrom_nil (by omega)]
  | succ cnt ih =>
    intro i tH htH hcnt
    have hile : i ≤ t.length - p.length := by omega
    rw [htH hile]
    simp only [rkAux]
    by_cases hw : windowAt t i p.length = p
    · have hhash : ((rolling_hash p 256 101 : Nat) : Int)
          = ((rolling_hash (windowAt t i p.length) 256 101 : Nat) : Int) := by
        rw [hw]
      rw [if_pos hhash, if_pos hw]
      rw [occsFrom_cons (by omega) hw, List.singleton_append]
      congr 1
      by_cases hlast : i < t.length - p.length
      · rw [if_pos hlast]
        apply ih (i + 1) _ ?_ (by omega)
        intro _
        exact rkUpdate_correct t p i hp (by omega)
      · rw [if_neg hlast]
        apply ih (i + 1) _ ?_ (by omega)
        intro h2
        exfalso
        omega
    · rw [occsFrom_skip_one hw]
      have hhere : (if ((rolling_hash p 256 101 : Nat) : Int)
            = ((rolling_hash (windowAt t i p.length) 256 101 : Nat) : Int) then
          (if windowAt t i p.length = p then [i] else []) else []) = [] := by
        simp [hw]
      rw [hhere, List.nil_append]
      by_cases hlast : i < t.length - p.length
      · rw [if_pos hlast]
        apply ih (i + 1) _ ?_ (by omega)
        intro _
        exact rkUpdate_correct t p i hp (by omega)
      · rw [if_neg hlast]
        apply ih (i + 1) _ ?_ (by omega)
        intro h2
        exfalso
        omega

theorem rabin_karp_correct (t p : Str) (hp : p ≠ []) :
    rabin_karp_search t p = naiveOccs t p := by
  rw [rabin_karp_search, if_neg hp]
  by_cases hmn : t.length < p.length
  · rw [if_pos hmn]
    have h0 : t.length + 1 - p.length = 0 := by omega
    rw [naiveOccs, h0]
    rfl
  · rw [if_neg hmn]
    push_neg at hmn
    rw [naiveOccs_eq_occsFrom]
    apply rkAux_correct t p hp hmn _ 0 _ ?_ (by omega)
    intro _
    have hwin : windowAt t 0 p.length = t.take p.length := by
      rw [windowAt, List.drop_zero]
    rw [hwin]

/-! ## Association-list dictionaries -/

theorem dlookup_eq_map (k : α) [DecidableEq α] (l : List (α × β)) :
    dlookup k l = (l.find? (fun e => decide (e.1 = k))).map (fun e => e.2) := by
  rw [dlookup]
  cases l.find? (fun e => decide (e.1 = k)) <;> rfl

theorem dlookup_nil (k : α) [DecidableEq α] : dlookup (β := β) k [] = none := rfl

theorem dlookup_append (k : α) [DecidableEq α] (l1 l2 : List (α × β)) :
    dlookup k (l1 ++ l2) = (dlookup k l1).or (dlookup k l2) := by
  rw [dlookup_eq_map, dlookup_eq_map, dlookup_eq_map, List.find?_append]
  cases l1.find? (fun e => decide (e.1 = k)) <;>
    cases l2.find? (fun e => decide (e.1 = k)) <;> rfl

theorem dlookup_single (k j : α) [DecidableEq α] (v : β) :
    dlookup k [(j, v)] = if j = k then some v else none := by
  rw [dlookup]
  by_cases h : j = k
  · simp [List.find?, h]
  · simp [List.find?, h]

/-! ## The goto, fail and output structures of the chain automaton -/

theorem chainGoto_length (p : Str) : (chainGoto p).length = p.length := by
  simp [chainGoto]

theorem dlookup_chainGoto (p : Str) (j : Nat) (c : Char) :
    dlookup (j, c) (chainGoto p)
      = if j < p.length ∧ c = getC p j then some (j + 1) else none := by
  suffices main : ∀ n, dlookup (j, c) ((List.range n).map (fun k => ((k, getC p k), k + 1)))
      = if j < n ∧ c = getC p j then some (j + 1) else none by
    exact main p.length
  intro n
  induction n with
  | zero =>
    rw [if_neg (by omega)]
    rfl
  | succ n ihn =>
    rw [List.range_succ, List.map_append, dlookup_append, ihn]
    simp only [List.map_cons, List.map_nil]
    by_cases h1 : j < n ∧ c = getC p j
    · rw [if_pos h1, if_pos ⟨by omega, h1.2⟩]
      rfl
    · rw [if_neg h1, Option.none_or, dlookup_single]
      by_cases h2 : (n, getC p n) = (j, c)
      · have hj : n = j := congrArg Prod.fst h2
        have hc : getC p n = c := congrArg Prod.snd h2
        subst hj
        rw [if_pos h2, if_pos ⟨by omega, hc.symm⟩]
      · rw [if_neg h2, if_neg ?_]
        rintro ⟨hj1, hj2⟩
        have hjn : j = n := by
          rcases Nat.lt_or_ge j n with h3 | h3
          · exact absurd ⟨h3, hj2⟩ h1
          · omega
        subst hjn
        exact h2 (by rw [hj2])

theorem dlookup_chainFailPrefix (p : Str) (r j : Nat) :
    dlookup j (chainFailPrefix p r)
      = if 1 ≤ j ∧ j ≤ r then some (lpsSpec p (j - 1)) else none := by
  rw [chainFailPrefix]
  induction r with
  | zero =>
    rw [if_neg (by omega)]
    rfl
  | succ r ihr =>
    rw [List.range_succ, List.map_append, dlookup_append, ihr]
    simp only [List.map_cons, List.map_nil]
    by_cases h1 : 1 ≤ j ∧ j ≤ r
    · rw [if_pos h1, if_pos ⟨h1.1, by omega⟩]
      rfl
    · rw [if_neg h1, Option.none_or, dlookup_single]
      by_cases h2 : r + 1 = j
      · subst h2
        rw [if_pos rfl, if_pos (by omega)]
        simp only [Nat.add_sub_cancel]
      · rw [if_neg h2, if_neg ?_]
        rintro ⟨hj1, hj2⟩
        exact h2 (by omega)

theorem dlookup_chainFail (p : Str) (j : Nat) :
    dlookup j (chainFail p)
      = if 1 ≤ j ∧ j ≤ p.length then some (lpsSpec p (j - 1)) else none :=
  dlookup_chainFailPrefix p p.length j

theorem filter_range_eq_single (n r : Nat) :
    (List.range n).filter (fun k => decide (k = r)) = if r < n then [r] else [] := by
  induction n with
  | zero =>
    rw [if_neg (by omega)]
    rfl
  | succ n ihn =>
    rw [List.range_succ, List.filter_append, ihn]
    by_cases h1 : r < n
    · rw [if_pos h1, if_pos (by omega)]
      have h2 : (n = r) = False := by
        simp
        omega
      simp [List.filter_singleton, h2]
    · rw [if_neg h1]
      by_cases h2 : n = r
      · subst h2
        rw [if_pos (by omega)]
        simp [List.filter_singleton]
      · rw [if_neg (by omega)]
        simp [List.filter_singleton, h2]

theorem childEdges_chainGoto (p : Str) (r : Nat) :
    childEdges (chainGoto p) r = if r < p.length then [(getC p r, r + 1)] else [] := by
  rw [childEdges, chainGoto]
  rw [List.filter_map]
  have h1 : ((List.range p.length).filter
      ((fun e => decide (e.1.1 = r)) ∘ (fun k => ((k, getC p k), k + 1))))
      = (List.range p.length).filter (fun k => decide (k = r)) := by
    apply List.filter_congr
    intro a _
    rfl
  rw [h1, filter_range_eq_single]
  by_cases h2 : r < p.length
  · rw [if_pos h2, if_pos h2]
    rfl
  · rw [if_neg h2, if_neg h2]
    rfl

/-! ## The failure walk on the chain automaton -/

theorem failWalk_chain (p : Str) (hp : p ≠ []) (f : List (Nat × Nat)) (w : Str) (c : Char)
    (B : Nat) (hB : B ≤ p.length) :
    ∀ fuel s0, s0 ≤ B → s0 < fuel →
      (∀ s, 1 ≤ s → s ≤ s0 → dlookup s f = some (lpsSpec p (s - 1))) →
      p.take s0 <:+ w →
      (∀ k, s0 < k → k ≤ B → p.take k <:+ w → ¬(k < p.length ∧ getC p k = c)) →
      ∃ res v, failWalk (chainGoto p) f c fuel s0 = res ∧
        (dlookup (res, c) (chainGoto p) = none → res = 0) ∧
        (match dlookup (res, c) (chainGoto p) with
         | some s => s
         | none => 0) = v ∧
        p.take v <:+ w ++ [c] ∧ v ≤ s0 + 1 ∧
        (∀ k, v < k → k ≤ B + 1 → k ≤ p.length → ¬ p.take k <:+ w ++ [c]) := by
  have hm : 0 < p.length := List.length_pos.mpr hp
  intro fuel
  induction fuel with
  | zero =>
    intro s0 _ hs0f
    exfalso
    omega
  | succ fuel ih =>
    intro s0 hs0B hs0f hf hsuf hmax
    rw [failWalk]
    by_cases hgoto : s0 < p.length ∧ c = getC p s0
    · -- a transition on `c` exists at the current state: the walk stops here
      have hlook : dlookup (s0, c) (chainGoto p) = some (s0 + 1) := by
        rw [dlookup_chainGoto, if_pos hgoto]
      have hcond : ¬(s0 ≠ 0 ∧ dlookup (s0, c) (chainGoto p) = none) := by
        rintro ⟨_, h2⟩
        rw [hlook] at h2
        cases h2
      rw [if_neg hcond]
      refine ⟨s0, s0 + 1, rfl, ?_, by rw [hlook], ?_, le_refl _, ?_⟩
      · intro h
        rw [hlook] at h
        cases h
      · rw [take_snoc p s0 hgoto.1]
        exact snoc_suffix_snoc.mpr ⟨hgoto.2.symm, hsuf⟩
      · intro k h1 h2 h3 hsk
        obtain ⟨kk, rfl⟩ : ∃ kk, k = kk + 1 := ⟨k - 1, by omega⟩
        have hkk : kk < p.length := by omega
        rw [take_snoc p kk hkk] at hsk
        obtain ⟨hcc, hks⟩ := snoc_suffix_snoc.mp hsk
        exact hmax kk (by omega) (by omega) hks ⟨hkk, hcc⟩
    · have hlook : dlookup (s0, c) (chainGoto p) = none := by
        rw [dlookup_chainGoto, if_neg hgoto]
      by_cases hz : s0 = 0
      · -- stuck at the root: the state stays 0
        subst hz
        have hcond : ¬((0 : Nat) ≠ 0 ∧ dlookup ((0 : Nat), c) (chainGoto p) = none) := by
          rintro ⟨h1, _⟩
          exact h1 rfl
        rw [if_neg hcond]
        refine ⟨0, 0, rfl, fun _ => rfl, by rw [hlook], by simp, by omega, ?_⟩
        intro k h1 h2 h3 hsk
        obtain ⟨kk, rfl⟩ : ∃ kk, k = kk + 1 := ⟨k - 1, by omega⟩
        have hkk : kk < p.length := by omega
        rw [take_snoc p kk hkk] at hsk
        obtain ⟨hcc, hks⟩ := snoc_suffix_snoc.mp hsk
        rcases Nat.eq_zero_or_pos kk with hkz | hkz
        · subst hkz
          exact hgoto ⟨hm, hcc.symm⟩
        · exact hmax kk hkz (by omega) hks ⟨hkk, hcc⟩
      · -- follow the failure link
        have hcond : s0 ≠ 0 ∧ dlookup (s0, c) (chainGoto p) = none := ⟨hz, hlook⟩
        rw [if_pos hcond]
        have hfs0 : dlookup s0 f = some (lpsSpec p (s0 - 1)) := hf s0 (by omega) (le_refl _)
        rw [hfs0]
        simp only [Option.getD_some]
        have hsub : s0 - 1 + 1 = s0 := by omega
        have hL : lpsSpec p (s0 - 1) ≤ s0 - 1 := lpsSpec_le p (s0 - 1)
        have hLsuf : p.take (lpsSpec p (s0 - 1)) <:+ p.take s0 := by
          have h0 := lpsSpec_suffix p (s0 - 1)
          rwa [hsub] at h0
        have hmax2 : ∀ k, lpsSpec p (s0 - 1) < k → k ≤ B → p.take k <:+ w →
            ¬(k < p.length ∧ getC p k = c) := by
          intro k h1 h2 hks
          rcases lt_trichotomy k s0 with h3 | h3 | h3
          · intro _
            have h4 : p.take k <:+ p.take s0 :=
              suffix_of_suffix_length_le hks hsuf (by simp only [List.length_take]; omega)
            have h5 : k ≤ lpsSpec p (s0 - 1) := by
              apply lpsSpec_max (by omega)
              rwa [hsub]
            omega
          · subst h3
            rintro ⟨ha, hb⟩
            exact hgoto ⟨ha, hb.symm⟩
          · exact hmax k h3 h2 hks
        obtain ⟨res, v, g1, g2, g3, g4, g5, g6⟩ := ih (lpsSpec p (s0 - 1)) (by omega)
          (by omega) (fun s hh1 hh2 => hf s hh1 (by omega)) (hLsuf.trans hsuf) hmax2
        exact ⟨res, v, g1, g2, g3, g4, by omega, g6⟩

/-! ## The chain automaton state tracks the longest matching prefix -/

theorem chainState_le (p w : Str) : chainState p w ≤ p.length := Nat.findGreatest_le _

theorem chainState_suffix (p w : Str) : p.take (chainState p w) <:+ w :=
  @Nat.findGreatest_spec 0 (fun k => p.take k <:+ w) _ p.length (Nat.zero_le _) (by simp)

theorem chainState_max {p w : Str} {k : Nat} (hk : k ≤ p.length) (h : p.take k <:+ w) :
    k ≤ chainState p w :=
  Nat.le_findGreatest hk h

theorem chainState_is_greatest {p w : Str} {k : Nat} (h1 : chainState p w < k)
    (h2 : k ≤ p.length) : ¬ p.take k <:+ w :=
  Nat.findGreatest_is_greatest h1 h2

theorem chainState_eq {p w : Str} {v : Nat} (hv : v ≤ p.length) (hsuf : p.take v <:+ w)
    (hmax : ∀ k, v < k → k ≤ p.length → ¬ p.take k <:+ w) : chainState p w = v := by
  have h1 : v ≤ chainState p w := chainState_max hv hsuf
  have h2 : chainState p w ≤ v := by
    by_contra hcon
    push_neg at hcon
    exact hmax _ hcon (chainState_le p w) (chainState_suffix p w)
  omega

theorem chainState_nil (p : Str) (hp : p ≠ []) : chainState p [] = 0 := by
  apply chainState_eq (by omega) (by simp)
  intro k h1 h2 hsk
  have h3 := hsk.length_le
  simp only [List.length_take, List.length_nil] at h3
  omega

theorem chainStep_state (p : Str) (hp : p ≠ []) (w : Str) (ch : Char) :
    (match dlookup (failWalk (chainGoto p) (chainFail p) ch ((chainGoto p).length + 1)
        (chainState p w), ch) (chainGoto p) with
     | some s => s
     | none => failWalk (chainGoto p) (chainFail p) ch ((chainGoto p).length + 1)
        (chainState p w)) = chainState p (w ++ [ch]) := by
  have hm : 0 < p.length := List.length_pos.mpr hp
  obtain ⟨res, v, hres, hnone, hveq, hvsuf, hvle, hvmax⟩ :=
    failWalk_chain p hp (chainFail p) w ch p.length (le_refl _)
      ((chainGoto p).length + 1) (chainState p w) (chainState_le p w)
      (by rw [chainGoto_length]; have := chainState_le p w; omega)
      (fun s h1 h2 => by
        rw [dlookup_chainFail, if_pos ⟨h1, by have := chainState_le p w; omega⟩])
      (chainState_suffix p w)
      (fun k h1 h2 hsk _ => chainState_is_greatest h1 h2 hsk)
  rw [hres]
  have hvm : v ≤ p.length := by
    cases hlk : dlookup (res, ch) (chainGoto p) with
    | none =>
      rw [hlk] at hveq
      simp at hveq
      omega
    | some s =>
      rw [hlk] at hveq
      simp at hveq
      rw [dlookup_chainGoto] at hlk
      by_cases hcc : res < p.length ∧ ch = getC p res
      · rw [if_pos hcc] at hlk
        have hs : s = res + 1 := by
          have := Option.some.inj hlk
          omega
        omega
      · rw [if_neg hcc] at hlk
        cases hlk
  have hcs : chainState p (w ++ [ch]) = v :=
    chainState_eq hvm hvsuf (fun k h1 h2 => hvmax k h1 (by omega) h2)
  cases hlk : dlookup (res, ch) (chainGoto p) with
  | none =>
    rw [hlk] at hveq
    simp only at hveq
    rw [hcs, ← hveq]
    exact hnone hlk
  | some s =>
    rw [hlk] at hveq
    simp only at hveq
    rw [hcs, ← hveq]

/-! ## The Aho-Corasick scan over the chain automaton -/

theorem dictAppend_pair (p : Str) (pos : Nat) (l : List Nat) :
    dictAppend p pos [(p, l)] = [(p, l ++ [pos])] := by
  simp [dictAppend]

theorem foldl_dictAppend_replicate (p : Str) (ii : Nat) :
    ∀ cnum (l : List Nat),
      (List.replicate cnum p).foldl (fun res q => dictAppend q (ii + 1 - q.length) res)
          [(p, l)]
        = [(p, l ++ List.replicate cnum (ii + 1 - p.length))] := by
  intro cnum
  induction cnum with
  | zero => intro l; simp
  | succ c ihc =>
    intro l
    rw [List.replicate_succ, List.foldl_cons, dictAppend_pair, ihc]
    simp [List.replicate_succ, List.append_assoc]

theorem foldl_dictAppend_replicate_nil (p : Str) (ii : Nat) (cnum : Nat) (hc : 1 ≤ cnum) :
    (List.replicate cnum p).foldl (fun res q => dictAppend q (ii + 1 - q.length) res) []
      = [(p, List.replicate cnum (ii + 1 - p.length))] := by
  obtain ⟨c, rfl⟩ : ∃ c, cnum = c + 1 := ⟨cnum - 1, by omega⟩
  rw [List.replicate_succ, List.foldl_cons]
  have h1 : dictAppend p (ii + 1 - p.length) ([] : List (Str × List Nat))
      = [(p, [ii + 1 - p.length])] := rfl
  rw [h1, foldl_dictAppend_replicate]
  simp [List.replicate_succ]

theorem acStepChar_chain (p : Str) (hp : p ≠ []) (cnum : Nat) (hc : 1 ≤ cnum) (t : Str)
    (i : Nat) (hin : i < t.length) :
    acStepChar ⟨chainGoto p, chainFail p, [(p.length, List.replicate cnum p)]⟩
        (chainState p (t.take i), chainResult p cnum (endedBy t p i)) (i, getC t i)
      = (chainState p (t.take (i + 1)), chainResult p cnum (endedBy t p (i + 1))) := by
  have hm : 0 < p.length := List.length_pos.mpr hp
  have htake : t.take i ++ [getC t i] = t.take (i + 1) := (take_snoc t i hin).symm
  have hstate := chainStep_state p hp (t.take i) (getC t i)
  rw [htake] at hstate
  simp only [acStepChar]
  rw [hstate]
  rw [dlookup_single]
  by_cases hsm : chainState p (t.take (i + 1)) = p.length
  · rw [if_pos hsm.symm]
    have hpfull : p <:+ t.take (i + 1) := by
      have h0 := chainState_suffix p (t.take (i + 1))
      rwa [hsm, List.take_length] at h0
    obtain ⟨hmle, hw⟩ := (suffix_iff_window (by omega)).mp hpfull
    have hrec : endedBy t p (i + 1) = endedBy t p i ++ [i + 1 - p.length] :=
      endedBy_succ_occ hmle hw
    refine congrArg (Prod.mk (chainState p (t.take (i + 1)))) ?_
    show (List.replicate cnum p).foldl (fun res q => dictAppend q (i + 1 - q.length) res)
        (chainResult p cnum (endedBy t p i)) = chainResult p cnum (endedBy t p (i + 1))
    by_cases hnil : endedBy t p i = []
    · rw [chainResult, if_pos hnil, foldl_dictAppend_replicate_nil p i cnum hc, hrec, hnil,
        List.nil_append, chainResult, if_neg (by simp)]
      simp
    · rw [chainResult, if_neg hnil, foldl_dictAppend_replicate, hrec, chainResult,
        if_neg (by simp)]
      simp [List.flatMap_append]
  · rw [if_neg (fun h => hsm h.symm)]
    have hnoend : endedBy t p (i + 1) = endedBy t p i := by
      apply endedBy_succ_no
      rintro ⟨hm1, hw⟩
      have hpfull : p <:+ t.take (i + 1) := (suffix_iff_window (by omega)).mpr ⟨hm1, hw⟩
      have h2 : p.length ≤ chainState p (t.take (i + 1)) := by
        apply chainState_max (le_refl _)
        rwa [List.take_length]
      have h3 := chainState_le p (t.take (i + 1))
      omega
    rw [hnoend]

theorem acSearchLoop_chain (p : Str) (hp : p ≠ []) (cnum : Nat) (hc : 1 ≤ cnum) (t : Str) :
    ∀ q i, q = t.drop i → i ≤ t.length →
      ((List.enumFrom i q).foldl
          (acStepChar ⟨chainGoto p, chainFail p, [(p.length, List.replicate cnum p)]⟩)
          (chainState p (t.take i), chainResult p cnum (endedBy t p i))).2
        = chainResult p cnum (endedBy t p t.length) := by
  intro q
  induction q with
  | nil =>
    intro i hq hi
    have hin : i = t.length := by
      have h1 := congrArg List.length hq
      simp only [List.length_nil, List.length_drop] at h1
      omega
    subst hin
    simp [List.enumFrom]
  | cons ch q' ih =>
    intro i hq hi
    have hlen := congrArg List.length hq
    simp only [List.length_cons, List.length_drop] at hlen
    have hin : i < t.length := by omega
    have hdrop : t.drop i = t[i] :: t.drop (i + 1) := List.drop_eq_getElem_cons hin
    obtain ⟨hch, hq'⟩ := List.cons.inj (hq.trans hdrop)
    rw [List.enumFrom_cons, List.foldl_cons]
    have hche : ch = getC t i := by
      rw [getC_eq_getElem t i hin]
      exact hch
    rw [hche, acStepChar_chain p hp cnum hc t i hin]
    exact ih (i + 1) hq' (by omega)

theorem acSearch_chain (p : Str) (hp : p ≠ []) (cnum : Nat) (hc : 1 ≤ cnum) (t : Str) :
    AhoCorasick.search ⟨chainGoto p, chainFail p, [(p.length, List.replicate cnum p)]⟩ t
      = chainResult p cnum (naiveOccs t p) := by
  rw [AhoCorasick.search, naiveOccs_eq_endedBy]
  have h1 := acSearchLoop_chain p hp cnum hc t t 0 (by simp) (by omega)
  have h2 : chainResult p cnum (endedBy t p 0) = [] := by
    rw [endedBy_zero hp, chainResult, if_pos rfl]
  rw [List.take_zero, chainState_nil p hp, h2] at h1
  exact h1

/-! ## Building the automaton from copies of one pattern -/

theorem dlookup_chainPrefix (p : Str) (n j : Nat) (c : Char) :
    dlookup (j, c) ((List.range n).map (fun k => ((k, getC p k), k + 1)))
      = if j < n ∧ c = getC p j then some (j + 1) else none := by
  induction n with
  | zero =>
    rw [if_neg (by omega)]
    rfl
  | succ n ihn =>
    rw [List.range_succ, List.map_append, dlookup_append, ihn]
    simp only [List.map_cons, List.map_nil]
    by_cases h1 : j < n ∧ c = getC p j
    · rw [if_pos h1, if_pos ⟨by omega, h1.2⟩]
      rfl
    · rw [if_neg h1, Option.none_or, dlookup_single]
      by_cases h2 : (n, getC p n) = (j, c)
      · have hj : n = j := congrArg Prod.fst h2
        have hc : getC p n = c := congrArg Prod.snd h2
        subst hj
        rw [if_pos h2, if_pos ⟨by omega, hc.symm⟩]
      · rw [if_neg h2, if_neg ?_]
        rintro ⟨hj1, hj2⟩
        have hjn : j = n := by
          rcases Nat.lt_or_ge j n with h3 | h3
          · exact absurd ⟨h3, hj2⟩ h1
          · omega
        subst hjn
        exact h2 (by rw [hj2])

theorem insertPattern_fresh (p : Str) :
    ∀ (q : Str) (k : Nat), k + q.length = p.length → q = p.drop k →
      q.foldl (fun gc ch => insertChar gc.1 gc.2 ch)
          ((List.range k).map (fun k2 => ((k2, getC p k2), k2 + 1)), k)
        = (chainGoto p, p.length) := by
  intro q
  induction q with
  | nil =>
    intro k h1 h2
    have hk : k = p.length := by
      simp only [List.length_nil, Nat.add_zero] at h1
      exact h1
    subst hk
    rfl
  | cons ch q' ih =>
    intro k h1 h2
    have hk : k < p.length := by
      simp only [List.length_cons] at h1
      omega
    have hdrop : p.drop k = p[k] :: p.drop (k + 1) := List.drop_eq_getElem_cons hk
    obtain ⟨hch, hq'⟩ := List.cons.inj (h2.trans hdrop)
    have hchar : ch = getC p k := by
      rw [getC_eq_getElem p k hk]
      exact hch
    rw [List.foldl_cons]
    have hstep : insertChar ((List.range k).map (fun k2 => ((k2, getC p k2), k2 + 1))) k ch
        = ((List.range (k + 1)).map (fun k2 => ((k2, getC p k2), k2 + 1)), k + 1) := by
      rw [insertChar, dlookup_chainPrefix, if_neg (by omega)]
      have hlen : ((List.range k).map (fun k2 => ((k2, getC p k2), k2 + 1))).length = k := by
        simp
      rw [hlen, List.range_succ, List.map_append, hchar]
      rfl
    rw [hstep]
    exact ih (k + 1) (by simp only [List.length_cons] at h1; omega) hq'

theorem insertPattern_follow (p : Str) :
    ∀ (q : Str) (k : Nat), k + q.length = p.length → q = p.drop k →
      q.foldl (fun gc ch => insertChar gc.1 gc.2 ch) (chainGoto p, k)
        = (chainGoto p, p.length) := by
  intro q
  induction q with
  | nil =>
    intro k h1 h2
    have hk : k = p.length := by
      simp only [List.length_nil, Nat.add_zero] at h1
      exact h1
    subst hk
    rfl
  | cons ch q' ih =>
    intro k h1 h2
    have hk : k < p.length := by
      simp only [List.length_cons] at h1
      omega
    have hdrop : p.drop k = p[k] :: p.drop (k + 1) := List.drop_eq_getElem_cons hk
    obtain ⟨hch, hq'⟩ := List.cons.inj (h2.trans hdrop)
    have hchar : ch = getC p k := by
      rw [getC_eq_getElem p k hk]
      exact hch
    rw [List.foldl_cons]
    have hstep : insertChar (chainGoto p) k ch = (chainGoto p, k + 1) := by
      rw [insertChar, dlookup_chainGoto, if_pos ⟨hk, hchar⟩]
    rw [hstep]
    exact ih (k + 1) (by simp only [List.length_cons] at h1; omega) hq'

theorem dictAppend_key {α β : Type} [DecidableEq α] (k : α) (v : β) (l : List β) :
    dictAppend k v [(k, l)] = [(k, l ++ [v])] := by
  simp [dictAppend]

theorem dset_fresh {α β : Type} [DecidableEq α] (k : α) (v : β) :
    ∀ l : List (α × β), (∀ e ∈ l, e.1 ≠ k) → dset k v l = l ++ [(k, v)] := by
  intro l
  induction l with
  | nil => intro _; rfl
  | cons e rest ih =>
    intro h
    rw [dset]
    rw [if_neg (h e (by simp))]
    rw [ih (fun e2 he2 => h e2 (by simp [he2]))]
    rfl

theorem buildGotoOut_rep_aux (p : Str) :
    ∀ (j : Nat) (acc : List Str),
      (List.replicate j p).foldl
          (fun st q =>
            let gl := insertPattern st.1 q
            (gl.1, dictAppend gl.2 q st.2))
          (chainGoto p, [(p.length, acc)])
        = (chainGoto p, [(p.length, acc ++ List.replicate j p)]) := by
  intro j
  induction j with
  | zero => intro acc; simp
  | succ j ih =>
    intro acc
    rw [List.replicate_succ, List.foldl_cons]
    have h1 : insertPattern (chainGoto p) p = (chainGoto p, p.length) :=
      insertPattern_follow p p 0 (by omega) (by simp)
    simp only [h1, dictAppend_key]
    rw [ih (acc ++ [p])]
    simp [List.replicate_succ, List.append_assoc]

theorem buildGotoOut_replicate (p : Str) (c : Nat) (hc : 1 ≤ c) :
    buildGotoOut (List.replicate c p) = (chainGoto p, [(p.length, List.replicate c p)]) := by
  obtain ⟨j, rfl⟩ : ∃ j, c = j + 1 := ⟨c - 1, by omega⟩
  rw [buildGotoOut, List.replicate_succ, List.foldl_cons]
  have h1 : insertPattern ([] : List ((Nat × Char) × Nat)) p = (chainGoto p, p.length) :=
    insertPattern_fresh p p 0 (by omega) (by simp)
  simp only [h1]
  have h2 : dictAppend p.length p ([] : List (Nat × List Str)) = [(p.length, [p])] := rfl
  rw [h2, buildGotoOut_rep_aux p j [p]]
  simp [List.replicate_succ]

theorem buildFailLoop_nilqueue (g : List ((Nat × Char) × Nat)) (f : List (Nat × Nat))
    (out : List (Nat × List Str)) :
    ∀ fuel, buildFailLoop g fuel [] f out = (f, out) := by
  intro fuel
  cases fuel <;> rfl

theorem buildFailLoop_chain (p : Str) (hp : p ≠ []) (out : List (Nat × List Str))
    (hout : ∀ key, key < p.length → dlookup key out = none) :
    ∀ (d r : Nat), 1 ≤ r → r + d = p.length → ∀ fuel, p.length - r < fuel →
      buildFailLoop (chainGoto p) fuel [r] (chainFailPrefix p r) out
        = (chainFail p, out) := by
  have hm : 0 < p.length := List.length_pos.mpr hp
  intro d
  induction d with
  | zero =>
    intro r h1 h2 fuel hfuel
    obtain ⟨fuel', rfl⟩ : ∃ f2, fuel = f2 + 1 := ⟨fuel - 1, by omega⟩
    have hrm : r = p.length := by omega
    subst hrm
    rw [buildFailLoop]
    rw [childEdges_chainGoto, if_neg (by omega)]
    simp only [List.foldl_nil]
    rw [buildFailLoop_nilqueue]
    rw [chainFail]
  | succ d ih =>
    intro r h1 h2 fuel hfuel
    obtain ⟨fuel', rfl⟩ : ∃ f2, fuel = f2 + 1 := ⟨fuel - 1, by omega⟩
    have hrm : r < p.length := by omega
    rw [buildFailLoop]
    rw [childEdges_chainGoto, if_pos hrm]
    simp only [List.foldl_cons, List.foldl_nil]
    -- evaluate processChild on the single child (getC p r, r + 1)
    have hlookr : dlookup r (chainFailPrefix p r) = some (lpsSpec p (r - 1)) := by
      rw [dlookup_chainFailPrefix, if_pos ⟨h1, le_refl r⟩]
    have hsub : r - 1 + 1 = r := by omega
    have hLr : lpsSpec p (r - 1) ≤ r - 1 := lpsSpec_le p (r - 1)
    have hLsuf : p.take (lpsSpec p (r - 1)) <:+ p.take r := by
      have h0 := lpsSpec_suffix p (r - 1)
      rwa [hsub] at h0
    obtain ⟨res, v, hres, hnone, hveq, hvsuf, hvle, hvmax⟩ :=
      failWalk_chain p hp (chainFailPrefix p r) (p.take r) (getC p r) (r - 1) (by omega)
        ((chainGoto p).length + 1) (lpsSpec p (r - 1)) (by omega)
        (by rw [chainGoto_length]; omega)
        (fun s hs1 hs2 => by
          rw [dlookup_chainFailPrefix, if_pos ⟨hs1, by omega⟩])
        hLsuf
        (fun k hk1 hk2 hks => by
          intro _
          have h4 : k ≤ lpsSpec p (r - 1) := by
            apply lpsSpec_max (by omega)
            rwa [hsub]
          omega)
    have htk : p.take r ++ [getC p r] = p.take (r + 1) := (take_snoc p r hrm).symm
    rw [htk] at hvsuf hvmax
    have hveqL : v = lpsSpec p r := by
      symm
      apply lpsSpec_eq (by omega) hvsuf
      intro k hk1 hk2
      exact hvmax k hk1 (by omega) (by omega)
    have hout2 : dlookup v out = none := hout v (by omega)
    have hproc : processChild (chainGoto p) r ([], chainFailPrefix p r, out) (getC p r, r + 1)
        = ([r + 1], chainFailPrefix p (r + 1), out) := by
      rw [processChild]
      simp only [hlookr, Option.getD_some, hres, hveq]
      rw [hout2]
      have hdset : dset (r + 1) v (chainFailPrefix p r)
          = chainFailPrefix p r ++ [(r + 1, v)] := by
        apply dset_fresh
        intro e he
        rw [chainFailPrefix] at he
        obtain ⟨k2, hk2, hke⟩ := List.mem_map.mp he
        have : k2 < r := List.mem_range.mp hk2
        rw [← hke]
        simp
        omega
      rw [hdset, hveqL]
      have hpre : chainFailPrefix p r ++ [(r + 1, lpsSpec p r)] = chainFailPrefix p (r + 1) := by
        rw [chainFailPrefix, chainFailPrefix, List.range_succ, List.map_append]
        rfl
      rw [hpre]
      rfl
    rw [hproc]
    exact ih (r + 1) (by omega) (by omega) fuel' (by omega)

theorem build_automaton_replicate (p : Str) (hp : p ≠ []) (c : Nat) (hc : 1 ≤ c) :
    AhoCorasick.build_automaton (List.replicate c p)
      = ⟨chainGoto p, chainFail p, [(p.length, List.replicate c p)]⟩ := by
  have hm : 0 < p.length := List.length_pos.mpr hp
  rw [AhoCorasick.build_automaton]
  simp only [buildGotoOut_replicate p c hc]
  rw [childEdges_chainGoto, if_pos hm]
  simp only [List.map_cons, List.map_nil]
  have hq0 : chainFailPrefix p 1 = [(1, 0)] := by
    rw [chainFailPrefix]
    have : List.range 1 = [0] := rfl
    rw [this]
    simp [lpsSpec_zero]
  have hfail := buildFailLoop_chain p hp [(p.length, List.replicate c p)]
    (fun key hkey => by
      rw [dlookup_single, if_neg (by omega)])
    (p.length - 1) 1 (le_refl 1) (by omega) ((chainGoto p).length + 1)
    (by rw [chainGoto_length]; omega)
  simp only [Nat.zero_add]
  rw [← hq0, hfail]

/-! ## Claim C1: the four scanners and the single-pattern automaton agree -/

theorem flatMap_replicate_one {l : List Nat} :
    l.flatMap (fun s => List.replicate 1 s) = l := by
  induction l with
  | nil => rfl
  | cons x xs ih =>
    rw [List.flatMap_cons, ih]
    rfl

theorem naiveOccs_sorted (t p : Str) : List.Sorted (· < ·) (naiveOccs t p) :=
  (List.pairwise_lt_range _).sublist (List.filter_sublist _)

theorem naiveOccs_mem (t p : Str) (hp : p ≠ []) (s : Nat) :
    s ∈ naiveOccs t p ↔ windowAt t s p.length = p := by
  rw [naiveOccs, List.mem_filter, List.mem_range]
  constructor
  · rintro ⟨_, h2⟩
    exact of_decide_eq_true h2
  · intro hw
    refine ⟨?_, decide_eq_true hw⟩
    have h1 := window_imp_le hp hw
    have hm := List.length_pos.mpr hp
    omega

theorem ac_single_eq_kmp (t p : Str) (hp : p ≠ []) :
    (dlookup p ((AhoCorasick.build_automaton [p]).search t)).getD [] = kmp_search t p := by
  have h1 : [p] = List.replicate 1 p := rfl
  rw [h1, build_automaton_replicate p hp 1 (le_refl 1), acSearch_chain p hp 1 (le_refl 1),
    kmp_search_correct t p hp]
  by_cases hnil : naiveOccs t p = []
  · rw [chainResult, if_pos hnil, hnil]
    rfl
  · rw [chainResult, if_neg hnil, flatMap_replicate_one, dlookup_single, if_pos rfl]
    rfl

/-- C1: for every text and non-empty pattern, the four single-pattern
scanners return the same list of positions, namely exactly the occurrence
positions in ascending order (overlaps included), and the Aho-Corasick
automaton built from the one-element pattern set `[p]` yields for `p` the
same sequence as `kmp_search`. -/
theorem claim_C1_cross_algorithm (t p : Str) (hp : p ≠ []) :
    kmp_search t p = naiveOccs t p ∧
    boyer_moore_search t p = naiveOccs t p ∧
    boyer_moore_horspool_search t p = naiveOccs t p ∧
    rabin_karp_search t p = naiveOccs t p ∧
    (dlookup p ((AhoCorasick.build_automaton [p]).search t)).getD [] = kmp_search t p ∧
    List.Sorted (· < ·) (naiveOccs t p) ∧
    (∀ s, s ∈ naiveOccs t p ↔ windowAt t s p.length = p) :=
  ⟨kmp_search_correct t p hp, boyer_moore_correct t p hp,
    boyer_moore_horspool_correct t p hp, rabin_karp_correct t p hp,
    ac_single_eq_kmp t p hp, naiveOccs_sorted t p, naiveOccs_mem t p hp⟩

theorem claim_C1_witness :
    ("aba".toList ≠ ([] : Str)) ∧
    (kmp_search "ababbababa".toList "aba".toList
        = naiveOccs "ababbababa".toList "aba".toList ∧
      boyer_moore_search "ababbababa".toList "aba".toList
        = naiveOccs "ababbababa".toList "aba".toList ∧
      boyer_moore_horspool_search "ababbababa".toList "aba".toList
        = naiveOccs "ababbababa".toList "aba".toList ∧
      rabin_karp_search "ababbababa".toList "aba".toList
        = naiveOccs "ababbababa".toList "aba".toList ∧
      (dlookup "aba".toList
          ((AhoCorasick.build_automaton ["aba".toList]).search "ababbababa".toList)).getD []
        = kmp_search "ababbababa".toList "aba".toList ∧
      List.Sorted (· < ·) (naiveOccs "ababbababa".toList "aba".toList) ∧
      (∀ s, s ∈ naiveOccs "ababbababa".toList "aba".toList ↔
        windowAt "ababbababa".toList s "aba".toList.length = "aba".toList)) :=
  ⟨by decide, claim_C1_cross_algorithm "ababbababa".toList "aba".toList (by decide)⟩

/-! ## Dictionary folds used by the dispatcher -/

theorem dlookup_dset_self {α β : Type} [DecidableEq α] (k : α) (v : β) :
    ∀ l : List (α × β), dlookup k (dset k v l) = some v := by
  intro l
  induction l with
  | nil => simp [dset, dlookup, List.find?]
  | cons e rest ih =>
    rw [dset]
    by_cases h : e.1 = k
    · rw [if_pos h]
      simp [dlookup, List.find?]
    · rw [if_neg h]
      rw [dlookup, List.find?]
      have hd : (decide (e.1 = k)) = false := by simp [h]
      rw [hd]
      exact ih

theorem dlookup_dset_ne {α β : Type} [DecidableEq α] {k k2 : α} (v : β) (h : k2 ≠ k) :
    ∀ l : List (α × β), dlookup k2 (dset k v l) = dlookup k2 l := by
  intro l
  induction l with
  | nil =>
    simp only [dset, dlookup, List.find?]
    have hd : (decide ((k, v).1 = k2)) = false := by simp; exact fun he => h he.symm
    rw [hd]
  | cons e rest ih =>
    rw [dset]
    by_cases he : e.1 = k
    · rw [if_pos he]
      rw [dlookup, dlookup, List.find?, List.find?]
      have hd1 : (decide ((k, v).1 = k2)) = false := by simp; exact fun h2 => h h2.symm
      have hd2 : (decide (e.1 = k2)) = false := by
        simp
        rw [he]
        exact fun h2 => h h2.symm
      rw [hd1, hd2]
    · rw [if_neg he]
      rw [dlookup, dlookup, List.find?, List.find?]
      cases hd : decide (e.1 = k2) with
      | true => rfl
      | false => exact ih

theorem foldl_dset_not_mem {α β : Type} [DecidableEq α] (V : α → β) {x : α} :
    ∀ (l : List α) (init : List (α × β)), x ∉ l →
      dlookup x (l.foldl (fun res op => dset op (V op) res) init) = dlookup x init := by
  intro l
  induction l with
  | nil => intro init _; rfl
  | cons op rest ih =>
    intro init hx
    rw [List.foldl_cons]
    rw [ih (dset op (V op) init) (fun h => hx (by simp [h]))]
    exact dlookup_dset_ne (V op) (fun h => hx (by simp [h])) init

theorem foldl_dset_mem {α β : Type} [DecidableEq α] (V : α → β) {x : α} :
    ∀ (l : List α) (init : List (α × β)), x ∈ l →
      dlookup x (l.foldl (fun res op => dset op (V op) res) init) = some (V x) := by
  intro l
  induction l with
  | nil => intro init hx; cases hx
  | cons op rest ih =>
    intro init hx
    rw [List.foldl_cons]
    by_cases hxr : x ∈ rest
    · exact ih _ hxr
    · have hxo : x = op := by
        rcases List.mem_cons.mp hx with h | h
        · exact h
        · exact absurd h hxr
      subst hxo
      rw [foldl_dset_not_mem V rest _ hxr]
      exact dlookup_dset_self x (V x) init

theorem mem_dset {α β : Type} [DecidableEq α] {k : α} {v : β} :
    ∀ {l : List (α × β)} {e : α × β}, e ∈ dset k v l → e = (k, v) ∨ e ∈ l := by
  intro l
  induction l with
  | nil =>
    intro e he
    simp [dset] at he
    left
    exact he
  | cons e2 rest ih =>
    intro e he
    rw [dset] at he
    by_cases h : e2.1 = k
    · rw [if_pos h] at he
      rcases List.mem_cons.mp he with h2 | h2
      · left; exact h2
      · right; simp [h2]
    · rw [if_neg h] at he
      rcases List.mem_cons.mp he with h2 | h2
      · right; simp [h2]
      · rcases ih h2 with h3 | h3
        · left; exact h3
        · right; simp [h3]

theorem foldl_dset_values {α β : Type} [DecidableEq α] (V : α → β) (P : β → Prop) :
    ∀ (l : List α) (init : List (α × β)),
      (∀ e ∈ init, P e.2) → (∀ op ∈ l, P (V op)) →
      ∀ e ∈ l.foldl (fun res op => dset op (V op) res) init, P e.2 := by
  intro l
  induction l with
  | nil => intro init h1 _ e he; exact h1 e he
  | cons op rest ih =>
    intro init h1 h2 e he
    rw [List.foldl_cons] at he
    apply ih (dset op (V op) init) ?_ (fun o ho => h2 o (by simp [ho])) e he
    intro e2 he2
    rcases mem_dset he2 with h3 | h3
    · rw [h3]
      exact h2 op (by simp)
    · exact h1 e2 h3

theorem dlookup_mem {α β : Type} [DecidableEq α] {k : α} {v : β} {l : List (α × β)}
    (h : dlookup k l = some v) : (k, v) ∈ l := by
  rw [dlookup] at h
  cases hf : l.find? (fun e => decide (e.1 = k)) with
  | none => rw [hf] at h; cases h
  | some e =>
    rw [hf] at h
    have h1 : e.2 = v := by
      injection h
    have h2 : e ∈ l := List.mem_of_find?_eq_some hf
    have h3 : e.1 = k := by
      have := List.find?_some hf
      simpa using this
    have h4 : e = (k, v) := by
      cases e
      simp only at h1 h3
      rw [h1, h3]
    rw [← h4]
    exact h2

theorem procStr_eq_nil {cs : Bool} {s : Str} : procStr cs s = [] ↔ s = [] := by
  cases cs
  · simp [procStr, pyLower]
  · simp [procStr]

theorem applyCount_nil {α : Type} (c : Option Int) : applyCount c ([] : List α) = [] := by
  cases c with
  | none => rfl
  | some k =>
    simp [applyCount, pySlice]

/-- C9: any `method` other than `'last'` behaves exactly like `'first'`;
no unrecognized method is rejected. -/
theorem claim_C9_unrecognized_method (t : Str) (sub : SubStr) (cs : Bool) (method : Str)
    (count : Option Int) (hm : method ≠ "last".toList) :
    search t sub cs method count = search t sub cs ("first".toList) count := by
  have h2 : ¬("first".toList = "last".toList) := by decide
  cases sub with
  | str s =>
    simp only [search]
    rw [if_neg hm, if_neg h2]
  | list l =>
    simp only [search]
    rw [if_neg hm, if_neg h2]

theorem claim_C9_witness :
    (("LAST".toList : Str) ≠ "last".toList) ∧
    search "ababbababa".toList (.str "aba".toList) false "LAST".toList none
      = search "ababbababa".toList (.str "aba".toList) false "first".toList none :=
  ⟨by decide, claim_C9_unrecognized_method "ababbababa".toList (.str "aba".toList) false
    "LAST".toList none (by decide)⟩

/-- C5: the dispatcher fails softly, returning `none` for empty text, an
empty single pattern, an empty or all-empty pattern list, and when there
are no matches at all (no occurrence for the single pattern; no collected
pair in the multi-pattern scan). -/
theorem claim_C5_soft_failure (t : Str) (sub : SubStr) (cs : Bool) (method : Str)
    (count : Option Int) :
    (t = [] → search t sub cs method count = none) ∧
    (∀ s, sub = .str s → s = [] → search t sub cs method count = none) ∧
    (sub = .list [] → search t sub cs method count = none) ∧
    (∀ l, sub = .list l → multiPatterns cs l = [] → search t sub cs method count = none) ∧
    (∀ s, sub = .str s → s ≠ [] → naiveOccs (procStr cs t) (procStr cs s) = [] →
      search t sub cs method count = none) ∧
    (∀ l, sub = .list l → mergedPairs t cs l = [] → search t sub cs method count = none) := by
  refine ⟨?_, ?_, ?_, ?_, ?_, ?_⟩
  · intro ht
    cases sub with
    | str s => simp [search, ht]
    | list l => simp [search, ht]
  · intro s hsub hs
    subst hsub
    by_cases ht : t = [] <;> simp [search, ht, hs]
  · intro hsub
    subst hsub
    by_cases ht : t = [] <;> simp [search, ht]
  · intro l hsub hmp
    subst hsub
    by_cases ht : t = []
    · simp [search, ht]
    · by_cases hl : l = [] <;> simp [search, ht, hl, hmp]
  · intro s hsub hs hnaive
    subst hsub
    by_cases ht : t = []
    · simp [search, ht]
    · have hkmp : kmp_search (procStr cs t) (procStr cs s) = [] := by
        rw [kmp_search_correct _ _ (fun h => hs (procStr_eq_nil.mp h)), hnaive]
      simp [search, ht, hs, hkmp]
  · intro l hsub hmerged
    subst hsub
    by_cases ht : t = []
    · simp [search, ht]
    · by_cases hl : l = []
      · simp [search, ht, hl]
      · by_cases hmp : multiPatterns cs l = []
        · simp [search, ht, hl, hmp]
        · rw [search, if_neg ht]
          simp only
          rw [if_neg hl, if_neg hmp]
          have hpairs : applyCount count
              (if method = "last".toList then (mergedPairs t cs l).reverse
               else mergedPairs t cs l) = [] := by
            rw [hmerged]
            cases hmm : decide (method = "last".toList) <;>
              simp [applyCount_nil]
          rw [hpairs]
          have hvals : ∀ e ∈ regroup cs l [], e.2 = (none : Option (List Nat)) := by
            apply foldl_dset_values _ (fun v => v = none) l [] (fun e he => by cases he)
            intro op _
            simp
          have hany : (regroup cs l []).any (fun e => e.2.isSome) = false := by
            rw [List.any_eq_false]
            intro e he
            rw [hvals e he]
            simp
          rw [hany]
          simp

theorem claim_C5_witness :
    search ([] : Str) (.str "a".toList) false "first".toList none = none :=
  (claim_C5_soft_failure [] (.str "a".toList) false "first".toList none).1 rfl

theorem naiveOccs_nil_text {p : Str} (hp : p ≠ []) : naiveOccs [] p = [] := by
  have hm := List.length_pos.mpr hp
  rw [naiveOccs]
  have h0 : (List.nil : Str).length + 1 - p.length = 0 := by
    simp only [List.length_nil]
    omega
  rw [h0]
  rfl

theorem procStr_nil (cs : Bool) : procStr cs ([] : Str) = [] := by
  cases cs <;> rfl

/-- C2 counterexample: with text `"a"`, pattern `"a"` and `count = 0` the
dispatcher returns the absent value, not a sequence of length
`min 0 totalMatches = 0`. -/
theorem claim_C2_counterexample :
    ¬ (∃ ms : List Nat,
      search "a".toList (.str "a".toList) false "first".toList (some 0) = some (.inl ms) ∧
      ms.length = min ((0 : Int).toNat)
        (naiveOccs (procStr false "a".toList) (procStr false "a".toList)).length) := by
  rintro ⟨ms, h1, _⟩
  have h2 : search "a".toList (.str "a".toList) false "first".toList (some 0) = none := by
    decide
  rw [h2] at h1
  cases h1

/-- C2 amended: for a non-empty single pattern and `count = k ≥ 0` (with the
default case-insensitive processing and direction `'first'`), the result is
`none` when `min k totalMatches = 0`, and otherwise a sequence of length
exactly `min k totalMatches`, where `totalMatches` is the number of
occurrences of the processed pattern in the processed text. -/
theorem claim_C2_limit (t s : Str) (k : Int) (hs : s ≠ []) (hk : 0 ≤ k) :
    (min k.toNat (naiveOccs (procStr false t) (procStr false s)).length = 0 →
      search t (.str s) false "first".toList (some k) = none) ∧
    (0 < min k.toNat (naiveOccs (procStr false t) (procStr false s)).length →
      ∃ ms : List Nat,
        search t (.str s) false "first".toList (some k) = some (.inl ms) ∧
        ms.length = min k.toNat (naiveOccs (procStr false t) (procStr false s)).length) := by
  have hps : procStr false s ≠ [] := fun h => hs (procStr_eq_nil.mp h)
  have hkmp : kmp_search (procStr false t) (procStr false s)
      = naiveOccs (procStr false t) (procStr false s) :=
    kmp_search_correct _ _ hps
  have hfl : ¬("first".toList = "last".toList) := by decide
  by_cases ht : t = []
  · have hnaive : naiveOccs (procStr false t) (procStr false s) = [] := by
      subst ht
      rw [procStr_nil, naiveOccs_nil_text hps]
    constructor
    · intro _
      simp [search, ht]
    · intro hpos
      rw [hnaive] at hpos
      simp at hpos
  · constructor
    · intro hmin
      by_cases hn : naiveOccs (procStr false t) (procStr false s) = []
      · rw [← hkmp] at hn
        simp [search, ht, hs, hn]
      · have hlpos : 0 < (naiveOccs (procStr false t) (procStr false s)).length :=
          List.length_pos.mpr hn
        have hk0 : k.toNat = 0 := by omega
        simp only [search]
        rw [if_neg ht, if_neg hs, hkmp, if_neg hn, if_neg hfl]
        have happ : applyCount (some k) (naiveOccs (procStr false t) (procStr false s))
            = [] := by
          simp [applyCount, pySlice, hk, hk0]
        rw [happ]
        simp
    · intro hpos
      have hn : naiveOccs (procStr false t) (procStr false s) ≠ [] := by
        intro h
        rw [h] at hpos
        simp at hpos
      refine ⟨(naiveOccs (procStr false t) (procStr false s)).take k.toNat, ?_, ?_⟩
      · simp only [search]
        rw [if_neg ht, if_neg hs, hkmp, if_neg hn, if_neg hfl]
        have happ : applyCount (some k) (naiveOccs (procStr false t) (procStr false s))
            = (naiveOccs (procStr false t) (procStr false s)).take k.toNat := by
          simp [applyCount, pySlice, hk]
        rw [happ, if_neg ?_]
        intro h
        have h2 := congrArg List.length h
        simp only [List.length_take, List.length_nil] at h2
        omega
      · simp [List.length_take]

theorem claim_C2_limit_witness :
    ("a".toList ≠ ([] : Str)) ∧ (0 : Int) ≤ 1 ∧
    ((min ((1 : Int)).toNat
        (naiveOccs (procStr false "aa".toList) (procStr false "a".toList)).length = 0 →
      search "aa".toList (.str "a".toList) false "first".toList (some 1) = none) ∧
    (0 < min ((1 : Int)).toNat
        (naiveOccs (procStr false "aa".toList) (procStr false "a".toList)).length →
      ∃ ms : List Nat,
        search "aa".toList (.str "a".toList) false "first".toList (some 1) = some (.inl ms) ∧
        ms.length = min ((1 : Int)).toNat
          (naiveOccs (procStr false "aa".toList) (procStr false "a".toList)).length)) :=
  ⟨by decide, by decide, claim_C2_limit "aa".toList "a".toList 1 (by decide) (by decide)⟩

/-- C10: a negative `count = c` truncates via the Python slice `ms[:c]`:
the (possibly reversed) match sequence loses its last `|c|` entries, and
the result collapses to `none` when `|c|` is at least the match count; no
error is raised (the embedding is total). -/
theorem claim_C10_negative_count (t s : Str) (cs : Bool) (method : Str) (c : Int)
    (hs : s ≠ []) (hc : c < 0)
    (hms : kmp_search (procStr cs t) (procStr cs s) ≠ []) :
    search t (.str s) cs method (some c)
      = (if (kmp_search (procStr cs t) (procStr cs s)).length ≤ (-c).toNat then none
         else some (.inl ((if method = "last".toList
              then (kmp_search (procStr cs t) (procStr cs s)).reverse
              else kmp_search (procStr cs t) (procStr cs s)).take
            ((kmp_search (procStr cs t) (procStr cs s)).length - (-c).toNat)))) := by
  have hps : procStr cs s ≠ [] := fun h => hs (procStr_eq_nil.mp h)
  have ht : t ≠ [] := by
    intro ht
    apply hms
    subst ht
    rw [procStr_nil, kmp_search_correct _ _ hps, naiveOccs_nil_text hps]
  simp only [search]
  rw [if_neg ht, if_neg hs, if_neg hms]
  have hlen1 : (if method = "last".toList
      then (kmp_search (procStr cs t) (procStr cs s)).reverse
      else kmp_search (procStr cs t) (procStr cs s)).length
      = (kmp_search (procStr cs t) (procStr cs s)).length := by
    by_cases hmm : method = "last".toList
    · rw [if_pos hmm, List.length_reverse]
    · rw [if_neg hmm]
  have hnil1 : (if method = "last".toList
      then (kmp_search (procStr cs t) (procStr cs s)).reverse
      else kmp_search (procStr cs t) (procStr cs s)) ≠ [] := by
    by_cases hmm : method = "last".toList
    · rw [if_pos hmm]
      simpa using hms
    · rw [if_neg hmm]
      exact hms
  have happ : applyCount (some c) (if method = "last".toList
      then (kmp_search (procStr cs t) (procStr cs s)).reverse
      else kmp_search (procStr cs t) (procStr cs s))
      = (if method = "last".toList
          then (kmp_search (procStr cs t) (procStr cs s)).reverse
          else kmp_search (procStr cs t) (procStr cs s)).take
        ((kmp_search (procStr cs t) (procStr cs s)).length - (-c).toNat) := by
    have hnk : ¬ (0 ≤ c) := by omega
    simp only [applyCount, pySlice, if_neg hnk, hlen1]
  rw [happ]
  by_cases hle : (kmp_search (procStr cs t) (procStr cs s)).length ≤ (-c).toNat
  · rw [if_pos hle, if_pos ?_]
    have h0 : (kmp_search (procStr cs t) (procStr cs s)).length - (-c).toNat = 0 := by
      omega
    rw [h0]
    rfl
  · rw [if_neg hle, if_neg ?_]
    intro h
    have h2 := congrArg List.length h
    simp only [List.length_take, List.length_nil, hlen1] at h2
    omega

theorem claim_C10_witness :
    ("aba".toList ≠ ([] : Str)) ∧ ((-1 : Int) < 0) ∧
    (kmp_search (procStr false "ababbababa".toList) (procStr false "aba".toList) ≠ []) ∧
    search "ababbababa".toList (.str "aba".toList) false "first".toList (some (-1))
      = (if (kmp_search (procStr false "ababbababa".toList)
            (procStr false "aba".toList)).length ≤ ((-(-1) : Int)).toNat then none
         else some (.inl ((if ("first".toList : Str) = "last".toList
              then (kmp_search (procStr false "ababbababa".toList)
                (procStr false "aba".toList)).reverse
              else kmp_search (procStr false "ababbababa".toList)
                (procStr false "aba".toList)).take
            ((kmp_search (procStr false "ababbababa".toList)
                (procStr false "aba".toList)).length - ((-(-1) : Int)).toNat)))) :=
  ⟨by decide, by decide, by decide,
    claim_C10_negative_count "ababbababa".toList "aba".toList false "first".toList (-1)
      (by decide) (by decide) (by decide)⟩

/-- C6: every position reported by `rabin_karp_search` passed the explicit
window-versus-pattern comparison (so in particular its window's rolling hash
equals the pattern's), and the output is exactly the set of true occurrence
positions: hash collisions are never observable. -/
theorem claim_C6_rk_verifies (t p : Str) (hp : p ≠ []) :
    rabin_karp_search t p = naiveOccs t p ∧
    ∀ s ∈ rabin_karp_search t p,
      rolling_hash (windowAt t s p.length) 256 101 = rolling_hash p 256 101 ∧
      windowAt t s p.length = p := by
  have h := rabin_karp_correct t p hp
  refine ⟨h, ?_⟩
  intro s hsmem
  rw [h] at hsmem
  have hw : windowAt t s p.length = p := (naiveOccs_mem t p hp s).mp hsmem
  exact ⟨by rw [hw], hw⟩

theorem claim_C6_witness :
    ("abc".toList ≠ ([] : Str)) ∧
    (rabin_karp_search "abcabcab".toList "abc".toList
        = naiveOccs "abcabcab".toList "abc".toList ∧
      ∀ s ∈ rabin_karp_search "abcabcab".toList "abc".toList,
        rolling_hash (windowAt "abcabcab".toList s "abc".toList.length) 256 101
          = rolling_hash "abc".toList 256 101 ∧
        windowAt "abcabcab".toList s "abc".toList.length = "abc".toList) :=
  ⟨by decide, claim_C6_rk_verifies "abcabcab".toList "abc".toList (by decide)⟩

theorem dset_map_comm {α β γ : Type} [DecidableEq α] (g : β → γ) (k : α) (v : β) :
    ∀ d : List (α × β),
      dset k (g v) (d.map (fun e => (e.1, g e.2)))
        = (dset k v d).map (fun e => (e.1, g e.2)) := by
  intro d
  induction d with
  | nil => rfl
  | cons e rest ih =>
    simp only [List.map_cons, dset]
    by_cases h : e.1 = k
    · rw [if_pos h, if_pos h]
      rfl
    · rw [if_neg h, if_neg h, ih]
      rfl

theorem foldl_dset_map {α β γ : Type} [DecidableEq α] (g : β → γ) (V : α → β) :
    ∀ (l : List α) (acc : List (α × β)),
      l.foldl (fun res op => dset op (g (V op)) res) (acc.map (fun e => (e.1, g e.2)))
        = (l.foldl (fun res op => dset op (V op) res) acc).map (fun e => (e.1, g e.2)) := by
  intro l
  induction l with
  | nil => intro acc; rfl
  | cons op rest ih =>
    intro acc
    rw [List.foldl_cons, List.foldl_cons, dset_map_comm]
    exact ih _

/-- Regrouping the reversed pair list reverses every value list in place. -/
theorem regroup_reverse (cs : Bool) (l : List Str) (pairs : List (Nat × Str)) :
    regroup cs l pairs.reverse
      = (regroup cs l pairs).map (fun e => (e.1, e.2.map List.reverse)) := by
  have hstep : regroup cs l pairs.reverse
      = l.foldl (fun res op =>
          dset op (Option.map List.reverse
            ((fun q =>
              (if ((pairs.filter (fun e => decide (e.2 = procStr cs q))).map
                    (fun e => e.1)) = []
               then none
               else some ((pairs.filter (fun e => decide (e.2 = procStr cs q))).map
                    (fun e => e.1)))) op)) res) [] := by
    rw [regroup]
    apply List.foldl_ext
    intro acc op _
    have hflt : ((pairs.reverse.filter (fun e => decide (e.2 = procStr cs op))).map
          (fun e => e.1))
        = ((pairs.filter (fun e => decide (e.2 = procStr cs op))).map
            (fun e => e.1)).reverse := by
      rw [List.filter_reverse, List.map_reverse]
    show dset op _ acc = dset op _ acc
    congr 1
    show (if ((pairs.reverse.filter (fun e => decide (e.2 = procStr cs op))).map
            (fun e => e.1)) = []
          then none
          else some ((pairs.reverse.filter (fun e => decide (e.2 = procStr cs op))).map
            (fun e => e.1)))
        = Option.map List.reverse
          (if ((pairs.filter (fun e => decide (e.2 = procStr cs op))).map
                (fun e => e.1)) = []
           then none
           else some ((pairs.filter (fun e => decide (e.2 = procStr cs op))).map
                (fun e => e.1)))
    rw [hflt]
    by_cases hms : ((pairs.filter (fun e => decide (e.2 = procStr cs op))).map
        (fun e => e.1)) = []
    · rw [if_pos hms, if_pos (by rw [hms]; rfl)]
      rfl
    · rw [if_neg hms, if_neg (by rw [List.reverse_eq_nil_iff]; exact hms)]
      rfl
  rw [hstep, regroup]
  exact foldl_dset_map (Option.map List.reverse) _ l []

theorem any_isSome_map (d : List (Str × Option (List Nat))) :
    ((d.map (fun e => (e.1, e.2.map List.reverse))).any (fun e => e.2.isSome))
      = d.any (fun e => e.2.isSome) := by
  induction d with
  | nil => rfl
  | cons e rest ih =>
    simp only [List.map_cons, List.any_cons, ih]
    congr 1
    cases e.2 <;> rfl

/-- C4: without a count, `method = 'last'` yields exactly the reverse of the
`'first'` result (positions reversed inside the tuple, or inside every dict
value); with a nonnegative count `k`, the result keeps the first `k` entries
of the reversed fully collected sequence (single-pattern tuple, respectively
merged multi-pattern pair list before regrouping). -/
theorem claim_C4_direction (t : Str) (sub : SubStr) (cs : Bool) (k : Int) (hk : 0 ≤ k) :
    (search t sub cs "last".toList none = revResult (search t sub cs "first".toList none)) ∧
    (∀ s, sub = .str s → t ≠ [] → s ≠ [] →
      search t sub cs "last".toList (some k)
        = (if ((kmp_search (procStr cs t) (procStr cs s)).reverse).take k.toNat = []
           then none
           else some (.inl (((kmp_search (procStr cs t) (procStr cs s)).reverse).take
              k.toNat)))) ∧
    (∀ l, sub = .list l → t ≠ [] → l ≠ [] → multiPatterns cs l ≠ [] →
      search t sub cs "last".toList (some k)
        = (if (regroup cs l (((mergedPairs t cs l).reverse).take k.toNat)).any
              (fun e => e.2.isSome)
           then some (.inr (regroup cs l (((mergedPairs t cs l).reverse).take k.toNat)))
           else none)) := by
  have hfl : ¬(("first".toList : Str) = "last".toList) := by decide
  refine ⟨?_, ?_, ?_⟩
  · by_cases ht : t = []
    · cases sub <;> simp [search, ht, revResult]
    · cases sub with
      | str s =>
        by_cases hs : s = []
        · simp [search, ht, hs, revResult]
        · by_cases hkms : kmp_search (procStr cs t) (procStr cs s) = []
          · simp [search, ht, hs, hkms, revResult]
          · simp only [search, applyCount]
            rw [if_neg ht, if_neg hs, if_neg hkms, if_pos True.intro]
            rw [if_neg ht, if_neg hs, if_neg hkms, if_neg hfl]
            have hrev : (kmp_search (procStr cs t) (procStr cs s)).reverse ≠ [] := by
              rw [Ne, List.reverse_eq_nil_iff]
              exact hkms
            rw [if_neg hrev, if_neg hkms]
            rfl
      | list l =>
        by_cases hl : l = []
        · simp [search, ht, hl, revResult]
        · by_cases hmp : multiPatterns cs l = []
          · simp [search, ht, hl, hmp, revResult]
          · simp only [search, applyCount]
            rw [if_neg ht, if_neg hl, if_neg hmp, if_pos True.intro]
            rw [if_neg ht, if_neg hl, if_neg hmp, if_neg hfl]
            rw [regroup_reverse, any_isSome_map]
            by_cases hany : (regroup cs l (mergedPairs t cs l)).any
                (fun e => e.2.isSome) = true
            · rw [if_pos hany, if_pos hany]
              rfl
            · rw [if_neg hany, if_neg hany]
              rfl
  · intro s hsub ht hs
    subst hsub
    by_cases hkms : kmp_search (procStr cs t) (procStr cs s) = []
    · rw [hkms]
      simp [search, ht, hs, hkms]
    · simp only [search]
      rw [if_neg ht, if_neg hs, if_neg hkms, if_pos True.intro]
      have happ : applyCount (some k) ((kmp_search (procStr cs t) (procStr cs s)).reverse)
          = ((kmp_search (procStr cs t) (procStr cs s)).reverse).take k.toNat := by
        simp [applyCount, pySlice, hk]
      rw [happ]
  · intro l hsub ht hl hmp
    subst hsub
    simp only [search]
    rw [if_neg ht, if_neg hl, if_neg hmp, if_pos True.intro]
    have happ : applyCount (some k) ((mergedPairs t cs l).reverse)
        = ((mergedPairs t cs l).reverse).take k.toNat := by
      simp [applyCount, pySlice, hk]
    rw [happ]

theorem claim_C4_witness :
    ((0 : Int) ≤ 2) ∧
    (search "ababa".toList (.str "aba".toList) false "last".toList none
      = revResult (search "ababa".toList (.str "aba".toList) false "first".toList none)) ∧
    (search "ababa".toList (.str "aba".toList) false "last".toList (some 2)
      = (if ((kmp_search (procStr false "ababa".toList)
              (procStr false "aba".toList)).reverse).take ((2 : Int)).toNat = []
         then none
         else some (.inl (((kmp_search (procStr false "ababa".toList)
              (procStr false "aba".toList)).reverse).take ((2 : Int)).toNat)))) := by
  refine ⟨by decide, ?_, ?_⟩
  · exact (claim_C4_direction "ababa".toList (.str "aba".toList) false 2 (by decide)).1
  · exact (claim_C4_direction "ababa".toList (.str "aba".toList) false 2 (by decide)).2.1
      "aba".toList rfl (by decide) (by decide)

/-- C3: the multi-pattern path merges all (position, pattern) pairs into one
globally position-sorted sequence, the count caps that combined sequence
(not each pattern separately), and the survivors are regrouped under the
original (un-lowercased) pattern strings as dict keys, every original
pattern receiving an entry. -/
theorem claim_C3_multi_merge (t : Str) (cs : Bool) (l : List Str) (k : Int)
    (ht : t ≠ []) (hl : l ≠ []) (hmp : multiPatterns cs l ≠ []) (hk : 0 ≤ k) :
    List.Pairwise (fun a b : Nat × Str => a.1 ≤ b.1) (mergedPairs t cs l) ∧
    (applyCount (some k) (mergedPairs t cs l)).length ≤ k.toNat ∧
    (∀ x ∈ l, dlookup x (regroup cs l (applyCount (some k) (mergedPairs t cs l)))
        = some (if ((applyCount (some k) (mergedPairs t cs l)).filter
              (fun e => decide (e.2 = procStr cs x))).map (fun e => e.1) = []
            then none
            else some (((applyCount (some k) (mergedPairs t cs l)).filter
              (fun e => decide (e.2 = procStr cs x))).map (fun e => e.1)))) ∧
    search t (.list l) cs "first".toList (some k)
      = (if (regroup cs l (applyCount (some k) (mergedPairs t cs l))).any
            (fun e => e.2.isSome)
         then some (.inr (regroup cs l (applyCount (some k) (mergedPairs t cs l))))
         else none) := by
  have hfl : ¬(("first".toList : Str) = "last".toList) := by decide
  refine ⟨?_, ?_, ?_, ?_⟩
  · rw [mergedPairs]
    apply List.Pairwise.imp ?_ (List.sorted_mergeSort ?_ ?_ _)
    · intro a b hab
      exact of_decide_eq_true hab
    · intro a b c h1 h2
      exact decide_eq_true (le_trans (of_decide_eq_true h1) (of_decide_eq_true h2))
    · intro a b
      rw [Bool.or_eq_true]
      by_cases h : a.1 ≤ b.1
      · exact Or.inl (decide_eq_true h)
      · exact Or.inr (decide_eq_true (le_of_not_le h))
  · simp only [applyCount]
    rw [pySlice, if_pos hk]
    exact List.length_take_le _ _
  · intro x hx
    rw [regroup]
    exact foldl_dset_mem
      (fun op => if ((applyCount (some k) (mergedPairs t cs l)).filter
            (fun e => decide (e.2 = procStr cs op))).map (fun e => e.1) = []
          then none
          else some (((applyCount (some k) (mergedPairs t cs l)).filter
            (fun e => decide (e.2 = procStr cs op))).map (fun e => e.1)))
      l [] hx
  · simp only [search]
    rw [if_neg ht, if_neg hl, if_neg hmp, if_neg hfl]

theorem claim_C3_witness :
    ("abab".toList ≠ ([] : Str)) ∧ (["ab".toList, "ba".toList] ≠ ([] : List Str)) ∧
    (multiPatterns false ["ab".toList, "ba".toList] ≠ []) ∧ ((0 : Int) ≤ 3) ∧
    List.Pairwise (fun a b : Nat × Str => a.1 ≤ b.1)
      (mergedPairs "abab".toList false ["ab".toList, "ba".toList]) ∧
    (applyCount (some 3)
      (mergedPairs "abab".toList false ["ab".toList, "ba".toList])).length ≤ (3 : Int).toNat ∧
    dlookup "ab".toList (regroup false ["ab".toList, "ba".toList]
        (applyCount (some 3) (mergedPairs "abab".toList false ["ab".toList, "ba".toList])))
      = some (if ((applyCount (some 3)
              (mergedPairs "abab".toList false ["ab".toList, "ba".toList])).filter
            (fun e => decide (e.2 = procStr false "ab".toList))).map (fun e => e.1) = []
          then none
          else some (((applyCount (some 3)
              (mergedPairs "abab".toList false ["ab".toList, "ba".toList])).filter
            (fun e => decide (e.2 = procStr false "ab".toList))).map (fun e => e.1))) ∧
    search "abab".toList (.list ["ab".toList, "ba".toList]) false "first".toList (some 3)
      = (if (regroup false ["ab".toList, "ba".toList] (applyCount (some 3)
            (mergedPairs "abab".toList false ["ab".toList, "ba".toList]))).any
            (fun e => e.2.isSome)
         then some (.inr (regroup false ["ab".toList, "ba".toList] (applyCount (some 3)
            (mergedPairs "abab".toList false ["ab".toList, "ba".toList]))))
         else none) := by
  have h := claim_C3_multi_merge "abab".toList false ["ab".toList, "ba".toList] 3
    (by decide) (by decide) (by decide) (by decide)
  exact ⟨by decide, by decide, by decide, by decide, h.1, h.2.1,
    h.2.2.1 "ab".toList (by decide), h.2.2.2⟩

/-! ## The goto phase over arbitrary pattern lists: growth, trie walks,
no-op duplicate insertion -/

theorem dlookup_mono {α β : Type} [DecidableEq α] {k : α} {v : β} {g : List (α × β)}
    (ext : List (α × β)) (h : dlookup k g = some v) : dlookup k (g ++ ext) = some v := by
  rw [dlookup_append, h]
  rfl

theorem insertChar_grow (g : List ((Nat × Char) × Nat)) (s : Nat) (c : Char) :
    ∃ ext, (insertChar g s c).1 = g ++ ext := by
  cases h : dlookup (s, c) g with
  | some u =>
    refine ⟨[], ?_⟩
    rw [insertChar, h, List.append_nil]
  | none =>
    refine ⟨[((s, c), g.length + 1)], ?_⟩
    rw [insertChar, h]

theorem insertChar_lookup (g : List ((Nat × Char) × Nat)) (s : Nat) (c : Char) :
    dlookup (s, c) (insertChar g s c).1 = some (insertChar g s c).2 := by
  cases h : dlookup (s, c) g with
  | some u =>
    rw [insertChar, h]
    exact h
  | none =>
    rw [insertChar, h]
    show dlookup (s, c) (g ++ [((s, c), g.length + 1)]) = some (g.length + 1)
    rw [dlookup_append, h, dlookup_single, if_pos rfl]
    rfl

theorem insertPatternFrom_nil (g : List ((Nat × Char) × Nat)) (s : Nat) :
    insertPatternFrom g s [] = (g, s) := rfl

theorem insertPatternFrom_cons (g : List ((Nat × Char) × Nat)) (s : Nat) (c : Char)
    (p : Str) :
    insertPatternFrom g s (c :: p)
      = insertPatternFrom (insertChar g s c).1 (insertChar g s c).2 p := by
  rw [insertPatternFrom, List.foldl_cons]
  rfl

theorem insertPattern_eq_from (g : List ((Nat × Char) × Nat)) (p : Str) :
    insertPattern g p = insertPatternFrom g 0 p := rfl

theorem insertPatternFrom_grow (p : Str) :
    ∀ (g : List ((Nat × Char) × Nat)) (s : Nat),
      ∃ ext, (insertPatternFrom g s p).1 = g ++ ext := by
  induction p with
  | nil =>
    intro g s
    exact ⟨[], (List.append_nil g).symm⟩
  | cons c p ih =>
    intro g s
    rw [insertPatternFrom_cons]
    obtain ⟨e1, he1⟩ := insertChar_grow g s c
    obtain ⟨e2, he2⟩ := ih (insertChar g s c).1 (insertChar g s c).2
    exact ⟨e1 ++ e2, by rw [he2, he1, List.append_assoc]⟩

theorem acWalkFrom_mono (p : Str) :
    ∀ (g ext : List ((Nat × Char) × Nat)) (s u : Nat),
      acWalkFrom g s p = some u → acWalkFrom (g ++ ext) s p = some u := by
  induction p with
  | nil =>
    intro g ext s u h
    exact h
  | cons c p ih =>
    intro g ext s u h
    simp only [acWalkFrom] at h
    cases hd : dlookup (s, c) g with
    | none =>
      rw [hd] at h
      cases h
    | some v =>
      rw [hd] at h
      simp only [acWalkFrom, dlookup_mono ext hd]
      exact ih g ext v u h

theorem insertPatternFrom_walk (p : Str) :
    ∀ (g : List ((Nat × Char) × Nat)) (s : Nat),
      acWalkFrom (insertPatternFrom g s p).1 s p = some (insertPatternFrom g s p).2 := by
  induction p with
  | nil =>
    intro g s
    rfl
  | cons c p ih =>
    intro g s
    rw [insertPatternFrom_cons]
    obtain ⟨ext, hext⟩ :=
      insertPatternFrom_grow p (insertChar g s c).1 (insertChar g s c).2
    have hlk : dlookup (s, c)
        (insertPatternFrom (insertChar g s c).1 (insertChar g s c).2 p).1
        = some (insertChar g s c).2 := by
      rw [hext]
      exact dlookup_mono ext (insertChar_lookup g s c)
    simp only [acWalkFrom, hlk]
    exact ih (insertChar g s c).1 (insertChar g s c).2

theorem insertPatternFrom_noop (p : Str) :
    ∀ (g : List ((Nat × Char) × Nat)) (s u : Nat),
      acWalkFrom g s p = some u → insertPatternFrom g s p = (g, u) := by
  induction p with
  | nil =>
    intro g s u h
    have hsu : s = u := Option.some.inj h
    rw [insertPatternFrom_nil, hsu]
  | cons c p ih =>
    intro g s u h
    simp only [acWalkFrom] at h
    cases hd : dlookup (s, c) g with
    | none =>
      rw [hd] at h
      cases h
    | some v =>
      rw [hd] at h
      rw [insertPatternFrom_cons]
      have hic : insertChar g s c = (g, v) := by
        rw [insertChar, hd]
      rw [hic]
      exact ih g v u h

theorem acGotoFold_nil (g : List ((Nat × Char) × Nat)) : acGotoFold [] g = g := rfl

theorem acGotoFold_cons (p : Str) (rest : List Str) (g : List ((Nat × Char) × Nat)) :
    acGotoFold (p :: rest) g = acGotoFold rest (insertPattern g p).1 := by
  rw [acGotoFold, acGotoFold, List.foldl_cons]

theorem acGotoFold_grow (ps : List Str) :
    ∀ g : List ((Nat × Char) × Nat), ∃ ext, acGotoFold ps g = g ++ ext := by
  induction ps with
  | nil =>
    intro g
    exact ⟨[], (List.append_nil g).symm⟩
  | cons p rest ih =>
    intro g
    rw [acGotoFold_cons]
    obtain ⟨e1, he1⟩ := insertPatternFrom_grow p g 0
    obtain ⟨e2, he2⟩ := ih (insertPattern g p).1
    refine ⟨e1 ++ e2, ?_⟩
    rw [he2, insertPattern_eq_from, he1, List.append_assoc]

theorem buildGotoOut_fst :
    ∀ (ps : List Str) (g : List ((Nat × Char) × Nat)) (out : List (Nat × List Str)),
      (ps.foldl (fun st p =>
          let gl := insertPattern st.1 p
          (gl.1, dictAppend gl.2 p st.2)) (g, out)).1
        = acGotoFold ps g := by
  intro ps
  induction ps with
  | nil =>
    intro g out
    rfl
  | cons p rest ih =>
    intro g out
    rw [List.foldl_cons, acGotoFold_cons]
    exact ih _ _

theorem acGotoFold_walk_mem :
    ∀ (ps : List Str) (g : List ((Nat × Char) × Nat)) (p : Str), p ∈ ps →
      ∃ u, acWalkFrom (acGotoFold ps g) 0 p = some u := by
  intro ps
  induction ps with
  | nil =>
    intro g p hp
    cases hp
  | cons a rest ih =>
    intro g p hp
    rw [acGotoFold_cons]
    rcases List.mem_cons.mp hp with rfl | hp'
    · obtain ⟨ext, hext⟩ := acGotoFold_grow rest (insertPattern g p).1
      refine ⟨(insertPatternFrom g 0 p).2, ?_⟩
      rw [hext, insertPattern_eq_from]
      exact acWalkFrom_mono p _ ext 0 _ (insertPatternFrom_walk p g 0)
    · exact ih _ p hp'

/-! ## First-occurrence deduplication and its effect on the goto phase -/

theorem uniq_nil : uniq [] = [] := by
  rw [uniq]

theorem uniq_cons (a : Str) (rest : List Str) :
    uniq (a :: rest) = a :: uniq (rest.filter (fun b => decide (b ≠ a))) := by
  rw [uniq]

theorem mem_uniq :
    ∀ (n : Nat) (l : List Str), l.length ≤ n → ∀ q : Str, q ∈ uniq l ↔ q ∈ l := by
  intro n
  induction n with
  | zero =>
    intro l hl q
    have h0 : l = [] := List.eq_nil_of_length_eq_zero (by omega)
    subst h0
    rw [uniq_nil]
  | succ n ih =>
    intro l hl q
    cases l with
    | nil => rw [uniq_nil]
    | cons a rest =>
      have hlen : (rest.filter (fun b => decide (b ≠ a))).length ≤ n := by
        have h1 := List.length_filter_le (fun b => decide (b ≠ a)) rest
        simp only [List.length_cons] at hl
        omega
      rw [uniq_cons]
      simp only [List.mem_cons]
      constructor
      · rintro (rfl | hq)
        · exact Or.inl rfl
        · exact Or.inr (List.mem_of_mem_filter ((ih _ hlen q).mp hq))
      · rintro (rfl | hq)
        · exact Or.inl rfl
        · by_cases hqa : q = a
          · exact Or.inl hqa
          · refine Or.inr ((ih _ hlen q).mpr ?_)
            exact List.mem_filter.mpr ⟨hq, by simpa using hqa⟩

theorem count_uniq :
    ∀ (n : Nat) (l : List Str), l.length ≤ n → ∀ q ∈ l, (uniq l).count q = 1 := by
  intro n
  induction n with
  | zero =>
    intro l hl q hq
    have h0 : l = [] := List.eq_nil_of_length_eq_zero (by omega)
    subst h0
    cases hq
  | succ n ih =>
    intro l hl q hq
    cases l with
    | nil => cases hq
    | cons a rest =>
      have hlen : (rest.filter (fun b => decide (b ≠ a))).length ≤ n := by
        have h1 := List.length_filter_le (fun b => decide (b ≠ a)) rest
        simp only [List.length_cons] at hl
        omega
      rw [uniq_cons, List.count_cons]
      by_cases hqa : q = a
      · subst hqa
        have hnot : q ∉ uniq (rest.filter (fun b => decide (b ≠ q))) := by
          rw [mem_uniq n _ hlen]
          intro hmem
          have h2 := (List.mem_filter.mp hmem).2
          simp at h2
        rw [List.count_eq_zero.mpr hnot]
        simp
      · have hqrest : q ∈ rest := by
          rcases List.mem_cons.mp hq with rfl | h2
          · exact absurd rfl hqa
          · exact h2
        have hqf : q ∈ rest.filter (fun b => decide (b ≠ a)) :=
          List.mem_filter.mpr ⟨hqrest, by simpa using hqa⟩
        rw [ih _ hlen q hqf]
        have hne : (a == q) = false := by
          simp
          exact fun h2 => hqa h2.symm
        rw [hne]
        simp

theorem acGotoFold_filter_eq (a : Str) :
    ∀ (rest : List Str) (g : List ((Nat × Char) × Nat)) (u : Nat),
      acWalkFrom g 0 a = some u →
      acGotoFold rest g = acGotoFold (rest.filter (fun b => decide (b ≠ a))) g := by
  intro rest
  induction rest with
  | nil =>
    intro g u _
    rfl
  | cons b tail ih =>
    intro g u h
    rw [acGotoFold_cons, List.filter_cons]
    by_cases hba : b = a
    · subst hba
      rw [if_neg (by simp)]
      have hnoop : insertPattern g b = (g, u) := by
        rw [insertPattern_eq_from]
        exact insertPatternFrom_noop b g 0 u h
      rw [hnoop]
      exact ih g u h
    · rw [if_pos (by simpa using hba), acGotoFold_cons]
      obtain ⟨ext, hext⟩ := insertPatternFrom_grow b g 0
      have h' : acWalkFrom (insertPattern g b).1 0 a = some u := by
        rw [insertPattern_eq_from, hext]
        exact acWalkFrom_mono a g ext 0 u h
      exact ih _ u h'

theorem acGotoFold_uniq :
    ∀ (n : Nat) (ps : List Str), ps.length ≤ n →
      ∀ g : List ((Nat × Char) × Nat), acGotoFold ps g = acGotoFold (uniq ps) g := by
  intro n
  induction n with
  | zero =>
    intro ps h g
    have h0 : ps = [] := List.eq_nil_of_length_eq_zero (by omega)
    subst h0
    rw [uniq_nil]
  | succ n ih =>
    intro ps h g
    cases ps with
    | nil => rw [uniq_nil]
    | cons a rest =>
      have hlen : (rest.filter (fun b => decide (b ≠ a))).length ≤ n := by
        have h1 := List.length_filter_le (fun b => decide (b ≠ a)) rest
        simp only [List.length_cons] at h
        omega
      rw [uniq_cons, acGotoFold_cons, acGotoFold_cons]
      have hwalk : acWalkFrom (insertPattern g a).1 0 a
          = some (insertPatternFrom g 0 a).2 := by
        rw [insertPattern_eq_from]
        exact insertPatternFrom_walk a g 0
      rw [acGotoFold_filter_eq a rest _ _ hwalk]
      exact ih _ hlen _

/-! ## Dict lemmas for `dictAppend`, and the trie structure of the goto list
(targets are numbered `1, 2, …` in insertion order, so trie walks are
injective) -/

theorem dlookup_cons {α β : Type} [DecidableEq α] (s : α) (e : α × β)
    (rest : List (α × β)) :
    dlookup s (e :: rest) = if e.1 = s then some e.2 else dlookup s rest := by
  by_cases h : e.1 = s
  · rw [dlookup_eq_map, List.find?_cons_of_pos _ (by simpa using h), if_pos h]
    rfl
  · rw [dlookup_eq_map, List.find?_cons_of_neg _ (by simpa using h), if_neg h,
      dlookup_eq_map]

theorem dictAppend_dlookup {α β : Type} [DecidableEq α] (k : α) (v : β) (s : α) :
    ∀ d : List (α × List β),
      dlookup s (dictAppend k v d)
        = if s = k then some ((dlookup k d).getD [] ++ [v]) else dlookup s d := by
  intro d
  induction d with
  | nil =>
    by_cases hs : s = k
    · subst hs
      rw [if_pos rfl]
      show dlookup s [(s, [v])] = _
      rw [dlookup_single, if_pos rfl, dlookup_nil]
      rfl
    · rw [if_neg hs]
      show dlookup s [(k, [v])] = dlookup s []
      rw [dlookup_single, if_neg (fun h => hs h.symm), dlookup_nil]
  | cons e rest ih =>
    rw [dictAppend]
    by_cases hek : e.1 = k
    · rw [if_pos hek]
      simp only [dlookup_cons]
      by_cases hs : s = k
      · subst hs
        simp [hek]
      · have h1 : ¬ e.1 = s := fun h => hs (h.symm.trans hek)
        simp [h1, hs]
    · rw [if_neg hek]
      simp only [dlookup_cons, ih]
      by_cases hes : e.1 = s
      · have hs : ¬ s = k := fun h => hek (hes.trans h)
        simp [hes, hs]
      · by_cases hs : s = k
        · simp [hes, hs, hek]
        · simp [hes, hs]

theorem insertChar_targets (g : List ((Nat × Char) × Nat)) (s : Nat) (c : Char)
    (h : g.map (fun e => e.2) = List.range' 1 g.length) :
    (insertChar g s c).1.map (fun e => e.2)
      = List.range' 1 (insertChar g s c).1.length := by
  cases hd : dlookup (s, c) g with
  | some u =>
    rw [insertChar, hd]
    exact h
  | none =>
    rw [insertChar, hd]
    show (g ++ [((s, c), g.length + 1)]).map (fun e => e.2) = _
    rw [List.map_append, h, List.length_append]
    simp only [List.map_cons, List.map_nil, List.length_cons, List.length_nil]
    rw [List.range'_concat]
    congr 1
    simp [Nat.add_comm]

theorem insertPatternFrom_targets (p : Str) :
    ∀ (g : List ((Nat × Char) × Nat)) (s : Nat),
      g.map (fun e => e.2) = List.range' 1 g.length →
      (insertPatternFrom g s p).1.map (fun e => e.2)
        = List.range' 1 (insertPatternFrom g s p).1.length := by
  induction p with
  | nil =>
    intro g s h
    exact h
  | cons c p ih =>
    intro g s h
    rw [insertPatternFrom_cons]
    exact ih _ _ (insertChar_targets g s c h)

theorem acGotoFold_targets :
    ∀ (ps : List Str) (g : List ((Nat × Char) × Nat)),
      g.map (fun e => e.2) = List.range' 1 g.length →
      (acGotoFold ps g).map (fun e => e.2) = List.range' 1 (acGotoFold ps g).length := by
  intro ps
  induction ps with
  | nil =>
    intro g h
    exact h
  | cons p rest ih =>
    intro g h
    rw [acGotoFold_cons]
    apply ih
    rw [insertPattern_eq_from]
    exact insertPatternFrom_targets p g 0 h

theorem targets_inj {g : List ((Nat × Char) × Nat)}
    (hg : g.map (fun e => e.2) = List.range' 1 g.length)
    {k1 k2 : Nat × Char} {v : Nat} (h1 : (k1, v) ∈ g) (h2 : (k2, v) ∈ g) : k1 = k2 := by
  obtain ⟨i, hi, hgi⟩ := List.mem_iff_getElem.mp h1
  obtain ⟨j, hj, hgj⟩ := List.mem_iff_getElem.mp h2
  have hmi : i < (g.map (fun e => e.2)).length := by
    rw [List.length_map]
    exact hi
  have hmj : j < (g.map (fun e => e.2)).length := by
    rw [List.length_map]
    exact hj
  have hri : i < (List.range' 1 g.length).length := by
    rw [← hg]
    exact hmi
  have hrj : j < (List.range' 1 g.length).length := by
    rw [← hg]
    exact hmj
  have hvi : (List.range' 1 g.length)[i]? = some v := by
    rw [← hg, List.getElem?_eq_getElem hmi, List.getElem_map, hgi]
  have hvj : (List.range' 1 g.length)[j]? = some v := by
    rw [← hg, List.getElem?_eq_getElem hmj, List.getElem_map, hgj]
  have hvi2 : (List.range' 1 g.length)[i]? = some (1 + 1 * i) := by
    rw [List.getElem?_eq_getElem hri, List.getElem_range']
  have hvj2 : (List.range' 1 g.length)[j]? = some (1 + 1 * j) := by
    rw [List.getElem?_eq_getElem hrj, List.getElem_range']
  have hiv : v = 1 + 1 * i := Option.some.inj (hvi.symm.trans hvi2)
  have hjv : v = 1 + 1 * j := Option.some.inj (hvj.symm.trans hvj2)
  have hij : i = j := by omega
  subst hij
  have hkk : (k1, v) = (k2, v) := by rw [← hgi, ← hgj]
  exact (Prod.mk.injEq k1 v k2 v).mp hkk |>.1

theorem targets_pos {g : List ((Nat × Char) × Nat)}
    (hg : g.map (fun e => e.2) = List.range' 1 g.length)
    {k : Nat × Char} {v : Nat} (h : dlookup k g = some v) : 1 ≤ v := by
  have hmem : (k, v) ∈ g := dlookup_mem h
  have hv : v ∈ g.map (fun e => e.2) := List.mem_map.mpr ⟨(k, v), hmem, rfl⟩
  rw [hg] at hv
  exact (List.mem_range'_1.mp hv).1

theorem acWalkFrom_snoc (g : List ((Nat × Char) × Nat)) (c : Char) :
    ∀ (p : Str) (s : Nat),
      acWalkFrom g s (p ++ [c])
        = (acWalkFrom g s p).bind (fun u => dlookup (u, c) g) := by
  intro p
  induction p with
  | nil =>
    intro s
    show acWalkFrom g s [c] = (some s).bind (fun u => dlookup (u, c) g)
    have hr : (some s).bind (fun u => dlookup (u, c) g) = dlookup (s, c) g := rfl
    rw [hr]
    simp only [acWalkFrom]
    cases hd : dlookup (s, c) g with
    | none => rfl
    | some u => rfl
  | cons c0 p ih =>
    intro s
    show acWalkFrom g s (c0 :: (p ++ [c])) = _
    simp only [acWalkFrom]
    cases hd : dlookup (s, c0) g with
    | none => rfl
    | some u => exact ih u

theorem acWalk_to_zero {g : List ((Nat × Char) × Nat)}
    (hg : g.map (fun e => e.2) = List.range' 1 g.length) :
    ∀ p : Str, acWalkFrom g 0 p = some 0 → p = [] := by
  intro p h
  rcases List.eq_nil_or_concat p with rfl | ⟨q, c, rfl⟩
  · rfl
  · rw [List.concat_eq_append, acWalkFrom_snoc] at h
    cases hw : acWalkFrom g 0 q with
    | none =>
      rw [hw] at h
      cases h
    | some u =>
      rw [hw] at h
      have hd : dlookup (u, c) g = some 0 := h
      have h1 := targets_pos hg hd
      omega

theorem acWalk_inj {g : List ((Nat × Char) × Nat)}
    (hg : g.map (fun e => e.2) = List.range' 1 g.length) :
    ∀ (n : Nat) (p p' : Str) (s : Nat), p.length ≤ n →
      acWalkFrom g 0 p = some s → acWalkFrom g 0 p' = some s → p = p' := by
  intro n
  induction n with
  | zero =>
    intro p p' s hn h h'
    have hp : p = [] := List.eq_nil_of_length_eq_zero (by omega)
    subst hp
    have hs : s = 0 := (Option.some.inj h).symm
    subst hs
    exact (acWalk_to_zero hg p' h').symm
  | succ n ih =>
    intro p p' s hn h h'
    rcases List.eq_nil_or_concat p with rfl | ⟨q, c, rfl⟩
    · have hs : s = 0 := (Option.some.inj h).symm
      subst hs
      exact (acWalk_to_zero hg p' h').symm
    · rw [List.concat_eq_append] at hn h ⊢
      rw [acWalkFrom_snoc] at h
      cases hw : acWalkFrom g 0 q with
      | none =>
        rw [hw] at h
        cases h
      | some u =>
        rw [hw] at h
        have hd : dlookup (u, c) g = some s := h
        have hs1 : 1 ≤ s := targets_pos hg hd
        rcases List.eq_nil_or_concat p' with rfl | ⟨q', c', rfl⟩
        · have hs : 0 = s := Option.some.inj h'
          omega
        · rw [List.concat_eq_append] at h' ⊢
          rw [acWalkFrom_snoc] at h'
          cases hw' : acWalkFrom g 0 q' with
          | none =>
            rw [hw'] at h'
            cases h'
          | some u' =>
            rw [hw'] at h'
            have hd' : dlookup (u', c') g = some s := h'
            have hk := targets_inj hg (dlookup_mem hd) (dlookup_mem hd')
            have huc : u = u' ∧ c = c' := by
              constructor
              · exact congrArg Prod.fst hk
              · exact congrArg Prod.snd hk
            obtain ⟨hu, hc⟩ := huc
            subst hu
            subst hc
            have hqlen : q.length ≤ n := by
              rw [List.length_append] at hn
              simp only [List.length_cons, List.length_nil] at hn
              omega
            rw [ih q q' u hqlen hw hw']

/-! ## The goto-phase output dict: every pattern appended at its terminal
state, once per copy -/

theorem buildGotoOut_out_char :
    ∀ (ps : List Str) (g : List ((Nat × Char) × Nat)) (out : List (Nat × List Str))
      (s : Nat),
      dlookup s (ps.foldl (fun st p =>
          let gl := insertPattern st.1 p
          (gl.1, dictAppend gl.2 p st.2)) (g, out)).2
        = (if ps.filter (fun p => decide (acWalkFrom (acGotoFold ps g) 0 p = some s)) = []
           then dlookup s out
           else some ((dlookup s out).getD []
              ++ ps.filter (fun p =>
                  decide (acWalkFrom (acGotoFold ps g) 0 p = some s)))) := by
  intro ps
  induction ps with
  | nil =>
    intro g out s
    rw [List.foldl_nil, List.filter_nil, if_pos rfl]
  | cons p rest ih =>
    intro g out s
    rw [List.foldl_cons]
    show dlookup s (rest.foldl _ ((insertPattern g p).1,
        dictAppend (insertPattern g p).2 p out)).2 = _
    rw [ih, acGotoFold_cons, List.filter_cons, dictAppend_dlookup]
    obtain ⟨ext, hext⟩ := acGotoFold_grow rest (insertPattern g p).1
    have hwalkp : acWalkFrom (acGotoFold rest (insertPattern g p).1) 0 p
        = some (insertPattern g p).2 := by
      rw [hext, insertPattern_eq_from]
      exact acWalkFrom_mono p _ ext 0 _ (insertPatternFrom_walk p g 0)
    by_cases hs : s = (insertPattern g p).2
    · subst hs
      have hcond : (decide (acWalkFrom (acGotoFold rest (insertPattern g p).1) 0 p
          = some (insertPattern g p).2)) = true := by
        apply decide_eq_true
        exact hwalkp
      rw [if_pos hcond, if_pos rfl]
      rw [if_neg (List.cons_ne_nil p _)]
      by_cases hrf : rest.filter (fun p' =>
          decide (acWalkFrom (acGotoFold rest (insertPattern g p).1) 0 p'
            = some (insertPattern g p).2)) = []
      · rw [if_pos hrf, hrf]
      · rw [if_neg hrf, Option.getD_some, List.append_assoc, List.singleton_append]
    · have hcond : ¬ ((decide (acWalkFrom (acGotoFold rest (insertPattern g p).1) 0 p
          = some s)) = true) := by
        rw [hwalkp]
        simp
        exact fun h => hs h.symm
      rw [if_neg hcond, if_neg hs]

theorem buildGotoOut_snd_char (ps : List Str) (s : Nat) :
    dlookup s (buildGotoOut ps).2
      = (if ps.filter (fun p => decide (acWalkFrom (buildGotoOut ps).1 0 p = some s)) = []
         then none
         else some (ps.filter (fun p =>
            decide (acWalkFrom (buildGotoOut ps).1 0 p = some s)))) := by
  have h1 : (buildGotoOut ps).1 = acGotoFold ps [] := by
    rw [buildGotoOut]
    exact buildGotoOut_fst ps [] []
  have h2 := buildGotoOut_out_char ps [] [] s
  conv_lhs => rw [buildGotoOut]
  rw [h2, dlookup_nil, ← h1]
  by_cases hf : ps.filter (fun p =>
      decide (acWalkFrom (buildGotoOut ps).1 0 p = some s)) = []
  · rw [if_pos hf, if_pos hf]
  · rw [if_neg hf, if_neg hf]
    rfl

theorem buildGotoOut_targets (ps : List Str) :
    (buildGotoOut ps).1.map (fun e => e.2) = List.range' 1 (buildGotoOut ps).1.length := by
  have h1 : (buildGotoOut ps).1 = acGotoFold ps [] := by
    rw [buildGotoOut]
    exact buildGotoOut_fst ps [] []
  rw [h1]
  exact acGotoFold_targets ps [] rfl

theorem buildGotoOut_terminal_replicate (ps : List Str) (q : Str) (hq : q ∈ ps) :
    ∃ s, acWalk (buildGotoOut ps).1 q = some s ∧
      dlookup s (buildGotoOut ps).2 = some (List.replicate (ps.count q) q) := by
  have h1 : (buildGotoOut ps).1 = acGotoFold ps [] := by
    rw [buildGotoOut]
    exact buildGotoOut_fst ps [] []
  have htg := buildGotoOut_targets ps
  obtain ⟨s, hs⟩ : ∃ u, acWalkFrom (buildGotoOut ps).1 0 q = some u := by
    rw [h1]
    exact acGotoFold_walk_mem ps [] q hq
  refine ⟨s, by rw [acWalk]; exact hs, ?_⟩
  rw [buildGotoOut_snd_char]
  have hfilter : ps.filter (fun p => decide (acWalkFrom (buildGotoOut ps).1 0 p = some s))
      = ps.filter (fun p => p == q) := by
    apply List.filter_congr
    intro p hp
    by_cases hpq : p = q
    · subst hpq
      rw [hs]
      simp
    · cases hw : acWalkFrom (buildGotoOut ps).1 0 p with
      | none => simp [hpq]
      | some u =>
        by_cases hus : u = s
        · subst hus
          exact absurd (acWalk_inj htg p.length p q u le_rfl hw hs) hpq
        · simp [hpq, hus]
  rw [hfilter, List.filter_beq]
  have hc : 0 < ps.count q := List.count_pos_iff.mpr hq
  rw [if_neg ?_]
  intro h
  have h2 := congrArg List.length h
  simp only [List.length_replicate, List.length_nil] at h2
  omega

/-! ## The automaton of a list with duplicates versus its duplicate-free
automaton: identical goto, identical failure links, outputs replicated
once per copy -/

theorem buildGotoOut_uniq_fst (ps : List Str) :
    (buildGotoOut ps).1 = (buildGotoOut (uniq ps)).1 := by
  rw [buildGotoOut, buildGotoOut, buildGotoOut_fst, buildGotoOut_fst]
  exact acGotoFold_uniq ps.length ps le_rfl []

theorem filter_walk_replicate (ps' : List Str) {G : List ((Nat × Char) × Nat)}
    (htg : G.map (fun e => e.2) = List.range' 1 G.length)
    {q : Str} {s : Nat} (hs : acWalkFrom G 0 q = some s) :
    ps'.filter (fun p => decide (acWalkFrom G 0 p = some s))
      = List.replicate (ps'.count q) q := by
  have hfilter : ps'.filter (fun p => decide (acWalkFrom G 0 p = some s))
      = ps'.filter (fun p => p == q) := by
    apply List.filter_congr
    intro p hp
    by_cases hpq : p = q
    · subst hpq
      rw [hs]
      simp
    · cases hw : acWalkFrom G 0 p with
      | none => simp [hpq]
      | some u =>
        by_cases hus : u = s
        · subst hus
          exact absurd (acWalk_inj htg p.length p q u le_rfl hw hs) hpq
        · simp [hpq, hus]
  rw [hfilter, List.filter_beq]

theorem buildGotoOut_uniq_rel (ps : List Str) :
    ∀ s, dlookup s (buildGotoOut ps).2
      = Option.map (fun vs => vs.flatMap (fun e => List.replicate (ps.count e) e))
          (dlookup s (buildGotoOut (uniq ps)).2) := by
  intro s
  have hG := buildGotoOut_uniq_fst ps
  have htg := buildGotoOut_targets ps
  rw [buildGotoOut_snd_char, buildGotoOut_snd_char, ← hG]
  by_cases hup : ∃ q ∈ ps, acWalkFrom (buildGotoOut ps).1 0 q = some s
  · obtain ⟨q, hqmem, hqs⟩ := hup
    rw [filter_walk_replicate ps htg hqs, filter_walk_replicate (uniq ps) htg hqs]
    have hcu : (uniq ps).count q = 1 := count_uniq ps.length ps le_rfl q hqmem
    have hcp : 0 < ps.count q := List.count_pos_iff.mpr hqmem
    rw [hcu, List.replicate_one]
    rw [if_neg ?_, if_neg (List.cons_ne_nil q [])]
    · rw [Option.map_some', List.flatMap_cons, List.flatMap_nil, List.append_nil]
    · intro h
      have h2 := congrArg List.length h
      simp only [List.length_replicate, List.length_nil] at h2
      omega
  · have hfl : ps.filter (fun p => decide (acWalkFrom (buildGotoOut ps).1 0 p = some s))
        = [] := by
      rw [List.filter_eq_nil_iff]
      intro p hp
      simp only [decide_eq_true_eq]
      intro hw
      exact hup ⟨p, hp, hw⟩
    have hfu : (uniq ps).filter
        (fun p => decide (acWalkFrom (buildGotoOut ps).1 0 p = some s)) = [] := by
      rw [List.filter_eq_nil_iff]
      intro p hp
      simp only [decide_eq_true_eq]
      intro hw
      exact hup ⟨p, (mem_uniq ps.length ps le_rfl p).mp hp, hw⟩
    rw [hfl, hfu, if_pos rfl]
    rfl

theorem processChild_eq (g : List ((Nat × Char) × Nat)) (r : Nat) (q : List Nat)
    (f : List (Nat × Nat)) (out : List (Nat × List Str)) (cu : Char × Nat) :
    processChild g r (q, f, out) cu
      = (q ++ [cu.2], dset cu.2 (pcFu g r f cu) f, outUpd (pcFu g r f cu) cu.2 out) :=
  rfl

theorem outUpd_rel (F : List Str → List Str)
    (hF : ∀ a b : List Str, F (a ++ b) = F a ++ F b)
    (P : Str → Prop) (fu u : Nat) (out_l out_u : List (Nat × List Str))
    (hR : ∀ s, dlookup s out_l = Option.map F (dlookup s out_u))
    (hP : ∀ s vs, dlookup s out_u = some vs → ∀ e ∈ vs, P e) :
    (∀ s, dlookup s (outUpd fu u out_l) = Option.map F (dlookup s (outUpd fu u out_u))) ∧
    (∀ s vs, dlookup s (outUpd fu u out_u) = some vs → ∀ e ∈ vs, P e) := by
  rw [outUpd, outUpd]
  cases hfu : dlookup fu out_u with
  | none =>
    have hfl : dlookup fu out_l = none := by
      rw [hR fu, hfu]
      rfl
    rw [hfl]
    exact ⟨hR, hP⟩
  | some vs =>
    have hfl : dlookup fu out_l = some (F vs) := by
      rw [hR fu, hfu]
      rfl
    rw [hfl]
    have hvs : ∀ e ∈ vs, P e := hP fu vs hfu
    cases hu : dlookup u out_u with
    | none =>
      have hul : dlookup u out_l = none := by
        rw [hR u, hu]
        rfl
      rw [hul]
      constructor
      · intro s
        rw [dlookup_append, dlookup_append, dlookup_single, dlookup_single]
        by_cases hsu : u = s
        · subst hsu
          rw [hul, hu, if_pos rfl, if_pos rfl, Option.none_or, Option.none_or]
          rfl
        · rw [if_neg hsu, if_neg hsu, hR s]
          cases dlookup s out_u <;> rfl
      · intro s ws hws e he
        rw [dlookup_append, dlookup_single] at hws
        cases hsw : dlookup s out_u with
        | some ws2 =>
          rw [hsw] at hws
          have hw2 : ws2 = ws := Option.some.inj hws
          exact hP s ws2 hsw e (by rw [hw2]; exact he)
        | none =>
          rw [hsw, Option.none_or] at hws
          by_cases hsu : u = s
          · rw [if_pos hsu] at hws
            have hvw : vs = ws := Option.some.inj hws
            exact hvs e (by rw [hvw]; exact he)
          · rw [if_neg hsu] at hws
            cases hws
    | some us =>
      have hul : dlookup u out_l = some (F us) := by
        rw [hR u, hu]
        rfl
      rw [hul]
      have hus : ∀ e ∈ us, P e := hP u us hu
      constructor
      · intro s
        by_cases hsu : s = u
        · subst hsu
          rw [dlookup_dset_self, dlookup_dset_self, Option.map_some', hF]
        · rw [dlookup_dset_ne _ hsu, dlookup_dset_ne _ hsu]
          exact hR s
      · intro s ws hws e he
        by_cases hsu : s = u
        · subst hsu
          rw [dlookup_dset_self] at hws
          have huv : us ++ vs = ws := Option.some.inj hws
          rw [← huv] at he
          rcases List.mem_append.mp he with h1 | h1
          · exact hus e h1
          · exact hvs e h1
        · rw [dlookup_dset_ne _ hsu] at hws
          exact hP s ws hws e he

theorem foldl_processChild_rel (F : List Str → List Str)
    (hF : ∀ a b : List Str, F (a ++ b) = F a ++ F b) (P : Str → Prop)
    (g : List ((Nat × Char) × Nat)) (r : Nat) :
    ∀ (edges : List (Char × Nat)) (q : List Nat) (f : List (Nat × Nat))
      (out_l out_u : List (Nat × List Str)),
      (∀ s, dlookup s out_l = Option.map F (dlookup s out_u)) →
      (∀ s vs, dlookup s out_u = some vs → ∀ e ∈ vs, P e) →
      (edges.foldl (processChild g r) (q, f, out_l)).1
          = (edges.foldl (processChild g r) (q, f, out_u)).1 ∧
      (edges.foldl (processChild g r) (q, f, out_l)).2.1
          = (edges.foldl (processChild g r) (q, f, out_u)).2.1 ∧
      (∀ s, dlookup s (edges.foldl (processChild g r) (q, f, out_l)).2.2
          = Option.map F (dlookup s (edges.foldl (processChild g r) (q, f, out_u)).2.2)) ∧
      (∀ s vs, dlookup s (edges.foldl (processChild g r) (q, f, out_u)).2.2 = some vs →
        ∀ e ∈ vs, P e) := by
  intro edges
  induction edges with
  | nil =>
    intro q f out_l out_u hR hP
    exact ⟨rfl, rfl, hR, hP⟩
  | cons cu rest ih =>
    intro q f out_l out_u hR hP
    rw [List.foldl_cons, List.foldl_cons, processChild_eq, processChild_eq]
    obtain ⟨h1, h2⟩ := outUpd_rel F hF P (pcFu g r f cu) cu.2 out_l out_u hR hP
    exact ih _ _ _ _ h1 h2

theorem buildFailLoop_rel (F : List Str → List Str)
    (hF : ∀ a b : List Str, F (a ++ b) = F a ++ F b) (P : Str → Prop)
    (g : List ((Nat × Char) × Nat)) :
    ∀ (fuel : Nat) (queue : List Nat) (f : List (Nat × Nat))
      (out_l out_u : List (Nat × List Str)),
      (∀ s, dlookup s out_l = Option.map F (dlookup s out_u)) →
      (∀ s vs, dlookup s out_u = some vs → ∀ e ∈ vs, P e) →
      (buildFailLoop g fuel queue f out_l).1 = (buildFailLoop g fuel queue f out_u).1 ∧
      (∀ s, dlookup s (buildFailLoop g fuel queue f out_l).2
          = Option.map F (dlookup s (buildFailLoop g fuel queue f out_u).2)) ∧
      (∀ s vs, dlookup s (buildFailLoop g fuel queue f out_u).2 = some vs →
        ∀ e ∈ vs, P e) := by
  intro fuel
  induction fuel with
  | zero =>
    intro queue f out_l out_u hR hP
    exact ⟨rfl, hR, hP⟩
  | succ fuel ih =>
    intro queue f out_l out_u hR hP
    cases queue with
    | nil => exact ⟨rfl, hR, hP⟩
    | cons r rest =>
      simp only [buildFailLoop]
      obtain ⟨he1, he2, he3, he4⟩ :=
        foldl_processChild_rel F hF P g r (childEdges g r) rest f out_l out_u hR hP
      rw [he1, he2]
      exact ih _ _ _ _ he3 he4

theorem build_automaton_goto (ps : List Str) :
    (AhoCorasick.build_automaton ps).goto = (buildGotoOut ps).1 := rfl

theorem build_automaton_fail (ps : List Str) :
    (AhoCorasick.build_automaton ps).fail
      = (buildFailLoop (buildGotoOut ps).1 ((buildGotoOut ps).1.length + 1)
          ((childEdges (buildGotoOut ps).1 0).map (fun cu => cu.2))
          ((childEdges (buildGotoOut ps).1 0).map (fun cu => (cu.2, 0)))
          (buildGotoOut ps).2).1 := rfl

theorem build_automaton_out (ps : List Str) :
    (AhoCorasick.build_automaton ps).output
      = (buildFailLoop (buildGotoOut ps).1 ((buildGotoOut ps).1.length + 1)
          ((childEdges (buildGotoOut ps).1 0).map (fun cu => cu.2))
          ((childEdges (buildGotoOut ps).1 0).map (fun cu => (cu.2, 0)))
          (buildGotoOut ps).2).2 := rfl

/-- Building from a list with repeated patterns yields the same goto and
failure structures as building from its first-occurrence deduplication, and
an output dict whose every list replicates the duplicate-free one's entries
once per copy in the original list. -/
theorem build_automaton_uniq (ps : List Str) :
    (AhoCorasick.build_automaton ps).goto = (AhoCorasick.build_automaton (uniq ps)).goto ∧
    (AhoCorasick.build_automaton ps).fail = (AhoCorasick.build_automaton (uniq ps)).fail ∧
    (∀ s, dlookup s (AhoCorasick.build_automaton ps).output
        = Option.map (fun vs => vs.flatMap (fun e => List.replicate (ps.count e) e))
            (dlookup s (AhoCorasick.build_automaton (uniq ps)).output)) ∧
    (∀ s vs, dlookup s (AhoCorasick.build_automaton (uniq ps)).output = some vs →
      ∀ e ∈ vs, e ∈ ps) := by
  have hG := buildGotoOut_uniq_fst ps
  have hF : ∀ a b : List Str,
      (a ++ b).flatMap (fun e => List.replicate (ps.count e) e)
        = a.flatMap (fun e => List.replicate (ps.count e) e)
          ++ b.flatMap (fun e => List.replicate (ps.count e) e) :=
    fun a b => List.flatMap_append a b _
  have hinit := buildGotoOut_uniq_rel ps
  have hinitP : ∀ s vs, dlookup s (buildGotoOut (uniq ps)).2 = some vs →
      ∀ e ∈ vs, e ∈ ps := by
    intro s vs hvs e he
    rw [buildGotoOut_snd_char] at hvs
    by_cases hf : (uniq ps).filter
        (fun p => decide (acWalkFrom (buildGotoOut (uniq ps)).1 0 p = some s)) = []
    · rw [if_pos hf] at hvs
      cases hvs
    · rw [if_neg hf] at hvs
      have hfv := Option.some.inj hvs
      rw [← hfv] at he
      have hu := List.mem_of_mem_filter he
      exact (mem_uniq ps.length ps le_rfl e).mp hu
  have hinit2 : ∀ s, dlookup s (buildGotoOut ps).2
      = Option.map (fun vs => vs.flatMap (fun e => List.replicate (ps.count e) e))
          (dlookup s (buildGotoOut (uniq ps)).2) := hinit
  obtain ⟨hfail, hout, houtP⟩ :=
    buildFailLoop_rel (fun vs => vs.flatMap (fun e => List.replicate (ps.count e) e))
      hF (fun e => e ∈ ps) (buildGotoOut ps).1 ((buildGotoOut ps).1.length + 1)
      ((childEdges (buildGotoOut ps).1 0).map (fun cu => cu.2))
      ((childEdges (buildGotoOut ps).1 0).map (fun cu => (cu.2, 0)))
      (buildGotoOut ps).2 (buildGotoOut (uniq ps)).2 hinit2 hinitP
  refine ⟨?_, ?_, ?_, ?_⟩
  · rw [build_automaton_goto, build_automaton_goto, hG]
  · rw [build_automaton_fail, build_automaton_fail, ← hG]
    exact hfail
  · rw [build_automaton_out, build_automaton_out, ← hG]
    exact hout
  · rw [build_automaton_out, ← hG]
    exact houtP

/-! ## The scan over related automata: every reported position once per copy -/

theorem block_lookup (ii : Nat) (e : Str) :
    ∀ n : Nat, 1 ≤ n → ∀ (res : List (Str × List Nat)) (q : Str),
      dlookup q ((List.replicate n e).foldl
          (fun res p => dictAppend p (ii + 1 - p.length) res) res)
        = (if q = e
           then some ((dlookup e res).getD [] ++ List.replicate n (ii + 1 - e.length))
           else dlookup q res) := by
  intro n
  induction n with
  | zero =>
    intro h
    omega
  | succ n ih =>
    intro _ res q
    rw [List.replicate_succ, List.foldl_cons]
    cases n with
    | zero =>
      rw [List.replicate_zero, List.foldl_nil, dictAppend_dlookup]
      by_cases hqe : q = e
      · simp [hqe]
      · simp [hqe]
    | succ m =>
      rw [ih (by omega) _ q]
      by_cases hqe : q = e
      · rw [if_pos hqe, if_pos hqe, dictAppend_dlookup, if_pos rfl, Option.getD_some,
          List.append_assoc]
        congr 2
      · rw [if_neg hqe, if_neg hqe, dictAppend_dlookup, if_neg hqe]

theorem foldl_dictAppend_rel (ii : Nat) (cnt : Str → Nat) :
    ∀ pats : List Str, (∀ e ∈ pats, 1 ≤ cnt e) →
      ∀ res_l res_u : List (Str × List Nat),
        (∀ q, dlookup q res_l
            = Option.map (fun poss => poss.flatMap
                (fun pos => List.replicate (cnt q) pos)) (dlookup q res_u)) →
        ∀ q, dlookup q ((pats.flatMap (fun e => List.replicate (cnt e) e)).foldl
              (fun res p => dictAppend p (ii + 1 - p.length) res) res_l)
          = Option.map (fun poss => poss.flatMap (fun pos => List.replicate (cnt q) pos))
              (dlookup q (pats.foldl
                (fun res p => dictAppend p (ii + 1 - p.length) res) res_u)) := by
  intro pats
  induction pats with
  | nil =>
    intro _ res_l res_u hR q
    exact hR q
  | cons e rest ih =>
    intro hcnt res_l res_u hR
    rw [List.flatMap_cons, List.foldl_append, List.foldl_cons]
    apply ih (fun x hx => hcnt x (List.mem_cons_of_mem e hx))
    intro q
    rw [block_lookup ii e (cnt e) (hcnt e (List.mem_cons_self e rest)) res_l q,
      dictAppend_dlookup]
    by_cases hqe : q = e
    · subst hqe
      rw [if_pos rfl, if_pos rfl, Option.map_some', List.flatMap_append]
      have hgd : (dlookup q res_l).getD []
          = ((dlookup q res_u).getD []).flatMap
              (fun pos => List.replicate (cnt q) pos) := by
        rw [hR q]
        cases dlookup q res_u with
        | none => rfl
        | some xs => rfl
      rw [hgd]
      congr 1
      rw [List.flatMap_cons, List.flatMap_nil, List.append_nil]
    · rw [if_neg hqe, if_neg hqe]
      exact hR q

theorem acStepChar_eq (ac : AhoCorasick) (st : Nat × List (Str × List Nat))
    (ic : Nat × Char) :
    acStepChar ac st ic
      = (acNext ac st.1 ic.2, acRecord ac (acNext ac st.1 ic.2) ic.1 st.2) := rfl

theorem acNext_out (G : List ((Nat × Char) × Nat)) (fl : List (Nat × Nat))
    (o1 o2 : List (Nat × List Str)) (st : Nat) (c : Char) :
    acNext ⟨G, fl, o1⟩ st c = acNext ⟨G, fl, o2⟩ st c := rfl

theorem acRecord_rel (G : List ((Nat × Char) × Nat)) (fl : List (Nat × Nat))
    (out_l out_u : List (Nat × List Str)) (cnt : Str → Nat)
    (hRout : ∀ s, dlookup s out_l
        = Option.map (fun vs => vs.flatMap (fun e => List.replicate (cnt e) e))
            (dlookup s out_u))
    (hPout : ∀ s vs, dlookup s out_u = some vs → ∀ e ∈ vs, 1 ≤ cnt e)
    (s i : Nat) (res_l res_u : List (Str × List Nat))
    (hRres : ∀ q, dlookup q res_l
        = Option.map (fun poss => poss.flatMap (fun pos => List.replicate (cnt q) pos))
            (dlookup q res_u)) :
    ∀ q, dlookup q (acRecord ⟨G, fl, out_l⟩ s i res_l)
      = Option.map (fun poss => poss.flatMap (fun pos => List.replicate (cnt q) pos))
          (dlookup q (acRecord ⟨G, fl, out_u⟩ s i res_u)) := by
  intro q
  cases hpu : dlookup s out_u with
  | none =>
    have hpl : dlookup s out_l = none := by
      rw [hRout s, hpu]
      rfl
    have h1 : acRecord ⟨G, fl, out_l⟩ s i res_l = res_l := by
      rw [acRecord]
      show (match dlookup s out_l with
        | some pats => pats.foldl
            (fun res (p : Str) => dictAppend p (i + 1 - p.length) res) res_l
        | none => res_l) = res_l
      rw [hpl]
    have h2 : acRecord ⟨G, fl, out_u⟩ s i res_u = res_u := by
      rw [acRecord]
      show (match dlookup s out_u with
        | some pats => pats.foldl
            (fun res (p : Str) => dictAppend p (i + 1 - p.length) res) res_u
        | none => res_u) = res_u
      rw [hpu]
    rw [h1, h2]
    exact hRres q
  | some pats =>
    have hpl : dlookup s out_l
        = some (pats.flatMap (fun e => List.replicate (cnt e) e)) := by
      rw [hRout s, hpu]
      rfl
    have h1 : acRecord ⟨G, fl, out_l⟩ s i res_l
        = (pats.flatMap (fun e => List.replicate (cnt e) e)).foldl
            (fun res p => dictAppend p (i + 1 - p.length) res) res_l := by
      rw [acRecord]
      show (match dlookup s out_l with
        | some ws => ws.foldl
            (fun res (p : Str) => dictAppend p (i + 1 - p.length) res) res_l
        | none => res_l) = _
      rw [hpl]
    have h2 : acRecord ⟨G, fl, out_u⟩ s i res_u
        = pats.foldl (fun res p => dictAppend p (i + 1 - p.length) res) res_u := by
      rw [acRecord]
      show (match dlookup s out_u with
        | some ws => ws.foldl
            (fun res (p : Str) => dictAppend p (i + 1 - p.length) res) res_u
        | none => res_u) = _
      rw [hpu]
    rw [h1, h2]
    exact foldl_dictAppend_rel i cnt pats (hPout s pats hpu) res_l res_u hRres q

theorem acSearchFold_rel (G : List ((Nat × Char) × Nat)) (fl : List (Nat × Nat))
    (out_l out_u : List (Nat × List Str)) (cnt : Str → Nat)
    (hRout : ∀ s, dlookup s out_l
        = Option.map (fun vs => vs.flatMap (fun e => List.replicate (cnt e) e))
            (dlookup s out_u))
    (hPout : ∀ s vs, dlookup s out_u = some vs → ∀ e ∈ vs, 1 ≤ cnt e) :
    ∀ (tl : List (Nat × Char)) (st : Nat) (res_l res_u : List (Str × List Nat)),
      (∀ q, dlookup q res_l
          = Option.map (fun poss => poss.flatMap (fun pos => List.replicate (cnt q) pos))
              (dlookup q res_u)) →
      (tl.foldl (acStepChar ⟨G, fl, out_l⟩) (st, res_l)).1
          = (tl.foldl (acStepChar ⟨G, fl, out_u⟩) (st, res_u)).1 ∧
      (∀ q, dlookup q (tl.foldl (acStepChar ⟨G, fl, out_l⟩) (st, res_l)).2
          = Option.map (fun poss => poss.flatMap (fun pos => List.replicate (cnt q) pos))
              (dlookup q (tl.foldl (acStepChar ⟨G, fl, out_u⟩) (st, res_u)).2)) := by
  intro tl
  induction tl with
  | nil =>
    intro st res_l res_u hRres
    exact ⟨rfl, hRres⟩
  | cons ic rest ih =>
    intro st res_l res_u hRres
    rw [List.foldl_cons, List.foldl_cons, acStepChar_eq, acStepChar_eq,
      acNext_out G fl out_l out_u]
    exact ih _ _ _ (acRecord_rel G fl out_l out_u cnt hRout hPout _ ic.1 res_l res_u hRres)

/-- The scan of the automaton built from a list with repeated patterns
reports, for every pattern, each position of the duplicate-free scan
repeated once per copy. -/
theorem acSearch_uniq_rel (ps : List Str) (T : Str) :
    ∀ q, dlookup q ((AhoCorasick.build_automaton ps).search T)
      = Option.map (fun poss => poss.flatMap
          (fun pos => List.replicate (ps.count q) pos))
          (dlookup q ((AhoCorasick.build_automaton (uniq ps)).search T)) := by
  obtain ⟨hgoto, hfail, hout, houtP⟩ := build_automaton_uniq ps
  have hilk : AhoCorasick.build_automaton ps
      = ⟨(AhoCorasick.build_automaton ps).goto, (AhoCorasick.build_automaton ps).fail,
          (AhoCorasick.build_automaton ps).output⟩ := rfl
  have hulk : AhoCorasick.build_automaton (uniq ps)
      = ⟨(AhoCorasick.build_automaton ps).goto, (AhoCorasick.build_automaton ps).fail,
          (AhoCorasick.build_automaton (uniq ps)).output⟩ := by
    rw [hgoto, hfail]
  have hPout : ∀ s vs, dlookup s (AhoCorasick.build_automaton (uniq ps)).output
      = some vs → ∀ e ∈ vs, 1 ≤ ps.count e := by
    intro s vs hvs e he
    exact List.count_pos_iff.mpr (houtP s vs hvs e he)
  intro q
  rw [AhoCorasick.search, AhoCorasick.search]
  conv_lhs => rw [hilk]
  conv_rhs => rw [hulk]
  exact (acSearchFold_rel (AhoCorasick.build_automaton ps).goto
      (AhoCorasick.build_automaton ps).fail (AhoCorasick.build_automaton ps).output
      (AhoCorasick.build_automaton (uniq ps)).output (fun e => ps.count e)
      hout hPout T.enum 0 [] [] (fun _ => rfl)).2 q

/-! ## Counting positions through the dispatcher's merge and regroup -/

theorem dictAppend_keys {α β : Type} [DecidableEq α] (k : α) (v : β) :
    ∀ d : List (α × List β),
      (dictAppend k v d).map (fun e => e.1)
        = (if k ∈ d.map (fun e => e.1) then d.map (fun e => e.1)
           else d.map (fun e => e.1) ++ [k]) := by
  intro d
  induction d with
  | nil => rfl
  | cons e rest ih =>
    rw [dictAppend]
    by_cases hek : e.1 = k
    · rw [if_pos hek]
      have hmem : k ∈ (e :: rest).map (fun e => e.1) := by
        simp only [List.map_cons, List.mem_cons]
        exact Or.inl hek.symm
      rw [if_pos hmem]
      simp [hek]
    · rw [if_neg hek]
      simp only [List.map_cons]
      rw [ih]
      by_cases hk : k ∈ rest.map (fun e => e.1)
      · rw [if_pos hk, if_pos (List.mem_cons_of_mem _ hk)]
      · rw [if_neg hk, if_neg ?_]
        · rfl
        · intro hmem
          rcases List.mem_cons.mp hmem with h1 | h1
          · exact hek h1.symm
          · exact hk h1

theorem nodup_concat {α : Type} {l : List α} {k : α} (h : l.Nodup) (hk : k ∉ l) :
    (l ++ [k]).Nodup := by
  rw [List.nodup_append]
  refine ⟨h, List.nodup_singleton k, ?_⟩
  intro a ha hb
  rw [List.mem_singleton] at hb
  subst hb
  exact hk ha

theorem dictAppend_keys_nodup {α β : Type} [DecidableEq α] (k : α) (v : β)
    (d : List (α × List β)) (h : (d.map (fun e => e.1)).Nodup) :
    ((dictAppend k v d).map (fun e => e.1)).Nodup := by
  rw [dictAppend_keys]
  by_cases hk : k ∈ d.map (fun e => e.1)
  · rw [if_pos hk]
    exact h
  · rw [if_neg hk]
    exact nodup_concat h hk

theorem foldl_dictAppend_keys_nodup (ii : Nat) :
    ∀ (pats : List Str) (res : List (Str × List Nat)),
      (res.map (fun e => e.1)).Nodup →
      (((pats.foldl (fun res p => dictAppend p (ii + 1 - p.length) res) res)).map
        (fun e => e.1)).Nodup := by
  intro pats
  induction pats with
  | nil =>
    intro res h
    exact h
  | cons p rest ih =>
    intro res h
    rw [List.foldl_cons]
    exact ih _ (dictAppend_keys_nodup p _ res h)

theorem acRecord_keys_nodup (ac : AhoCorasick) (s i : Nat)
    (res : List (Str × List Nat)) (h : (res.map (fun e => e.1)).Nodup) :
    ((acRecord ac s i res).map (fun e => e.1)).Nodup := by
  rw [acRecord]
  cases hpk : dlookup s ac.output with
  | none => exact h
  | some pats => exact foldl_dictAppend_keys_nodup i pats res h

theorem acSearchFold_keys_nodup (ac : AhoCorasick) :
    ∀ (tl : List (Nat × Char)) (st : Nat) (res : List (Str × List Nat)),
      (res.map (fun e => e.1)).Nodup →
      (((tl.foldl (acStepChar ac) (st, res)).2).map (fun e => e.1)).Nodup := by
  intro tl
  induction tl with
  | nil =>
    intro st res h
    exact h
  | cons ic rest ih =>
    intro st res h
    rw [List.foldl_cons, acStepChar_eq]
    exact ih _ _ (acRecord_keys_nodup ac _ ic.1 res h)

theorem acSearch_keys_nodup (ac : AhoCorasick) (T : Str) :
    (((ac.search T)).map (fun e => e.1)).Nodup := by
  rw [AhoCorasick.search]
  exact acSearchFold_keys_nodup ac T.enum 0 [] List.nodup_nil

theorem count_pair_map (a : Str) (pos : Nat) :
    ∀ li : List Nat, ((li.map (fun y => (y, a))).count (pos, a)) = li.count pos := by
  intro li
  induction li with
  | nil => rfl
  | cons y rest ih =>
    rw [List.map_cons, List.count_cons, List.count_cons, ih]
    congr 1
    by_cases hy : y = pos
    · simp [hy]
    · simp [hy]

theorem count_pair_map_ne {a q : Str} (hne : a ≠ q) (li : List Nat) (pos : Nat) :
    ((li.map (fun y => (y, a))).count (pos, q)) = 0 := by
  rw [List.count_eq_zero]
  intro hmem
  obtain ⟨y, _, hy⟩ := List.mem_map.mp hmem
  exact hne (congrArg Prod.snd hy)

theorem count_pair_flatMap (q : Str) (pos : Nat) :
    ∀ res : List (Str × List Nat), ((res.map (fun e => e.1)).Nodup) →
      ((res.flatMap (fun e => e.2.map (fun y => (y, e.1)))).count (pos, q))
        = ((dlookup q res).getD []).count pos := by
  intro res
  induction res with
  | nil =>
    intro _
    rfl
  | cons e rest ih =>
    intro hnd
    rw [List.flatMap_cons, List.count_append, dlookup_cons]
    simp only [List.map_cons] at hnd
    have hnd2 := hnd.of_cons
    have hknot : e.1 ∉ rest.map (fun e2 => e2.1) := by
      intro hmem
      exact (List.pairwise_cons.mp hnd).1 e.1 hmem rfl
    by_cases heq : e.1 = q
    · rw [if_pos heq]
      have hrest0 : ((rest.flatMap (fun e2 => e2.2.map (fun y => (y, e2.1)))).count
          (pos, q)) = 0 := by
        rw [List.count_eq_zero]
        intro hmem
        obtain ⟨e2, he2, hy⟩ := List.mem_flatMap.mp hmem
        obtain ⟨y, _, hyy⟩ := List.mem_map.mp hy
        have hq2 : e2.1 = q := congrArg Prod.snd hyy
        apply hknot
        rw [← heq] at hq2
        exact List.mem_map.mpr ⟨e2, he2, hq2⟩
      rw [hrest0]
      subst heq
      rw [count_pair_map]
      rfl
    · rw [if_neg heq, count_pair_map_ne heq]
      rw [Nat.zero_add]
      exact ih hnd2

theorem count_fst_filter (q : Str) (pos : Nat) :
    ∀ pairs : List (Nat × Str),
      (((pairs.filter (fun e => decide (e.2 = q))).map (fun e => e.1)).count pos)
        = pairs.count (pos, q) := by
  intro pairs
  induction pairs with
  | nil => rfl
  | cons e rest ih =>
    rw [List.filter_cons, List.count_cons]
    by_cases he2 : e.2 = q
    · rw [if_pos (by simpa using he2), List.map_cons, List.count_cons, ih]
      congr 1
      by_cases he1 : e.1 = pos
      · have hep : e = (pos, q) := by
          rw [← he1, ← he2]
        simp [hep, he1]
      · have hep : ¬ e = (pos, q) := by
          intro h
          exact he1 (congrArg Prod.fst h)
        simp [hep, he1]
    · rw [if_neg (by simpa using he2), ih]
      have hep : ¬ e = (pos, q) := by
        intro h
        exact he2 (congrArg Prod.snd h)
      simp [hep]

theorem count_flatMap_replicate (k : Nat) (pos : Nat) :
    ∀ xs : List Nat,
      ((xs.flatMap (fun y => List.replicate k y)).count pos) = k * xs.count pos := by
  intro xs
  induction xs with
  | nil => simp
  | cons y rest ih =>
    rw [List.flatMap_cons, List.count_append, ih, List.count_cons, List.count_replicate]
    by_cases hy : y = pos
    · have hb : (y == pos) = true := by simp [hy]
      rw [hb, if_pos rfl, if_pos rfl, Nat.mul_add, Nat.mul_one]
      omega
    · have hb : (y == pos) = false := by simp [hy]
      rw [hb, if_neg Bool.false_ne_true, if_neg Bool.false_ne_true]
      simp

/-- C8: over any pattern list (mixed lists with repeated entries included,
also entries equal only after lowercasing when case-insensitive), the goto
phase appends each pattern to its terminal state's output list once per
copy; the full automaton has the same goto and failure structures as the
one built from the first-occurrence-deduplicated list, with every output
list replicated once per copy; the scan reports every position once per
copy; and the dispatcher's dict value for each original entry counts every
position once per copy of its processed pattern. -/
theorem claim_C8_duplicates (t : Str) (cs : Bool) (l : List Str) :
    (∀ q ∈ multiPatterns cs l, ∃ s,
      acWalk (buildGotoOut (multiPatterns cs l)).1 q = some s ∧
      dlookup s (buildGotoOut (multiPatterns cs l)).2
        = some (List.replicate ((multiPatterns cs l).count q) q)) ∧
    ((AhoCorasick.build_automaton (multiPatterns cs l)).goto
      = (AhoCorasick.build_automaton (uniq (multiPatterns cs l))).goto) ∧
    ((AhoCorasick.build_automaton (multiPatterns cs l)).fail
      = (AhoCorasick.build_automaton (uniq (multiPatterns cs l))).fail) ∧
    (∀ s, dlookup s (AhoCorasick.build_automaton (multiPatterns cs l)).output
      = Option.map (fun vs => vs.flatMap
          (fun e => List.replicate ((multiPatterns cs l).count e) e))
        (dlookup s (AhoCorasick.build_automaton (uniq (multiPatterns cs l))).output)) ∧
    (∀ q, dlookup q
        ((AhoCorasick.build_automaton (multiPatterns cs l)).search (procStr cs t))
      = Option.map (fun poss => poss.flatMap
          (fun pos => List.replicate ((multiPatterns cs l).count q) pos))
        (dlookup q ((AhoCorasick.build_automaton (uniq (multiPatterns cs l))).search
          (procStr cs t)))) ∧
    (∀ x ∈ l, ∃ v,
      dlookup x (regroup cs l (mergedPairs t cs l)) = some v ∧
      ∀ pos, (v.getD []).count pos
        = (multiPatterns cs l).count (procStr cs x)
          * (((dlookup (procStr cs x)
              ((AhoCorasick.build_automaton (uniq (multiPatterns cs l))).search
                (procStr cs t))).getD []).count pos)) ∧
    (t ≠ [] → l ≠ [] → multiPatterns cs l ≠ [] →
      (regroup cs l (mergedPairs t cs l)).any (fun e => e.2.isSome) = true →
      search t (.list l) cs "first".toList none
        = some (.inr (regroup cs l (mergedPairs t cs l)))) := by
  have hfl : ¬(("first".toList : Str) = "last".toList) := by decide
  obtain ⟨hgoto, hfail, hout, houtP⟩ := build_automaton_uniq (multiPatterns cs l)
  refine ⟨?_, hgoto, hfail, hout, acSearch_uniq_rel _ _, ?_, ?_⟩
  · intro q hq
    exact buildGotoOut_terminal_replicate _ q hq
  · intro x hx
    refine ⟨(if ((mergedPairs t cs l).filter
          (fun e => decide (e.2 = procStr cs x))).map (fun e => e.1) = []
        then none
        else some (((mergedPairs t cs l).filter
          (fun e => decide (e.2 = procStr cs x))).map (fun e => e.1))), ?_, ?_⟩
    · rw [regroup]
      exact foldl_dset_mem
        (fun op => if ((mergedPairs t cs l).filter
              (fun e => decide (e.2 = procStr cs op))).map (fun e => e.1) = []
            then none
            else some (((mergedPairs t cs l).filter
              (fun e => decide (e.2 = procStr cs op))).map (fun e => e.1)))
        l [] hx
    · intro pos
      have hchain : (((mergedPairs t cs l).filter
          (fun e => decide (e.2 = procStr cs x))).map (fun e => e.1)).count pos
          = (multiPatterns cs l).count (procStr cs x)
            * (((dlookup (procStr cs x)
                ((AhoCorasick.build_automaton (uniq (multiPatterns cs l))).search
                  (procStr cs t))).getD []).count pos) := by
        have h1 := count_fst_filter (procStr cs x) pos (mergedPairs t cs l)
        have h2 : (mergedPairs t cs l).count (pos, procStr cs x)
            = (((AhoCorasick.build_automaton (multiPatterns cs l)).search
                (procStr cs t)).flatMap
                (fun e => e.2.map (fun y => (y, e.1)))).count (pos, procStr cs x) := by
          rw [mergedPairs]
          exact (List.mergeSort_perm _ _).countP_eq _
        have hnd := acSearch_keys_nodup
          (AhoCorasick.build_automaton (multiPatterns cs l)) (procStr cs t)
        have h3 := count_pair_flatMap (procStr cs x) pos
          ((AhoCorasick.build_automaton (multiPatterns cs l)).search (procStr cs t)) hnd
        have h4 := acSearch_uniq_rel (multiPatterns cs l) (procStr cs t) (procStr cs x)
        rw [h1, h2, h3, h4]
        cases hru : dlookup (procStr cs x)
            ((AhoCorasick.build_automaton (uniq (multiPatterns cs l))).search
              (procStr cs t)) with
        | none => simp
        | some poss =>
          rw [Option.map_some', Option.getD_some, Option.getD_some]
          exact count_flatMap_replicate ((multiPatterns cs l).count (procStr cs x))
            pos poss
      by_cases hm : ((mergedPairs t cs l).filter
          (fun e => decide (e.2 = procStr cs x))).map (fun e => e.1) = []
      · rw [if_pos hm]
        rw [hm] at hchain
        exact hchain
      · rw [if_neg hm]
        exact hchain
  · intro ht hl hmp hany
    simp only [search, applyCount]
    rw [if_neg ht, if_neg hl, if_neg hmp, if_neg hfl, if_pos hany]

theorem claim_C8_witness :
    (("aba".toList : Str) ∈ multiPatterns false
      ["aba".toList, "bba".toList, "aba".toList]) ∧
    ((multiPatterns false ["aba".toList, "bba".toList, "aba".toList]).count
      "aba".toList = 2) ∧
    (∃ s, acWalk (buildGotoOut (multiPatterns false
          ["aba".toList, "bba".toList, "aba".toList])).1 "aba".toList = some s ∧
      dlookup s (buildGotoOut (multiPatterns false
          ["aba".toList, "bba".toList, "aba".toList])).2
        = some (List.replicate ((multiPatterns false
            ["aba".toList, "bba".toList, "aba".toList]).count "aba".toList)
          "aba".toList)) ∧
    (∃ v, dlookup "aba".toList (regroup false ["aba".toList, "bba".toList, "aba".toList]
        (mergedPairs "ababba".toList false ["aba".toList, "bba".toList, "aba".toList]))
        = some v ∧
      ∀ pos, (v.getD []).count pos
        = (multiPatterns false ["aba".toList, "bba".toList, "aba".toList]).count
            (procStr false "aba".toList)
          * (((dlookup (procStr false "aba".toList)
              ((AhoCorasick.build_automaton (uniq (multiPatterns false
                ["aba".toList, "bba".toList, "aba".toList]))).search
                (procStr false "ababba".toList))).getD []).count pos)) := by
  have h := claim_C8_duplicates "ababba".toList false
    ["aba".toList, "bba".toList, "aba".toList]
  exact ⟨by decide, by decide, h.1 "aba".toList (by decide),
    h.2.2.2.2.2.1 "aba".toList (by decide)⟩

end ADS
